import Mathlib

/-! Verification of the CliqueAI maximum-clique solver and response scorer.

This file is a shallow embedding of `CliqueAI/solver/max_clique_solver.py` and
`CliqueAI/scoring/clique_scoring.py`, together with proofs about the embedded
functions.

Modelling conventions:
* Python unbounded non-negative integers used as bitmasks become `Nat` with its
  bitwise operations (which the kernel evaluates on literals).
* The Python idiom `a & ~b` (clear in `a` every bit of `b`) is embedded as
  `a ^^^ (a &&& b)`, which is extensionally the same operation on set bits.
* The wall-clock deadline test `time.perf_counter() < self.deadline` is
  modelled by a `fuel : Nat` argument.  The clock is monotone and the deadline
  fixed, so along an execution the deadline checks succeed some number of times
  and fail ever after; `fuel` abstracts the number of checks that still
  succeed.  Exhausted fuel at a check point is the `TimeoutError` path and is
  returned as `Sum.inl` carrying the solver state at that moment, mirroring how
  the Python exception unwinds while the mutated solver attributes survive.
* `while` loops over shrinking bitmasks get an explicit structural fuel
  argument, always instantiated with the mask itself; the mask strictly
  decreases as a natural number at every iteration, so this fuel is enough and
  the out-of-fuel branches are unreachable at those instantiations.
-/

namespace CliqueAI

/-- Embeds `_lsb_index(x) = (x & -x).bit_length() - 1`: the index of the lowest
set bit of `x`.  Structural fuel, instantiated with `x` itself below. -/
def lsb_aux : Nat → Nat → Nat
  | 0, _ => 0
  | fuel+1, x => if x % 2 = 1 then 0 else lsb_aux fuel (x / 2) + 1

/-- Index of the lowest set bit (`_lsb_index` in the source). -/
def lsb_index (x : Nat) : Nat := lsb_aux x x

/-- Embeds Python `int.bit_count()` (population count). -/
def bit_count_aux : Nat → Nat → Nat
  | 0, _ => 0
  | fuel+1, x => if x = 0 then 0 else x % 2 + bit_count_aux fuel (x / 2)

/-- Population count of a bitmask (`int.bit_count()` in the source). -/
def bit_count (x : Nat) : Nat := bit_count_aux x x

/-- Embeds the Python idiom `a & ~b` on unbounded non-negative integers. -/
def and_not (a b : Nat) : Nat := a ^^^ (a &&& b)

/-- Embeds `_bits_to_list`: the loop `while x: out.append(lsb(x)); x &= x - 1`
producing the indices of the set bits in ascending order. -/
def bits_to_list_aux : Nat → Nat → List Nat
  | 0, _ => []
  | fuel+1, x =>
    if x = 0 then []
    else lsb_index x :: bits_to_list_aux fuel (x &&& (x - 1))

/-- Set-bit indices of a mask, ascending (`_bits_to_list` in the source). -/
def bits_to_list (x : Nat) : List Nat := bits_to_list_aux x x

/-! ### Characterizations of the bit-level helpers -/

theorem testBit_and_not (a b i : Nat) :
    (and_not a b).testBit i = (a.testBit i && !(b.testBit i)) := by
  simp only [and_not, Nat.testBit_xor, Nat.testBit_land]
  cases a.testBit i <;> cases b.testBit i <;> rfl

theorem le_of_testBit_subset :
    ∀ a b : Nat, (∀ i, a.testBit i = true → b.testBit i = true) → a ≤ b := by
  intro a
  induction a using Nat.strong_induction_on with
  | _ a ih =>
    intro b hsub
    rcases Nat.eq_zero_or_pos a with h0 | hpos
    · omega
    have hdiv : a / 2 ≤ b / 2 := by
      refine ih (a / 2) (by omega) (b / 2) ?_
      intro i hi
      rw [← Nat.testBit_succ] at hi ⊢
      exact hsub (i + 1) hi
    have hmod : a % 2 = 1 → b % 2 = 1 := by
      intro h1
      have := hsub 0 (by simp [Nat.testBit_zero, h1])
      simpa [Nat.testBit_zero] using this
    omega

theorem and_not_le (a b : Nat) : and_not a b ≤ a := by
  refine le_of_testBit_subset _ _ fun i hi => ?_
  have := testBit_and_not a b i
  rw [hi] at this
  exact ((Bool.and_eq_true _ _).mp this.symm).1

theorem lsb_aux_spec :
    ∀ fuel x, 0 < x → x ≤ fuel →
      x.testBit (lsb_aux fuel x) = true ∧ ∀ j, j < lsb_aux fuel x → x.testBit j = false := by
  intro fuel
  induction fuel with
  | zero => intro x hx hle; omega
  | succ f ih =>
    intro x hx hle
    by_cases hodd : x % 2 = 1
    · simp only [lsb_aux, hodd, if_true]
      refine ⟨?_, fun j hj => absurd hj (Nat.not_lt_zero j)⟩
      simp [Nat.testBit_zero, hodd]
    · have hx2 : 0 < x / 2 := by omega
      have hle2 : x / 2 ≤ f := by omega
      obtain ⟨h1, h2⟩ := ih (x / 2) hx2 hle2
      simp only [lsb_aux, hodd, if_false]
      constructor
      · rw [Nat.testBit_succ]; exact h1
      · intro j hj
        cases j with
        | zero => simp [Nat.testBit_zero]; omega
        | succ j => rw [Nat.testBit_succ]; exact h2 j (by omega)

theorem lsb_aux_fuel_irrel :
    ∀ f g x, 0 < x → x ≤ f → x ≤ g → lsb_aux f x = lsb_aux g x := by
  intro f
  induction f with
  | zero => intro g x hx hf _; omega
  | succ f ih =>
    intro g x hx hf hg
    cases g with
    | zero => omega
    | succ g =>
      by_cases hodd : x % 2 = 1
      · simp [lsb_aux, hodd]
      · simp only [lsb_aux, hodd, if_false]
        rw [ih g (x / 2) (by omega) (by omega) (by omega)]

theorem lsb_index_spec (x : Nat) (hx : 0 < x) :
    x.testBit (lsb_index x) = true ∧ ∀ j, j < lsb_index x → x.testBit j = false :=
  lsb_aux_spec x x hx (Nat.le_refl x)

theorem lsb_index_odd {x : Nat} (h : x % 2 = 1) : lsb_index x = 0 := by
  have hx : 0 < x := by omega
  obtain ⟨f, hf⟩ : ∃ f, x = f + 1 := ⟨x - 1, by omega⟩
  rw [lsb_index, hf]
  simp [lsb_aux, hf ▸ h]

theorem lsb_index_even {x : Nat} (h : x % 2 = 0) (hx : 0 < x) :
    lsb_index x = lsb_index (x / 2) + 1 := by
  obtain ⟨f, hf⟩ : ∃ f, x = f + 1 := ⟨x - 1, by omega⟩
  subst hf
  have hodd : ¬ (f + 1) % 2 = 1 := by omega
  rw [lsb_index, lsb_index]
  simp only [lsb_aux, hodd, if_false]
  rw [lsb_aux_fuel_irrel f ((f+1)/2) ((f+1)/2) (by omega) (by omega) (le_refl _)]

theorem clear_lsb_char :
    ∀ x, 0 < x → ∀ j, (x &&& (x - 1)).testBit j = (x.testBit j && !(decide (j = lsb_index x))) := by
  intro x
  induction x using Nat.strong_induction_on with
  | _ x ih =>
    intro hx j
    rw [Nat.testBit_land]
    by_cases hodd : x % 2 = 1
    · rw [lsb_index_odd hodd]
      cases j with
      | zero =>
        have : (x - 1) % 2 = 0 := by omega
        simp [Nat.testBit_zero, this]
      | succ j =>
        have hdiv : (x - 1) / 2 = x / 2 := by omega
        rw [Nat.testBit_succ, Nat.testBit_succ, hdiv]
        simp [Bool.and_comm]
    · have h2 : x % 2 = 0 := by omega
      rw [lsb_index_even h2 hx]
      cases j with
      | zero =>
        simp [Nat.testBit_zero, h2]
      | succ j =>
        have hdiv : (x - 1) / 2 = x / 2 - 1 := by omega
        have hx2 : 0 < x / 2 := by omega
        rw [Nat.testBit_succ, Nat.testBit_succ, hdiv]
        have := ih (x / 2) (by omega) hx2 j
        rw [Nat.testBit_land] at this
        rw [this]
        simp [Nat.succ_inj]

theorem clear_lsb_lt {x : Nat} (hx : 0 < x) : x &&& (x - 1) < x :=
  Nat.lt_of_le_of_ne (Nat.and_le_left)
    (fun h => by
      have h1 := clear_lsb_char x hx (lsb_index x)
      have h2 := (lsb_index_spec x hx).1
      rw [h, h2] at h1
      simp at h1)

/-- The finite set of set-bit indices of a mask. -/
def set_bits (x : Nat) : Finset Nat := (Finset.range (x + 1)).filter (fun j => x.testBit j)

theorem two_pow_le_of_testBit {x j : Nat} (h : x.testBit j = true) : 2 ^ j ≤ x := by
  by_contra hc
  push_neg at hc
  rw [Nat.testBit_eq_false_of_lt hc] at h
  exact absurd h (by simp)

theorem mem_set_bits {x j : Nat} : j ∈ set_bits x ↔ x.testBit j = true := by
  constructor
  · intro h; exact (Finset.mem_filter.mp h).2
  · intro h
    refine Finset.mem_filter.mpr ⟨Finset.mem_range.mpr ?_, h⟩
    have h1 := two_pow_le_of_testBit h
    have h2 := Nat.lt_two_pow j
    omega

theorem set_bits_zero : set_bits 0 = ∅ := by
  ext j; simp [mem_set_bits]

theorem set_bits_succ_decomp (x : Nat) :
    set_bits x = (if x % 2 = 1 then {0} else ∅) ∪ (set_bits (x / 2)).image Nat.succ := by
  ext j
  simp only [Finset.mem_union, Finset.mem_image, mem_set_bits]
  cases j with
  | zero =>
    simp only [Nat.testBit_zero]
    by_cases hodd : x % 2 = 1 <;> simp [hodd]
  | succ j =>
    rw [Nat.testBit_succ]
    by_cases hodd : x % 2 = 1 <;>
      simp [hodd, mem_set_bits, Nat.succ_inj]

theorem card_set_bits_rec (x : Nat) :
    (set_bits x).card = x % 2 + (set_bits (x / 2)).card := by
  rw [set_bits_succ_decomp, Finset.card_union_of_disjoint, Finset.card_image_of_injective _ Nat.succ_injective]
  · by_cases hodd : x % 2 = 1 <;> simp [hodd] <;> omega
  · refine Finset.disjoint_left.mpr ?_
    intro a ha hb
    obtain ⟨b, _, hb'⟩ := Finset.mem_image.mp hb
    by_cases hodd : x % 2 = 1
    · rw [if_pos hodd] at ha
      simp only [Finset.mem_singleton] at ha
      omega
    · rw [if_neg hodd] at ha
      exact absurd ha (Finset.not_mem_empty a)

theorem bit_count_aux_eq : ∀ f x, x ≤ f → bit_count_aux f x = (set_bits x).card := by
  intro f
  induction f with
  | zero =>
    intro x h
    have : x = 0 := by omega
    subst this
    simp [bit_count_aux, set_bits_zero]
  | succ f ih =>
    intro x h
    by_cases h0 : x = 0
    · subst h0; simp [bit_count_aux, set_bits_zero]
    · simp only [bit_count_aux, h0, if_false]
      rw [ih (x / 2) (by omega), ← card_set_bits_rec]

theorem bit_count_eq_card (x : Nat) : bit_count x = (set_bits x).card :=
  bit_count_aux_eq x x (le_refl x)

theorem set_bits_clear_lsb {x : Nat} (hx : 0 < x) :
    set_bits (x &&& (x - 1)) = (set_bits x).erase (lsb_index x) := by
  ext j
  rw [Finset.mem_erase, mem_set_bits, mem_set_bits, clear_lsb_char x hx j]
  by_cases hj : j = lsb_index x <;> simp [hj]

theorem bits_to_list_aux_mem :
    ∀ f x, x ≤ f → ∀ v, v ∈ bits_to_list_aux f x ↔ x.testBit v = true := by
  intro f
  induction f with
  | zero =>
    intro x h v
    have : x = 0 := by omega
    subst this
    simp [bits_to_list_aux]
  | succ f ih =>
    intro x h v
    by_cases h0 : x = 0
    · subst h0; simp [bits_to_list_aux]
    · have hx : 0 < x := by omega
      have hlt := clear_lsb_lt hx
      simp only [bits_to_list_aux, h0, if_false, List.mem_cons]
      rw [ih (x &&& (x - 1)) (by omega) v, clear_lsb_char x hx v]
      by_cases hv : v = lsb_index x
      · subst hv
        simp [(lsb_index_spec x hx).1]
      · simp [hv]

theorem bits_to_list_aux_sorted :
    ∀ f x, x ≤ f → List.Sorted (· < ·) (bits_to_list_aux f x) := by
  intro f
  induction f with
  | zero =>
    intro x h
    have : x = 0 := by omega
    subst this
    simp [bits_to_list_aux]
  | succ f ih =>
    intro x h
    by_cases h0 : x = 0
    · subst h0; simp [bits_to_list_aux]
    · have hx : 0 < x := by omega
      have hlt := clear_lsb_lt hx
      simp only [bits_to_list_aux, h0, if_false]
      rw [List.sorted_cons]
      refine ⟨?_, ih (x &&& (x - 1)) (by omega)⟩
      intro b hb
      rw [bits_to_list_aux_mem f _ (by omega) b, clear_lsb_char x hx b] at hb
      have h1 : x.testBit b = true := ((Bool.and_eq_true _ _).mp hb).1
      have h2 : b ≠ lsb_index x := by
        intro hbe
        rw [hbe] at hb
        simp at hb
      rcases Nat.lt_trichotomy (lsb_index x) b with h | h | h
      · exact h
      · exact absurd h.symm h2
      · rw [(lsb_index_spec x hx).2 b h] at h1
        exact absurd h1 (by simp)

theorem bits_to_list_aux_length :
    ∀ f x, x ≤ f → (bits_to_list_aux f x).length = (set_bits x).card := by
  intro f
  induction f with
  | zero =>
    intro x h
    have : x = 0 := by omega
    subst this
    simp [bits_to_list_aux, set_bits_zero]
  | succ f ih =>
    intro x h
    by_cases h0 : x = 0
    · subst h0; simp [bits_to_list_aux, set_bits_zero]
    · have hx : 0 < x := by omega
      have hlt := clear_lsb_lt hx
      simp only [bits_to_list_aux, h0, if_false, List.length_cons]
      rw [ih (x &&& (x - 1)) (by omega), set_bits_clear_lsb hx,
        Finset.card_erase_of_mem (mem_set_bits.mpr (lsb_index_spec x hx).1)]
      have : 0 < (set_bits x).card := by
        refine Finset.card_pos.mpr ⟨lsb_index x, mem_set_bits.mpr (lsb_index_spec x hx).1⟩
      omega

theorem mem_bits_to_list {x v : Nat} : v ∈ bits_to_list x ↔ x.testBit v = true :=
  bits_to_list_aux_mem x x (le_refl x) v

theorem bits_to_list_sorted (x : Nat) : List.Sorted (· < ·) (bits_to_list x) :=
  bits_to_list_aux_sorted x x (le_refl x)

theorem bits_to_list_nodup (x : Nat) : (bits_to_list x).Nodup :=
  (bits_to_list_sorted x).nodup

theorem length_bits_to_list (x : Nat) : (bits_to_list x).length = bit_count x := by
  rw [bits_to_list, bits_to_list_aux_length x x (le_refl x), bit_count_eq_card]

theorem bits_to_list_zero : bits_to_list 0 = [] := rfl

theorem bits_to_list_eq_nil_iff {x : Nat} : bits_to_list x = [] ↔ x = 0 := by
  constructor
  · intro h
    by_contra h0
    have hx : 0 < x := by omega
    have := mem_bits_to_list (x := x) (v := lsb_index x)
    rw [h] at this
    simp [(lsb_index_spec x hx).1] at this
  · intro h; subst h; rfl

theorem toFinset_bits_to_list (x : Nat) : (bits_to_list x).toFinset = set_bits x := by
  ext j
  rw [List.mem_toFinset, mem_bits_to_list, mem_set_bits]

theorem getD_replicate {n i : Nat} {a : Nat} : (List.replicate n a).getD i a = a := by
  rcases Nat.lt_or_ge i n with h | h
  · simp [List.getD_eq_getElem?_getD, List.getElem?_replicate, h]
  · simp [List.getD_eq_getElem?_getD, List.getElem?_replicate, Nat.not_lt.mpr h]

theorem testBit_lt_of_lt_two_pow {m n j : Nat} (hm : m < 2 ^ n) (h : m.testBit j = true) :
    j < n := by
  by_contra hc
  push_neg at hc
  have h1 := two_pow_le_of_testBit h
  have h2 : (2 : Nat) ^ n ≤ 2 ^ j := Nat.pow_le_pow_right (by omega) hc
  omega

theorem lt_two_pow_of_bits {m n : Nat} (h : ∀ j, m.testBit j = true → j < n) : m < 2 ^ n := by
  have hle : m ≤ 2 ^ n - 1 := by
    refine le_of_testBit_subset _ _ fun j hj => ?_
    rw [Nat.testBit_two_pow_sub_one]
    exact decide_eq_true (h j hj)
  have : (0:Nat) < 2 ^ n := Nat.pos_pow_of_pos n (by omega)
  omega

theorem testBit_ones {n j : Nat} : (2 ^ n - 1).testBit j = decide (j < n) :=
  Nat.testBit_two_pow_sub_one n j

/-! ### The graph model: `BitGraph.from_edges`

`adj` is the list of per-vertex neighbour bitmasks.  `from_edges` embeds
`BitGraph.from_edges`: self-loops are skipped, an out-of-bounds endpoint raises
`ValueError` (modelled as `none`). -/

/-- One step of the `from_edges` loop: process edge `e`. -/
def add_edge (n : Nat) (acc : Option (List Nat)) (e : Nat × Nat) : Option (List Nat) :=
  match acc with
  | none => none
  | some adj =>
    if e.1 = e.2 then some adj
    else if e.1 < n ∧ e.2 < n then
      let adj1 := adj.set e.1 (adj.getD e.1 0 ||| 2 ^ e.2)
      some (adj1.set e.2 (adj1.getD e.2 0 ||| 2 ^ e.1))
    else none

/-- Embeds `BitGraph.from_edges(n, edges)`. -/
def from_edges (n : Nat) (edges : List (Nat × Nat)) : Option (List Nat) :=
  edges.foldl (add_edge n) (some (List.replicate n 0))

/-- Well-formedness of an adjacency table, as guaranteed by `from_edges`:
length `n`, all bits in range, no self-loop bit, and symmetry. -/
structure AdjWF (n : Nat) (adj : List Nat) : Prop where
  len : adj.length = n
  bits : ∀ u v, (adj.getD u 0).testBit v = true → u < n ∧ v < n
  irrefl : ∀ u, (adj.getD u 0).testBit u = false
  symm : ∀ u v, (adj.getD u 0).testBit v = (adj.getD v 0).testBit u

theorem AdjWF.bounded {n : Nat} {adj : List Nat} (h : AdjWF n adj) (u : Nat) :
    adj.getD u 0 < 2 ^ n :=
  lt_two_pow_of_bits fun j hj => (h.bits u j hj).2

theorem foldl_add_edge_none (n : Nat) (edges : List (Nat × Nat)) :
    edges.foldl (add_edge n) none = none := by
  induction edges with
  | nil => rfl
  | cons e rest ih => simpa [add_edge] using ih

theorem getD_set_self {l : List Nat} {i x : Nat} (h : i < l.length) :
    (l.set i x).getD i 0 = x := by
  simp [List.getD_eq_getElem?_getD, List.getElem?_set, h]

theorem getD_set_ne {l : List Nat} {i j x : Nat} (h : i ≠ j) :
    (l.set i x).getD j 0 = l.getD j 0 := by
  simp [List.getD_eq_getElem?_getD, List.getElem?_set, h]

/-- Effect on single bits of inserting one edge `(a, b)` into the table. -/
theorem add_edge_bit {n : Nat} {adj : List Nat} (hlen : adj.length = n) {a b : Nat}
    (hab : a ≠ b) (ha : a < n) (hb : b < n) (u v : Nat) :
    ((((adj.set a (adj.getD a 0 ||| 2 ^ b)).set b
        ((adj.set a (adj.getD a 0 ||| 2 ^ b)).getD b 0 ||| 2 ^ a))).getD u 0).testBit v = true ↔
      ((adj.getD u 0).testBit v = true ∨ ((u = a ∧ v = b) ∨ (u = b ∧ v = a))) := by
  have hlen1 : (adj.set a (adj.getD a 0 ||| 2 ^ b)).length = adj.length := List.length_set ..
  have hgb : (adj.set a (adj.getD a 0 ||| 2 ^ b)).getD b 0 = adj.getD b 0 := getD_set_ne hab
  by_cases hub : u = b
  · subst hub
    rw [getD_set_self (by omega), hgb]
    simp only [Nat.testBit_lor, Nat.testBit_two_pow, Bool.or_eq_true, decide_eq_true_eq]
    cases hbit : (adj.getD u 0).testBit v <;> simp [hbit] <;> omega
  · rw [getD_set_ne (fun h => hub h.symm)]
    by_cases hua : u = a
    · subst hua
      rw [getD_set_self (by omega)]
      simp only [Nat.testBit_lor, Nat.testBit_two_pow, Bool.or_eq_true, decide_eq_true_eq]
      cases hbit : (adj.getD u 0).testBit v <;> simp [hbit] <;> omega
    · rw [getD_set_ne (fun h => hua h.symm)]
      cases hbit : (adj.getD u 0).testBit v <;> simp [hbit] <;> omega

/-- Characterization of the adjacency built by the `from_edges` fold, relative
to an arbitrary starting table of length `n`. -/
theorem foldl_add_edge_char {n : Nat} :
    ∀ (edges : List (Nat × Nat)) (adj res : List Nat), adj.length = n →
      edges.foldl (add_edge n) (some adj) = some res →
      res.length = n ∧
      ∀ u v, ((res.getD u 0).testBit v = true ↔
        ((adj.getD u 0).testBit v = true ∨
          (u < n ∧ v < n ∧ u ≠ v ∧ ((u, v) ∈ edges ∨ (v, u) ∈ edges)))) := by
  intro edges
  induction edges with
  | nil =>
    intro adj res hlen h
    simp only [List.foldl_nil, Option.some_inj] at h
    subst h
    refine ⟨hlen, fun u v => ?_⟩
    simp
  | cons e rest ih =>
    intro adj res hlen h
    obtain ⟨a, b⟩ := e
    rw [List.foldl_cons] at h
    by_cases hself : a = b
    · rw [add_edge, if_pos hself] at h
      obtain ⟨hlen2, hchar⟩ := ih adj res hlen h
      refine ⟨hlen2, fun u v => ?_⟩
      rw [hchar u v]
      subst hself
      constructor
      · rintro (h1 | ⟨h1, h2, h3, h4⟩)
        · exact Or.inl h1
        · exact Or.inr ⟨h1, h2, h3, by simp only [List.mem_cons]; tauto⟩
      · rintro (h1 | ⟨h1, h2, h3, h4⟩)
        · exact Or.inl h1
        · refine Or.inr ⟨h1, h2, h3, ?_⟩
          simp only [List.mem_cons, Prod.mk.injEq] at h4
          rcases h4 with (h4 | h4) | (h4 | h4)
          · omega
          · exact Or.inl h4
          · omega
          · exact Or.inr h4
    · by_cases hbd : a < n ∧ b < n
      · rw [add_edge, if_neg hself, if_pos hbd] at h
        simp only at h
        obtain ⟨hlen2, hchar⟩ := ih _ res (by simpa using hlen) h
        refine ⟨hlen2, fun u v => ?_⟩
        rw [hchar u v, add_edge_bit hlen hself hbd.1 hbd.2 u v]
        constructor
        · rintro ((h1 | h1) | ⟨h1, h2, h3, h4⟩)
          · exact Or.inl h1
          · rcases h1 with ⟨h1, h2⟩ | ⟨h1, h2⟩ <;>
              (subst h1; subst h2;
               exact Or.inr ⟨by omega, by omega, by omega,
                 by simp only [List.mem_cons]; tauto⟩)
          · exact Or.inr ⟨h1, h2, h3, by simp only [List.mem_cons]; tauto⟩
        · rintro (h1 | ⟨h1, h2, h3, h4⟩)
          · exact Or.inl (Or.inl h1)
          · simp only [List.mem_cons, Prod.mk.injEq] at h4
            rcases h4 with (⟨h4, h5⟩ | h4) | (⟨h4, h5⟩ | h4)
            · exact Or.inl (Or.inr (Or.inl ⟨h4, h5⟩))
            · exact Or.inr ⟨h1, h2, h3, Or.inl h4⟩
            · exact Or.inl (Or.inr (Or.inr ⟨h5, h4⟩))
            · exact Or.inr ⟨h1, h2, h3, Or.inr h4⟩
      · rw [add_edge, if_neg hself, if_neg hbd] at h
        rw [foldl_add_edge_none] at h
        exact absurd h (by simp)

/-- The full characterization of `from_edges`. -/
theorem from_edges_char {n : Nat} {edges : List (Nat × Nat)} {adj : List Nat}
    (h : from_edges n edges = some adj) :
    adj.length = n ∧
    ∀ u v, ((adj.getD u 0).testBit v = true ↔
      (u < n ∧ v < n ∧ u ≠ v ∧ ((u, v) ∈ edges ∨ (v, u) ∈ edges))) := by
  obtain ⟨hlen, hchar⟩ :=
    foldl_add_edge_char edges (List.replicate n 0) adj (List.length_replicate ..) h
  refine ⟨hlen, fun u v => ?_⟩
  rw [hchar u v, getD_replicate]
  simp

theorem from_edges_wf {n : Nat} {edges : List (Nat × Nat)} {adj : List Nat}
    (h : from_edges n edges = some adj) : AdjWF n adj := by
  obtain ⟨hlen, hchar⟩ := from_edges_char h
  refine ⟨hlen, ?_, ?_, ?_⟩
  · intro u v hv
    have := (hchar u v).mp hv
    exact ⟨this.1, this.2.1⟩
  · intro u
    by_contra hc
    rw [Bool.not_eq_false] at hc
    obtain ⟨h1, h2, h3, h4⟩ := (hchar u u).mp hc
    exact h3 rfl
  · intro u v
    rw [Bool.eq_iff_iff, hchar u v, hchar v u]
    constructor
    · rintro ⟨h1, h2, h3, h4⟩; exact ⟨h2, h1, h3.symm, h4.symm⟩
    · rintro ⟨h1, h2, h3, h4⟩; exact ⟨h2, h1, h3.symm, h4.symm⟩

/-! ### Cliques and the clique number -/

/-- Mask inclusion: every set bit of `a` is set in `b`. -/
def mask_subset (a b : Nat) : Prop := ∀ j, a.testBit j = true → b.testBit j = true

/-- The vertex set given by the bitmask `m` is a clique of the adjacency
table `adj`. -/
def CliqueMask (adj : List Nat) (m : Nat) : Prop :=
  ∀ u v, m.testBit u = true → m.testBit v = true → u ≠ v →
    (adj.getD u 0).testBit v = true

/-- A finite vertex set is a clique of the adjacency table. -/
def CliqueFinset (adj : List Nat) (s : Finset Nat) : Prop :=
  ∀ u ∈ s, ∀ v ∈ s, u ≠ v → (adj.getD u 0).testBit v = true

instance (adj : List Nat) (s : Finset Nat) : Decidable (CliqueFinset adj s) := by
  unfold CliqueFinset; infer_instance

/-- The clique number of the graph on vertices `0..n-1` described by `adj`. -/
def clique_number (n : Nat) (adj : List Nat) : Nat :=
  (((Finset.range n).powerset).filter (fun s => CliqueFinset adj s)).sup Finset.card

/-- The clique number of the raw input edge list, defined independently of the
solver data structures: largest subset of `[0, n)` that is pairwise connected
by listed edges. -/
def input_clique_number (n : Nat) (edges : List (Nat × Nat)) : Nat :=
  (((Finset.range n).powerset).filter (fun s =>
    ∀ u ∈ s, ∀ v ∈ s, u ≠ v → ((u, v) ∈ edges ∨ (v, u) ∈ edges))).sup Finset.card

theorem cliqueMask_iff_finset {adj : List Nat} {m : Nat} :
    CliqueMask adj m ↔ CliqueFinset adj (set_bits m) := by
  constructor
  · intro h u hu v hv hne
    exact h u v (mem_set_bits.mp hu) (mem_set_bits.mp hv) hne
  · intro h u v hu hv hne
    exact h u (mem_set_bits.mpr hu) v (mem_set_bits.mpr hv) hne

theorem card_le_clique_number {n : Nat} {adj : List Nat} {s : Finset Nat}
    (hsub : s ⊆ Finset.range n) (hc : CliqueFinset adj s) :
    s.card ≤ clique_number n adj :=
  Finset.le_sup (Finset.mem_filter.mpr ⟨Finset.mem_powerset.mpr hsub, hc⟩)

theorem clique_number_le {n k : Nat} {adj : List Nat}
    (h : ∀ s ⊆ Finset.range n, CliqueFinset adj s → s.card ≤ k) :
    clique_number n adj ≤ k := by
  refine Finset.sup_le fun s hs => ?_
  obtain ⟨hsub, hc⟩ := Finset.mem_filter.mp hs
  exact h s (Finset.mem_powerset.mp hsub) hc

theorem clique_number_attained (n : Nat) (adj : List Nat) :
    ∃ s ⊆ Finset.range n, CliqueFinset adj s ∧ s.card = clique_number n adj := by
  have hne : (((Finset.range n).powerset).filter (fun s => CliqueFinset adj s)).Nonempty := by
    refine ⟨∅, Finset.mem_filter.mpr ⟨Finset.mem_powerset.mpr (Finset.empty_subset _), ?_⟩⟩
    intro u hu; exact absurd hu (Finset.not_mem_empty u)
  obtain ⟨s, hs, hval⟩ := Finset.exists_mem_eq_sup _ hne Finset.card
  obtain ⟨hsub, hc⟩ := Finset.mem_filter.mp hs
  exact ⟨s, Finset.mem_powerset.mp hsub, hc, hval.symm⟩

theorem input_clique_number_eq {n : Nat} {edges : List (Nat × Nat)} {adj : List Nat}
    (h : from_edges n edges = some adj) :
    input_clique_number n edges = clique_number n adj := by
  obtain ⟨hlen, hchar⟩ := from_edges_char h
  unfold input_clique_number clique_number
  congr 1
  refine Finset.filter_congr fun s hs => ?_
  have hsub := Finset.mem_powerset.mp hs
  unfold CliqueFinset
  constructor
  · intro hcl u hu v hv hne
    refine (hchar u v).mpr ⟨?_, ?_, hne, hcl u hu v hv hne⟩
    · exact Finset.mem_range.mp (hsub hu)
    · exact Finset.mem_range.mp (hsub hv)
  · intro hcl u hu v hv hne
    exact ((hchar u v).mp (hcl u hu v hv hne)).2.2.2

/-- A mask whose set bits are a given list of vertices. -/
def mask_of_list : List Nat → Nat
  | [] => 0
  | v :: rest => 2 ^ v ||| mask_of_list rest

theorem testBit_mask_of_list {l : List Nat} {j : Nat} :
    (mask_of_list l).testBit j = true ↔ j ∈ l := by
  induction l with
  | nil => simp [mask_of_list]
  | cons v rest ih =>
    simp only [mask_of_list, Nat.testBit_lor, Bool.or_eq_true, Nat.testBit_two_pow,
      decide_eq_true_eq, List.mem_cons, ih]
    constructor
    · rintro (h | h)
      · exact Or.inl h.symm
      · exact Or.inr h
    · rintro (h | h)
      · exact Or.inl h.symm
      · exact Or.inr h

/-- A mask whose set bits are a given finite set of vertices. -/
def mask_of_finset (s : Finset Nat) : Nat := mask_of_list (s.sort (· ≤ ·))

theorem testBit_mask_of_finset {s : Finset Nat} {j : Nat} :
    (mask_of_finset s).testBit j = true ↔ j ∈ s := by
  rw [mask_of_finset, testBit_mask_of_list, Finset.mem_sort]

theorem set_bits_mask_of_finset (s : Finset Nat) : set_bits (mask_of_finset s) = s := by
  ext j; rw [mem_set_bits, testBit_mask_of_finset]

theorem bit_count_mask_of_finset (s : Finset Nat) : bit_count (mask_of_finset s) = s.card := by
  rw [bit_count_eq_card, set_bits_mask_of_finset]

theorem bit_count_eq_length_bits (x : Nat) : bit_count x = (bits_to_list x).length :=
  (length_bits_to_list x).symm

theorem cliqueMask_mono {adj : List Nat} {Q Q' : Nat}
    (hsub : mask_subset Q' Q) (h : CliqueMask adj Q) : CliqueMask adj Q' :=
  fun u v hu hv hne => h u v (hsub u hu) (hsub v hv) hne

theorem set_bits_land (a b : Nat) : set_bits (a &&& b) = set_bits a ∩ set_bits b := by
  ext j
  simp [mem_set_bits, Nat.testBit_land]

theorem set_bits_and_not (a b : Nat) : set_bits (and_not a b) = set_bits a \ set_bits b := by
  ext j
  simp [mem_set_bits, testBit_and_not]

theorem bit_count_split (Q M : Nat) :
    bit_count Q = bit_count (Q &&& M) + bit_count (and_not Q M) := by
  rw [bit_count_eq_card, bit_count_eq_card, bit_count_eq_card, set_bits_land,
    set_bits_and_not, Finset.card_inter_add_card_sdiff]

/-! ### ColorSort (`_color_sort`)

The inner loop extracts one greedy color class (an independent set) from the
candidate mask; the outer loop repeats with the class removed and the colour
incremented.  Both loops get structural fuel instantiated with the mask. -/

/-- Inner loop of `_color_sort`: one color class from candidate mask `Q`.
Returns the members in extraction order and the class bitmask. -/
def color_class : Nat → List Nat → Nat → List Nat × Nat
  | 0, _, _ => ([], 0)
  | fuel+1, adj, Q =>
    if Q = 0 then ([], 0)
    else
      let v := lsb_index Q
      let Q2 := and_not (and_not Q (2 ^ v)) (adj.getD v 0)
      let rest := color_class fuel adj Q2
      (v :: rest.1, 2 ^ v ||| rest.2)

/-- Outer loop of `_color_sort`, carrying the current colour counter. -/
def color_sort_aux : Nat → List Nat → Nat → Nat → List Nat × List Nat
  | 0, _, _, _ => ([], [])
  | fuel+1, adj, P_work, color =>
    if P_work = 0 then ([], [])
    else
      let cls := color_class P_work adj P_work
      let rest := color_sort_aux fuel adj (and_not P_work cls.2) (color + 1)
      (cls.1 ++ rest.1, cls.1.map (fun _ => color + 1) ++ rest.2)

/-- Embeds `_color_sort(P, adj)`: greedy coloring order and colour bounds. -/
def color_sort (P : Nat) (adj : List Nat) : List Nat × List Nat :=
  color_sort_aux P adj P 0

/-- Specification of one color class: the mask matches the member list, the
members come from `Q`, are distinct, and successive members are pairwise
non-adjacent (the class is extracted as an independent set). -/
theorem color_class_spec :
    ∀ f Q, Q ≤ f → ∀ adj : List Nat,
      (∀ j, (color_class f adj Q).2.testBit j = true ↔ j ∈ (color_class f adj Q).1) ∧
      (∀ v ∈ (color_class f adj Q).1, Q.testBit v = true) ∧
      (color_class f adj Q).1.Nodup ∧
      List.Pairwise (fun a b => (adj.getD a 0).testBit b = false) (color_class f adj Q).1 := by
  intro f
  induction f with
  | zero =>
    intro Q h adj
    have : Q = 0 := by omega
    subst this
    simp [color_class]
  | succ f ih =>
    intro Q h adj
    by_cases h0 : Q = 0
    · subst h0; simp [color_class]
    · have hQ : 0 < Q := by omega
      set v := lsb_index Q with hv
      set Q2 := and_not (and_not Q (2 ^ v)) (adj.getD v 0) with hQ2
      have hQ2le : Q2 ≤ f := by
        have h1 : and_not Q (2 ^ v) ≤ Q := and_not_le ..
        have h2 : Q2 ≤ and_not Q (2 ^ v) := and_not_le ..
        -- Q2 is strictly below Q because bit v is cleared
        have h3 : Q2 ≠ Q := by
          intro he
          have hbv : Q2.testBit v = false := by
            rw [hQ2, testBit_and_not, testBit_and_not, Nat.testBit_two_pow]
            simp
          rw [he] at hbv
          rw [(lsb_index_spec Q hQ).1] at hbv
          exact absurd hbv (by simp)
        omega
      have hQ2bit : ∀ j, Q2.testBit j = true →
          (Q.testBit j = true ∧ j ≠ v ∧ (adj.getD v 0).testBit j = false) := by
        intro j hj
        rw [hQ2, testBit_and_not, testBit_and_not, Nat.testBit_two_pow] at hj
        have h1 := (Bool.and_eq_true _ _).mp hj
        have h2 := (Bool.and_eq_true _ _).mp h1.1
        refine ⟨h2.1, ?_, ?_⟩
        · intro he
          rw [he] at h2
          simp at h2
        · have := h1.2
          cases hbit : (adj.getD v 0).testBit j
          · rfl
          · rw [hbit] at this; simp at this
      obtain ⟨ihmask, ihmem, ihnd, ihpw⟩ := ih Q2 hQ2le adj
      have hunfold : color_class (f+1) adj Q =
          (v :: (color_class f adj Q2).1, 2 ^ v ||| (color_class f adj Q2).2) := by
        simp only [color_class, h0, if_false]
      rw [hunfold]
      refine ⟨?_, ?_, ?_, ?_⟩
      · intro j
        simp only [Nat.testBit_lor, Bool.or_eq_true, Nat.testBit_two_pow,
          decide_eq_true_eq, List.mem_cons, ihmask]
        constructor
        · rintro (hj | hj)
          · exact Or.inl hj.symm
          · exact Or.inr hj
        · rintro (hj | hj)
          · exact Or.inl hj.symm
          · exact Or.inr hj
      · intro u hu
        rcases List.mem_cons.mp hu with hu | hu
        · subst hu; exact (lsb_index_spec Q hQ).1
        · exact (hQ2bit u (ihmem u hu)).1
      · refine List.nodup_cons.mpr ⟨?_, ihnd⟩
        intro hmem
        exact (hQ2bit v (ihmem v hmem)).2.1 rfl
      · refine List.pairwise_cons.mpr ⟨?_, ihpw⟩
        intro b hb
        exact (hQ2bit b (ihmem b hb)).2.2

theorem color_class_head {f Q : Nat} (adj : List Nat) (hQ : 0 < Q) (hf : Q ≤ f) :
    lsb_index Q ∈ (color_class f adj Q).1 := by
  obtain ⟨g, rfl⟩ : ∃ g, f = g + 1 := ⟨f - 1, by omega⟩
  have h0 : ¬ Q = 0 := by omega
  simp only [color_class, h0, if_false]
  exact List.mem_cons_self _ _

theorem pairwise_mem_or {α : Type} {r : α → α → Prop} :
    ∀ {l : List α} {a b : α}, l.Pairwise r → a ∈ l → b ∈ l → a ≠ b → r a b ∨ r b a := by
  intro l
  induction l with
  | nil => intro a b _ ha; exact absurd ha (List.not_mem_nil a)
  | cons x rest ih =>
    intro a b hpw ha hb hne
    obtain ⟨hx, hrest⟩ := List.pairwise_cons.mp hpw
    rcases List.mem_cons.mp ha with ha1 | ha1
    · rcases List.mem_cons.mp hb with hb1 | hb1
      · exact absurd (ha1.trans hb1.symm) hne
      · subst ha1; exact Or.inl (hx b hb1)
    · rcases List.mem_cons.mp hb with hb1 | hb1
      · subst hb1; exact Or.inr (hx a ha1)
      · exact ih hrest ha1 hb1 hne

theorem getD_map_const {α β : Type} (l : List α) (i : Nat) (cv dv : β) (h : i < l.length) :
    (l.map (fun _ => cv)).getD i dv = cv := by
  rw [List.getD_eq_getElem?_getD, List.getElem?_map]
  rw [List.getElem?_eq_getElem h]
  rfl

/-- Full specification of the greedy coloring pass `color_sort_aux`:
parallel lengths, exact coverage of `P`, distinct order, colours above the
running counter, and the colour bound — any clique of `adj` whose vertices all
occur among the first `k` positions of the order has at most
`colors[k-1] - c` vertices. -/
theorem color_sort_aux_spec :
    ∀ f P c (adj : List Nat), P ≤ f →
      ((color_sort_aux f adj P c).1.length = (color_sort_aux f adj P c).2.length) ∧
      (∀ v, v ∈ (color_sort_aux f adj P c).1 ↔ P.testBit v = true) ∧
      (color_sort_aux f adj P c).1.Nodup ∧
      (∀ x ∈ (color_sort_aux f adj P c).2, c + 1 ≤ x) ∧
      (∀ k, 0 < k → k ≤ (color_sort_aux f adj P c).1.length →
        ∀ Q, CliqueMask adj Q →
          (∀ u, Q.testBit u = true → u ∈ (color_sort_aux f adj P c).1.take k) →
          bit_count Q + c ≤ (color_sort_aux f adj P c).2.getD (k - 1) 0) := by
  intro f
  induction f with
  | zero =>
    intro P c adj h
    have : P = 0 := by omega
    subst this
    refine ⟨rfl, by simp [color_sort_aux], by simp [color_sort_aux],
      by simp [color_sort_aux], ?_⟩
    intro k hk hkle
    simp only [color_sort_aux, List.length_nil] at hkle
    omega
  | succ f ih =>
    intro P c adj h
    by_cases h0 : P = 0
    · subst h0
      refine ⟨rfl, by simp [color_sort_aux], by simp [color_sort_aux],
        by simp [color_sort_aux], ?_⟩
      intro k hk hkle
      simp only [color_sort_aux, if_true, List.length_nil] at hkle
      omega
    have hP : 0 < P := by omega
    obtain ⟨clsmask, clsmem, clsnodup, clspw⟩ := color_class_spec P P (le_refl P) adj
    set cls := color_class P adj P with hcls
    set P2 := and_not P cls.2 with hP2
    have hlsb : lsb_index P ∈ cls.1 := color_class_head adj hP (le_refl P)
    have hP2f : P2 ≤ f := by
      have h1 : P2 ≤ P := and_not_le ..
      have h3 : P2 ≠ P := by
        intro he
        have hbv : P2.testBit (lsb_index P) = false := by
          rw [hP2, testBit_and_not, (clsmask _).mpr hlsb]
          simp
        rw [he, (lsb_index_spec P hP).1] at hbv
        exact absurd hbv (by simp)
      omega
    obtain ⟨rlen, rmem, rnodup, rcol, rbound⟩ := ih P2 (c + 1) adj hP2f
    set rest := color_sort_aux f adj P2 (c + 1) with hrest
    have hunfold : color_sort_aux (f+1) adj P c =
        (cls.1 ++ rest.1, cls.1.map (fun _ => c + 1) ++ rest.2) := by
      simp only [color_sort_aux, h0, if_false]
    have hP2bit : ∀ j, P2.testBit j = true ↔ (P.testBit j = true ∧ j ∉ cls.1) := by
      intro j
      rw [hP2, testBit_and_not, Bool.and_eq_true, Bool.not_eq_true']
      constructor
      · rintro ⟨h1, h2⟩
        refine ⟨h1, fun hm => ?_⟩
        rw [(clsmask j).mpr hm] at h2
        exact absurd h2 (by simp)
      · rintro ⟨h1, h2⟩
        refine ⟨h1, ?_⟩
        cases hb : cls.2.testBit j
        · rfl
        · exact absurd ((clsmask j).mp hb) h2
    -- any clique all of whose vertices lie in one class has at most 1 vertex
    have key : ∀ M, CliqueMask adj M → (∀ u, M.testBit u = true → u ∈ cls.1) →
        bit_count M ≤ 1 := by
      intro M hclique hmem
      rw [bit_count_eq_card]
      refine Finset.card_le_one.mpr fun a ha b hb => ?_
      by_contra hne
      have ha' := mem_set_bits.mp ha
      have hb' := mem_set_bits.mp hb
      have h1 : (adj.getD a 0).testBit b = true := hclique a b ha' hb' hne
      have h2 : (adj.getD b 0).testBit a = true := hclique b a hb' ha' (fun he => hne he.symm)
      rcases pairwise_mem_or clspw (hmem a ha') (hmem b hb') hne with hcon | hcon
      · rw [h1] at hcon; exact absurd hcon (by simp)
      · rw [h2] at hcon; exact absurd hcon (by simp)
    rw [hunfold]
    have hlenmap : (cls.1.map (fun _ => c + 1)).length = cls.1.length := List.length_map ..
    refine ⟨?_, ?_, ?_, ?_, ?_⟩
    · simp [rlen]
    · intro v
      rw [List.mem_append]
      constructor
      · rintro (hv | hv)
        · exact clsmem v hv
        · exact ((hP2bit v).mp ((rmem v).mp hv)).1
      · intro hv
        by_cases hm : v ∈ cls.1
        · exact Or.inl hm
        · exact Or.inr ((rmem v).mpr ((hP2bit v).mpr ⟨hv, hm⟩))
    · refine List.nodup_append.mpr ⟨clsnodup, rnodup, ?_⟩
      intro a ha hb
      exact ((hP2bit a).mp ((rmem a).mp hb)).2 ha
    · intro x hx
      rcases List.mem_append.mp hx with hx | hx
      · obtain ⟨_, _, rfl⟩ := List.mem_map.mp hx
        omega
      · have := rcol x hx
        omega
    · intro k hk hkle Q hclique hQtake
      have hlen_app : (cls.1 ++ rest.1).length = cls.1.length + rest.1.length :=
        List.length_append ..
      rw [hlen_app] at hkle
      by_cases hkcase : k ≤ cls.1.length
      · -- all of Q sits inside the first colour class
        have hQcls : ∀ u, Q.testBit u = true → u ∈ cls.1 := by
          intro u hu
          have := hQtake u hu
          rw [List.take_append_eq_append_take] at this
          rcases List.mem_append.mp this with h1 | h1
          · exact List.take_subset _ _ h1
          · have : k - cls.1.length = 0 := by omega
            rw [this] at h1
            exact absurd h1 (List.not_mem_nil u)
        have hbc := key Q hclique hQcls
        rw [List.getD_append _ _ _ _ (by omega), getD_map_const _ _ _ _ (by omega)]
        omega
      · -- Q splits into its (≤ 1) vertices in the first class and the rest
        push_neg at hkcase
        set Q1 := Q &&& cls.2 with hQ1
        set Q2 := and_not Q cls.2 with hQ2
        have hQ1le : bit_count Q1 ≤ 1 := by
          refine key Q1 (cliqueMask_mono ?_ hclique) ?_
          · intro j hj
            rw [hQ1, Nat.testBit_land, Bool.and_eq_true] at hj
            exact hj.1
          · intro u hu
            rw [hQ1, Nat.testBit_land, Bool.and_eq_true] at hu
            exact (clsmask u).mp hu.2
        have hQ2take : ∀ u, Q2.testBit u = true → u ∈ rest.1.take (k - cls.1.length) := by
          intro u hu
          have hu1 : Q.testBit u = true ∧ u ∉ cls.1 := by
            rw [hQ2, testBit_and_not, Bool.and_eq_true, Bool.not_eq_true'] at hu
            refine ⟨hu.1, fun hm => ?_⟩
            have := (clsmask u).mpr hm
            rw [this] at hu
            exact absurd hu.2 (by simp)
          have := hQtake u hu1.1
          rw [List.take_append_eq_append_take] at this
          rcases List.mem_append.mp this with h1 | h1
          · exact absurd (List.take_subset _ _ h1) hu1.2
          · exact h1
        have hQ2bd := rbound (k - cls.1.length) (by omega) (by omega) Q2
          (cliqueMask_mono (fun j hj => by
            rw [hQ2, testBit_and_not, Bool.and_eq_true] at hj
            exact hj.1) hclique) hQ2take
        have hsplit := bit_count_split Q cls.2
        rw [← hQ1, ← hQ2] at hsplit
        rw [List.getD_append_right _ _ _ _ (by omega)]
        have hidx : k - 1 - (cls.1.map (fun _ => c + 1)).length = k - cls.1.length - 1 := by
          rw [hlenmap]; omega
        rw [hidx]
        omega

theorem color_sort_spec (P : Nat) (adj : List Nat) :
    ((color_sort P adj).1.length = (color_sort P adj).2.length) ∧
    (∀ v, v ∈ (color_sort P adj).1 ↔ P.testBit v = true) ∧
    (color_sort P adj).1.Nodup ∧
    (∀ x ∈ (color_sort P adj).2, 1 ≤ x) ∧
    (∀ k, 0 < k → k ≤ (color_sort P adj).1.length →
      ∀ Q, CliqueMask adj Q →
        (∀ u, Q.testBit u = true → u ∈ (color_sort P adj).1.take k) →
        bit_count Q ≤ (color_sort P adj).2.getD (k - 1) 0) := by
  unfold color_sort
  obtain ⟨h1, h2, h3, h4, h5⟩ := color_sort_aux_spec P P 0 adj (le_refl P)
  refine ⟨h1, h2, h3, fun x hx => h4 x hx, fun k hk hkle Q hc ht => ?_⟩
  have := h5 k hk hkle Q hc ht
  omega

/-! ### The branch-and-bound solver (`MaxCliqueSolver`), max-size phase -/

/-- The mutable attributes of `MaxCliqueSolver` that the max-size phase
touches. -/
structure SolverSt where
  best_size : Nat
  best_bits : Nat
  nodes_expanded : Nat
deriving DecidableEq, Repr

/-- The `for i in range(len(order)-1, -1, -1)` loop body of `_expand_max`.
`child` is the recursive call (at one less time fuel, see `expand_max`);
`items` carries the pairs `(order[i], colors[i])` from position `len-1` down
to `0`; `P_local` is the loop-local candidate mask.  `Sum.inl` propagates the
`TimeoutError` unwind, carrying the solver state at that moment. -/
def expand_max_loop (adj : List Nat)
    (child : Nat → Nat → Nat → SolverSt → SolverSt ⊕ SolverSt) (size R_bits : Nat) :
    Nat → List (Nat × Nat) → SolverSt → SolverSt ⊕ SolverSt
  | _, [], st => Sum.inr st
  | P_local, (v, c) :: rest, st =>
    if size + c ≤ st.best_size then Sum.inr st
    else if ¬ (P_local.testBit v = true) then
      expand_max_loop adj child size R_bits P_local rest st
    else
      let st1 : SolverSt := { st with nodes_expanded := st.nodes_expanded + 1 }
      let R2 := R_bits ||| 2 ^ v
      let P2 := P_local &&& adj.getD v 0
      if P2 = 0 then
        let st2 := if size + 1 > st1.best_size then
            { st1 with best_size := size + 1, best_bits := R2 } else st1
        expand_max_loop adj child size R_bits (and_not P_local (2 ^ v)) rest st2
      else
        match child (size + 1) R2 P2 st1 with
        | Sum.inl st2 => Sum.inl st2
        | Sum.inr st2 => expand_max_loop adj child size R_bits (and_not P_local (2 ^ v)) rest st2

/-- Embeds `_expand_max(size, R_bits, P_bits)`.  The deadline check at
recursion entry consumes one unit of time fuel; fuel 0 at a check is the
deadline firing (`raise TimeoutError`), modelled as `Sum.inl st`. -/
def expand_max (adj : List Nat) : Nat → Nat → Nat → Nat → SolverSt → SolverSt ⊕ SolverSt
  | 0, _, _, _, st => Sum.inl st
  | fuel+1, size, R_bits, P_bits, st =>
    if P_bits = 0 then
      Sum.inr (if size > st.best_size then
        { st with best_size := size, best_bits := R_bits } else st)
    else
      let oc := color_sort P_bits adj
      expand_max_loop adj (expand_max adj fuel) size R_bits P_bits
        ((oc.1.zip oc.2).reverse) st

/-- Embeds `MaxCliqueSolver.max_size`: resets the state, runs `_expand_max`
from the full vertex mask, catches the timeout, and returns
`(best_size, witness list, complete)`; also exposes the surviving solver
state (the Python solver object outlives the call). -/
def max_size (adj : List Nat) (n : Nat) (fuel : Nat) (init_lb : Nat) :
    Nat × List Nat × Bool × SolverSt :=
  let st0 : SolverSt := ⟨init_lb, 0, 0⟩
  match expand_max adj fuel 0 0 (2 ^ n - 1) st0 with
  | Sum.inl st => (st.best_size, bits_to_list st.best_bits, false, st)
  | Sum.inr st => (st.best_size, bits_to_list st.best_bits, true, st)

/-! ### Invariants for the max-size phase -/

theorem set_bits_lor (a b : Nat) : set_bits (a ||| b) = set_bits a ∪ set_bits b := by
  ext j; simp [mem_set_bits, Nat.testBit_lor]

theorem set_bits_two_pow (v : Nat) : set_bits (2 ^ v) = {v} := by
  ext j
  simp [mem_set_bits, Nat.testBit_two_pow, eq_comm]

theorem bit_count_two_pow (v : Nat) : bit_count (2 ^ v) = 1 := by
  rw [bit_count_eq_card, set_bits_two_pow]
  rfl

theorem bit_count_lor_two_pow {R v : Nat} (h : R.testBit v = false) :
    bit_count (R ||| 2 ^ v) = bit_count R + 1 := by
  rw [bit_count_eq_card, bit_count_eq_card, set_bits_lor, set_bits_two_pow,
    Finset.union_comm, ← Finset.insert_eq,
    Finset.card_insert_of_not_mem (by simp [mem_set_bits, h])]

theorem testBit_ne_zero {x v : Nat} (h : x.testBit v = true) : x ≠ 0 := by
  intro h0
  rw [h0, Nat.zero_testBit] at h
  exact absurd h (by simp)

theorem singleton_cliqueMask (adj : List Nat) (v : Nat) : CliqueMask adj (2 ^ v) := by
  intro u w hu hw hne
  rw [Nat.testBit_two_pow, decide_eq_true_eq] at hu hw
  exact absurd (hu.symm.trans hw) hne

theorem land_two_pow_of_testBit {Q v : Nat} (h : Q.testBit v = true) :
    Q &&& 2 ^ v = 2 ^ v := by
  apply Nat.eq_of_testBit_eq
  intro j
  rw [Nat.testBit_land, Nat.testBit_two_pow]
  by_cases hj : v = j
  · subst hj
    simp [h]
  · simp [hj]

theorem bit_count_zero : bit_count 0 = 0 := rfl

theorem getElem_not_mem_take {α : Type} [DecidableEq α] {l : List α} {k : Nat}
    (hnd : l.Nodup) (hk : k < l.length) : l[k] ∉ l.take k := by
  intro hmem
  have hsplit : l.take k ++ l.drop k = l := List.take_append_drop k l
  have hnd2 : (l.take k ++ l.drop k).Nodup := by rw [hsplit]; exact hnd
  obtain ⟨_, _, hdisj⟩ := List.nodup_append.mp hnd2
  have hd : l[k] ∈ l.drop k := by
    rw [List.drop_eq_getElem_cons hk]
    exact List.mem_cons_self _ _
  exact hdisj hmem hd

/-- Precondition at a search node: `R_bits` is a clique of size `size` with
bits below `n`, and every candidate bit of `P_bits` is adjacent to every
member of `R_bits`. -/
def MaxPre (n : Nat) (adj : List Nat) (size R_bits P_bits : Nat) : Prop :=
  CliqueMask adj R_bits ∧ bit_count R_bits = size ∧ R_bits < 2 ^ n ∧ P_bits < 2 ^ n ∧
  (∀ w, P_bits.testBit w = true → ∀ r, R_bits.testBit r = true →
    (adj.getD r 0).testBit w = true)

/-- Soundness invariant on the solver state during the max-size phase,
relative to the `init_lb` the phase was seeded with: the best size never
drops below the seed, it equals the seed while no witness is recorded, and a
recorded witness is a genuine clique of exactly the recorded size. -/
def StInv (n : Nat) (adj : List Nat) (init : Nat) (st : SolverSt) : Prop :=
  init ≤ st.best_size ∧
  (st.best_bits = 0 → st.best_size = init) ∧
  (st.best_bits ≠ 0 → CliqueMask adj st.best_bits ∧
    bit_count st.best_bits = st.best_size ∧ st.best_bits < 2 ^ n)

theorem stInv_nodes {n : Nat} {adj : List Nat} {init : Nat} {st : SolverSt} {m : Nat}
    (h : StInv n adj init st) : StInv n adj init { st with nodes_expanded := m } := h

/-- What one recursive call of `_expand_max` guarantees.  The loop lemma is
proved for an arbitrary `child` with this property and `expand_max_spec`
closes the recursion. -/
def max_child_spec (n : Nat) (adj : List Nat) (init : Nat)
    (child : Nat → Nat → Nat → SolverSt → SolverSt ⊕ SolverSt) : Prop :=
  ∀ size R P st, MaxPre n adj size R P → StInv n adj init st →
    (∀ st', child size R P st = Sum.inl st' →
      StInv n adj init st' ∧ st.best_size ≤ st'.best_size) ∧
    (∀ st', child size R P st = Sum.inr st' →
      StInv n adj init st' ∧ st.best_size ≤ st'.best_size ∧
      ∀ Q, CliqueMask adj Q → Q ≠ 0 → mask_subset Q P →
        size + bit_count Q ≤ st'.best_size)

/-! Unfolding equations for `expand_max_loop`, one per control path of the
Python loop body. -/

theorem expand_max_loop_nil (adj : List Nat) (child) (size R_bits P_local : Nat)
    (st : SolverSt) :
    expand_max_loop adj child size R_bits P_local [] st = Sum.inr st := rfl

theorem expand_max_loop_break (adj : List Nat) (child) (size R_bits P_local v c : Nat)
    (rest : List (Nat × Nat)) (st : SolverSt) (h : size + c ≤ st.best_size) :
    expand_max_loop adj child size R_bits P_local ((v, c) :: rest) st = Sum.inr st := by
  simp only [expand_max_loop]
  rw [if_pos h]

theorem expand_max_loop_skip (adj : List Nat) (child) (size R_bits P_local v c : Nat)
    (rest : List (Nat × Nat)) (st : SolverSt) (h : ¬ size + c ≤ st.best_size)
    (htb : P_local.testBit v = false) :
    expand_max_loop adj child size R_bits P_local ((v, c) :: rest) st =
      expand_max_loop adj child size R_bits P_local rest st := by
  simp only [expand_max_loop]
  rw [if_neg h, if_pos (by simp [htb])]

theorem expand_max_loop_leaf (adj : List Nat) (child) (size R_bits P_local v c : Nat)
    (rest : List (Nat × Nat)) (st : SolverSt) (h : ¬ size + c ≤ st.best_size)
    (htb : P_local.testBit v = true) (hP2 : P_local &&& adj.getD v 0 = 0) :
    expand_max_loop adj child size R_bits P_local ((v, c) :: rest) st =
      expand_max_loop adj child size R_bits (and_not P_local (2 ^ v)) rest
        (if size + 1 > st.best_size then
          ⟨size + 1, R_bits ||| 2 ^ v, st.nodes_expanded + 1⟩
        else ⟨st.best_size, st.best_bits, st.nodes_expanded + 1⟩) := by
  simp only [expand_max_loop]
  rw [if_neg h, if_neg (by simp [htb]), if_pos hP2]

theorem expand_max_loop_child (adj : List Nat) (child) (size R_bits P_local v c : Nat)
    (rest : List (Nat × Nat)) (st : SolverSt) (h : ¬ size + c ≤ st.best_size)
    (htb : P_local.testBit v = true) (hP2 : ¬ P_local &&& adj.getD v 0 = 0) :
    expand_max_loop adj child size R_bits P_local ((v, c) :: rest) st =
      match child (size + 1) (R_bits ||| 2 ^ v) (P_local &&& adj.getD v 0)
          ⟨st.best_size, st.best_bits, st.nodes_expanded + 1⟩ with
      | Sum.inl st2 => Sum.inl st2
      | Sum.inr st2 =>
        expand_max_loop adj child size R_bits (and_not P_local (2 ^ v)) rest st2 := by
  simp only [expand_max_loop]
  rw [if_neg h, if_neg (by simp [htb]), if_neg hP2]

/-- Main invariant lemma for the `_expand_max` loop: soundness, monotonicity
of the best size, and completeness (every non-empty clique inside the
loop-local candidate set is matched by the final best size) — assuming the
recursive call obeys `max_child_spec`. -/
theorem expand_max_loop_spec {n : Nat} {adj : List Nat} {init : Nat}
    (hwf : AdjWF n adj) {child : Nat → Nat → Nat → SolverSt → SolverSt ⊕ SolverSt}
    (hchild : max_child_spec n adj init child)
    {size R P : Nat} (hpre : MaxPre n adj size R P)
    {order colors : List Nat}
    (hlen : order.length = colors.length)
    (hmem : ∀ v, v ∈ order ↔ P.testBit v = true)
    (hnd : order.Nodup)
    (hbound : ∀ k, 0 < k → k ≤ order.length → ∀ Q, CliqueMask adj Q →
      (∀ u, Q.testBit u = true → u ∈ order.take k) →
      bit_count Q ≤ colors.getD (k - 1) 0) :
    ∀ k, k ≤ order.length → ∀ P_local st,
      (∀ u, P_local.testBit u = true ↔ (P.testBit u = true ∧ u ∈ order.take k)) →
      StInv n adj init st →
      (∀ st', expand_max_loop adj child size R P_local
          (((order.zip colors).take k).reverse) st = Sum.inl st' →
        StInv n adj init st' ∧ st.best_size ≤ st'.best_size) ∧
      (∀ st', expand_max_loop adj child size R P_local
          (((order.zip colors).take k).reverse) st = Sum.inr st' →
        StInv n adj init st' ∧ st.best_size ≤ st'.best_size ∧
        ∀ Q, CliqueMask adj Q → Q ≠ 0 → mask_subset Q P_local →
          size + bit_count Q ≤ st'.best_size) := by
  intro k
  induction k with
  | zero =>
    intro _ P_local st hPl hinv
    constructor
    · intro st' h
      rw [List.take_zero, List.reverse_nil, expand_max_loop_nil] at h
      exact absurd h (by simp)
    · intro st' h
      rw [List.take_zero, List.reverse_nil, expand_max_loop_nil] at h
      obtain rfl : st = st' := by injection h
      refine ⟨hinv, le_refl _, ?_⟩
      intro Q hQ hQne hQsub
      exfalso
      have h1 : Q.testBit (lsb_index Q) = true :=
        (lsb_index_spec Q (Nat.pos_of_ne_zero hQne)).1
      have h2 := (hPl _).mp (hQsub _ h1)
      simp at h2
  | succ k ih =>
    intro hk1 P_local st hPl hinv
    have hk : k < order.length := by omega
    have hkc : k < colors.length := by omega
    have hzlen : (order.zip colors).length = order.length := by
      rw [List.length_zip, hlen]
      exact Nat.min_self _
    have hkz : k < (order.zip colors).length := by omega
    have hdecomp : ((order.zip colors).take (k+1)).reverse
        = (order[k], colors[k]) :: ((order.zip colors).take k).reverse := by
      rw [List.take_succ, List.getElem?_eq_getElem hkz]
      simp [List.getElem_zip]
    have htk1 : order.take (k+1) = order.take k ++ [order[k]] := by
      rw [List.take_succ, List.getElem?_eq_getElem hk]
      rfl
    have hvmem : order[k] ∈ order := List.getElem_mem _
    have hvPbit : P.testBit order[k] = true := (hmem _).mp hvmem
    have hvtk1 : order[k] ∈ order.take (k+1) := by
      rw [htk1]
      exact List.mem_append_right _ (List.mem_singleton_self _)
    have hcval : colors.getD k 0 = colors[k] := by
      rw [List.getD_eq_getElem?_getD, List.getElem?_eq_getElem hkc]
      rfl
    rw [hdecomp]
    by_cases hbr : size + colors[k] ≤ st.best_size
    · rw [expand_max_loop_break _ _ _ _ _ _ _ _ _ hbr]
      constructor
      · intro st' h
        exact absurd h (by simp)
      · intro st' h
        obtain rfl : st = st' := by injection h
        refine ⟨hinv, le_refl _, ?_⟩
        intro Q hQ hQne hQsub
        have hb := hbound (k+1) (by omega) (by omega) Q hQ
          (fun u hu => (hPl u).mp (hQsub u hu) |>.2)
        simp only [Nat.add_sub_cancel] at hb
        rw [hcval] at hb
        omega
    · by_cases htb : P_local.testBit order[k] = true
      case neg =>
        -- the `continue` branch is unreachable: the invariant forces the
        -- current vertex to still be in the local candidate set
        exfalso
        exact htb ((hPl _).mpr ⟨hvPbit, hvtk1⟩)
      case pos =>
        have hvn : order[k] < n := testBit_lt_of_lt_two_pow hpre.2.2.2.1 hvPbit
        have hRv : R.testBit order[k] = false := by
          cases hb : R.testBit order[k]
          · rfl
          · exfalso
            have h1 := hpre.2.2.2.2 order[k] hvPbit order[k] hb
            rw [hwf.irrefl] at h1
            exact absurd h1 (by simp)
        have hR2clique : CliqueMask adj (R ||| 2 ^ order[k]) := by
          intro a b ha hb hne
          rw [Nat.testBit_lor, Bool.or_eq_true, Nat.testBit_two_pow, decide_eq_true_eq] at ha hb
          rcases ha with ha | ha
          · rcases hb with hb | hb
            · exact hpre.1 a b ha hb hne
            · rw [← hb]
              exact hpre.2.2.2.2 order[k] hvPbit a ha
          · rcases hb with hb | hb
            · rw [← ha, hwf.symm]
              exact hpre.2.2.2.2 order[k] hvPbit b hb
            · exact absurd (ha.symm.trans hb) hne
        have hbcR2 : bit_count (R ||| 2 ^ order[k]) = size + 1 := by
          rw [bit_count_lor_two_pow hRv, hpre.2.1]
        have hR2lt : R ||| 2 ^ order[k] < 2 ^ n := by
          refine lt_two_pow_of_bits fun j hj => ?_
          rw [Nat.testBit_lor, Bool.or_eq_true, Nat.testBit_two_pow, decide_eq_true_eq] at hj
          rcases hj with hj | hj
          · exact testBit_lt_of_lt_two_pow hpre.2.2.1 hj
          · omega
        have hR2v : (R ||| 2 ^ order[k]).testBit order[k] = true := by
          rw [Nat.testBit_lor, Nat.testBit_two_pow]
          simp
        have hP2sub : ∀ w, (P_local &&& adj.getD order[k] 0).testBit w = true →
            P_local.testBit w = true ∧ (adj.getD order[k] 0).testBit w = true := by
          intro w hw
          rw [Nat.testBit_land] at hw
          exact (Bool.and_eq_true _ _).mp hw
        have hP2pre : MaxPre n adj (size + 1) (R ||| 2 ^ order[k])
            (P_local &&& adj.getD order[k] 0) := by
          refine ⟨hR2clique, hbcR2, hR2lt, ?_, ?_⟩
          · refine lt_two_pow_of_bits fun j hj => ?_
            exact (hwf.bits order[k] j (hP2sub j hj).2).2
          · intro w hw r hr
            rw [Nat.testBit_lor, Bool.or_eq_true, Nat.testBit_two_pow, decide_eq_true_eq] at hr
            rcases hr with hr | hr
            · exact hpre.2.2.2.2 w ((hPl w).mp (hP2sub w hw).1).1 r hr
            · rw [← hr]
              exact (hP2sub w hw).2
        have hPl' : ∀ u, (and_not P_local (2 ^ order[k])).testBit u = true ↔
            (P.testBit u = true ∧ u ∈ order.take k) := by
          intro u
          rw [testBit_and_not, Bool.and_eq_true, Bool.not_eq_true', Nat.testBit_two_pow]
          constructor
          · rintro ⟨h1, h2⟩
            have h3 := (hPl u).mp h1
            have hune : u ≠ order[k] := by
              intro he
              rw [he] at h2
              simp at h2
            rw [htk1] at h3
            rcases List.mem_append.mp h3.2 with h4 | h4
            · exact ⟨h3.1, h4⟩
            · rw [List.mem_singleton] at h4
              exact absurd h4 hune
          · rintro ⟨h1, h2⟩
            have hune : u ≠ order[k] := by
              intro he
              rw [he] at h2
              exact getElem_not_mem_take hnd hk h2
            refine ⟨(hPl u).mpr ⟨h1, by rw [htk1]; exact List.mem_append_left _ h2⟩, ?_⟩
            simp [Ne.symm hune]
        by_cases hP2z : P_local &&& adj.getD order[k] 0 = 0
        · rw [expand_max_loop_leaf _ _ _ _ _ _ _ _ _ hbr htb hP2z]
          set st2 := (if size + 1 > st.best_size then
              (⟨size + 1, R ||| 2 ^ order[k], st.nodes_expanded + 1⟩ : SolverSt)
            else ⟨st.best_size, st.best_bits, st.nodes_expanded + 1⟩) with hst2
          have hst2inv : StInv n adj init st2 := by
            rw [hst2]
            split
            · refine ⟨?_, ?_, fun _ => ⟨hR2clique, hbcR2, hR2lt⟩⟩
              · show init ≤ size + 1
                have := hinv.1
                omega
              · intro h0
                exact absurd h0 (testBit_ne_zero hR2v)
            · exact hinv
          have hst2mono : st.best_size ≤ st2.best_size := by
            rw [hst2]
            split
            · show st.best_size ≤ size + 1
              omega
            · exact le_refl _
          have hst2lb : size + 1 ≤ st2.best_size := by
            rw [hst2]
            split
            · exact le_refl _
            · show size + 1 ≤ st.best_size
              omega
          obtain ⟨ihL, ihR⟩ := ih (by omega) (and_not P_local (2 ^ order[k])) st2 hPl' hst2inv
          constructor
          · intro st' h
            obtain ⟨h1, h2⟩ := ihL st' h
            exact ⟨h1, le_trans hst2mono h2⟩
          · intro st' h
            obtain ⟨h1, h2, h3⟩ := ihR st' h
            refine ⟨h1, le_trans hst2mono h2, ?_⟩
            intro Q hQ hQne hQsub
            by_cases hvQ : Q.testBit order[k] = true
            · have hQp0 : and_not Q (2 ^ order[k]) = 0 := by
                apply Nat.zero_of_testBit_eq_false
                intro j
                cases hj : (and_not Q (2 ^ order[k])).testBit j
                · rfl
                · exfalso
                  rw [testBit_and_not, Bool.and_eq_true, Bool.not_eq_true',
                    Nat.testBit_two_pow] at hj
                  have hjne : order[k] ≠ j := by
                    intro he
                    rw [he] at hj
                    simp at hj
                  have hjP2 : (P_local &&& adj.getD order[k] 0).testBit j = true := by
                    rw [Nat.testBit_land, hQsub j hj.1,
                      hQ order[k] j hvQ hj.1 hjne]
                    rfl
                  rw [hP2z, Nat.zero_testBit] at hjP2
                  exact absurd hjP2 (by simp)
              have hbcQ : bit_count Q = 1 := by
                have hsp := bit_count_split Q (2 ^ order[k])
                rw [land_two_pow_of_testBit hvQ, bit_count_two_pow, hQp0, bit_count_zero] at hsp
                omega
              rw [hbcQ]
              omega
            · refine h3 Q hQ hQne ?_
              intro j hj
              rw [testBit_and_not, Bool.and_eq_true, Bool.not_eq_true', Nat.testBit_two_pow]
              refine ⟨hQsub j hj, ?_⟩
              have : j ≠ order[k] := by
                intro he
                rw [he] at hj
                exact absurd hj hvQ
              simp [Ne.symm this]
        · rw [expand_max_loop_child _ _ _ _ _ _ _ _ _ hbr htb hP2z]
          obtain ⟨cInl, cInr⟩ := hchild (size + 1) (R ||| 2 ^ order[k])
            (P_local &&& adj.getD order[k] 0)
            ⟨st.best_size, st.best_bits, st.nodes_expanded + 1⟩ hP2pre hinv
          cases hc : child (size + 1) (R ||| 2 ^ order[k]) (P_local &&& adj.getD order[k] 0)
              ⟨st.best_size, st.best_bits, st.nodes_expanded + 1⟩ with
          | inl st2 =>
            obtain ⟨h1, h2⟩ := cInl st2 hc
            constructor
            · intro st' h
              simp only [hc] at h
              obtain rfl : st2 = st' := by injection h
              exact ⟨h1, h2⟩
            · intro st' h
              simp only [hc] at h
              exact absurd h (by simp)
          | inr st2 =>
            obtain ⟨c2inv, c2mono, c2comp⟩ := cInr st2 hc
            obtain ⟨ihL, ihR⟩ := ih (by omega) (and_not P_local (2 ^ order[k])) st2 hPl' c2inv
            constructor
            · intro st' h
              simp only [hc] at h
              obtain ⟨h1, h2⟩ := ihL st' h
              exact ⟨h1, le_trans c2mono h2⟩
            · intro st' h
              simp only [hc] at h
              obtain ⟨h1, h2, h3⟩ := ihR st' h
              refine ⟨h1, le_trans c2mono h2, ?_⟩
              intro Q hQ hQne hQsub
              by_cases hvQ : Q.testBit order[k] = true
              · have hQ'sub : mask_subset (and_not Q (2 ^ order[k]))
                    (P_local &&& adj.getD order[k] 0) := by
                  intro j hj
                  rw [testBit_and_not, Bool.and_eq_true, Bool.not_eq_true',
                    Nat.testBit_two_pow] at hj
                  have hjne : order[k] ≠ j := by
                    intro he
                    rw [he] at hj
                    simp at hj
                  rw [Nat.testBit_land, hQsub j hj.1, hQ order[k] j hvQ hj.1 hjne]
                  rfl
                have hsp := bit_count_split Q (2 ^ order[k])
                rw [land_two_pow_of_testBit hvQ, bit_count_two_pow] at hsp
                by_cases hQ'z : and_not Q (2 ^ order[k]) = 0
                · have hbcQ : bit_count Q = 1 := by
                    rw [hQ'z, bit_count_zero] at hsp
                    omega
                  have hP2pos : 0 < P_local &&& adj.getD order[k] 0 :=
                    Nat.pos_of_ne_zero hP2z
                  have hsing := c2comp (2 ^ lsb_index (P_local &&& adj.getD order[k] 0))
                    (singleton_cliqueMask adj (lsb_index (P_local &&& adj.getD order[k] 0)))
                    (by positivity)
                    (by
                      intro j hj
                      rw [Nat.testBit_two_pow, decide_eq_true_eq] at hj
                      rw [← hj]
                      exact (lsb_index_spec _ hP2pos).1)
                  have hone := bit_count_two_pow (lsb_index (P_local &&& adj.getD order[k] 0))
                  rw [hbcQ]
                  omega
                · have hcq := c2comp (and_not Q (2 ^ order[k]))
                    (cliqueMask_mono (fun j hj => by
                      rw [testBit_and_not, Bool.and_eq_true] at hj
                      exact hj.1) hQ) hQ'z hQ'sub
                  omega
              · refine h3 Q hQ hQne ?_
                intro j hj
                rw [testBit_and_not, Bool.and_eq_true, Bool.not_eq_true', Nat.testBit_two_pow]
                refine ⟨hQsub j hj, ?_⟩
                have : j ≠ order[k] := by
                  intro he
                  rw [he] at hj
                  exact absurd hj hvQ
                simp [Ne.symm this]

/-- Every fuel instance of `_expand_max` satisfies the node contract:
state soundness, monotone best size, and (when it returns without timeout)
completeness over all non-empty cliques within the candidate set. -/
theorem expand_max_spec {n : Nat} {adj : List Nat} (hwf : AdjWF n adj) (init : Nat) :
    ∀ fuel, max_child_spec n adj init (expand_max adj fuel) := by
  intro fuel
  induction fuel with
  | zero =>
    intro size R P st hpre hinv
    constructor
    · intro st' h
      obtain rfl : st = st' := by injection h
      exact ⟨hinv, le_refl _⟩
    · intro st' h
      exact absurd h (by simp [expand_max])
  | succ fuel ih =>
    intro size R P st hpre hinv
    by_cases hP0 : P = 0
    · subst hP0
      have hunf : expand_max adj (fuel+1) size R 0 st =
          Sum.inr (if size > st.best_size then
            ⟨size, R, st.nodes_expanded⟩ else st) := by
        simp [expand_max]
      constructor
      · intro st' h
        rw [hunf] at h
        exact absurd h (by simp)
      · intro st' h
        rw [hunf] at h
        obtain rfl := (by injection h : _ = st')
        refine ⟨?_, ?_, ?_⟩
        · split
          next hgt =>
            refine ⟨?_, ?_, fun _ => ⟨hpre.1, hpre.2.1, hpre.2.2.1⟩⟩
            · show init ≤ size
              have := hinv.1
              omega
            · intro h0
              exfalso
              have hbc : bit_count R = size := hpre.2.1
              rw [(by exact h0 : R = 0), bit_count_zero] at hbc
              have := hinv.1
              omega
          next hgt => exact hinv
        · split
          next hgt =>
            show st.best_size ≤ size
            omega
          next hgt => exact le_refl _
        · intro Q hQ hQne hQsub
          exfalso
          have h1 : Q.testBit (lsb_index Q) = true :=
            (lsb_index_spec Q (Nat.pos_of_ne_zero hQne)).1
          have h2 := hQsub _ h1
          rw [Nat.zero_testBit] at h2
          exact absurd h2 (by simp)
    · obtain ⟨hoclen, hocmem, hocnd, hoccol, hocbd⟩ := color_sort_spec P adj
      have hunf : expand_max adj (fuel+1) size R P st =
          expand_max_loop adj (expand_max adj fuel) size R P
            (((color_sort P adj).1.zip (color_sort P adj).2)).reverse st := by
        simp only [expand_max]
        rw [if_neg hP0]
      have hzfull : ((color_sort P adj).1.zip (color_sort P adj).2) =
          (((color_sort P adj).1.zip (color_sort P adj).2)).take
            ((color_sort P adj).1.length) := by
        rw [List.take_of_length_le]
        rw [List.length_zip, hoclen]
        simp
      have htfull : (color_sort P adj).1.take ((color_sort P adj).1.length) =
          (color_sort P adj).1 := List.take_of_length_le (le_refl _)
      obtain ⟨mainL, mainR⟩ := expand_max_loop_spec hwf ih hpre hoclen hocmem hocnd
        (fun k hk hkle Q hq ht => hocbd k hk hkle Q hq ht)
        ((color_sort P adj).1.length) (le_refl _) P st
        (fun u => by
          rw [htfull]
          constructor
          · intro h1
            exact ⟨h1, (hocmem u).mpr h1⟩
          · intro h1
            exact h1.1)
        hinv
      rw [← hzfull] at mainL mainR
      constructor
      · intro st' h
        rw [hunf] at h
        exact mainL st' h
      · intro st' h
        rw [hunf] at h
        exact mainR st' h

/-! ### The enumeration phase (`_expand_enum`, `enumerate_all_max`) -/

/-- The mutable state of the enumeration phase: the node counter and the
`out` list of collected cliques. -/
structure EnumSt where
  nodes_expanded : Nat
  out : List (List Nat)
deriving DecidableEq, Repr

/-- Embeds `cap is not None and len(out) >= cap`. -/
def cap_reached (cap : Option Nat) (out : List (List Nat)) : Bool :=
  match cap with
  | none => false
  | some capv => decide (capv ≤ out.length)

/-- The loop body of `_expand_enum`, mirroring the source control flow: the
cap check directly after an append, and the cap check at the bottom of every
processed iteration, both raise through the timeout channel (`Sum.inl`). -/
def expand_enum_loop (adj : List Nat) (cap : Option Nat) (target : Nat)
    (child : Nat → Nat → Nat → EnumSt → EnumSt ⊕ EnumSt) (size R_bits : Nat) :
    Nat → List (Nat × Nat) → EnumSt → EnumSt ⊕ EnumSt
  | _, [], st => Sum.inr st
  | P_local, (v, c) :: rest, st =>
    if size + c < target then Sum.inr st
    else if ¬ (P_local.testBit v = true) then
      expand_enum_loop adj cap target child size R_bits P_local rest st
    else
      let st1 : EnumSt := { st with nodes_expanded := st.nodes_expanded + 1 }
      let R2 := R_bits ||| 2 ^ v
      let P2 := P_local &&& adj.getD v 0
      if P2 = 0 then
        if size + 1 = target then
          let st2 : EnumSt := { st1 with out := st1.out ++ [bits_to_list R2] }
          if cap_reached cap st2.out then Sum.inl st2
          else if cap_reached cap st2.out then Sum.inl st2
          else expand_enum_loop adj cap target child size R_bits
            (and_not P_local (2 ^ v)) rest st2
        else
          if cap_reached cap st1.out then Sum.inl st1
          else expand_enum_loop adj cap target child size R_bits
            (and_not P_local (2 ^ v)) rest st1
      else
        match child (size + 1) R2 P2 st1 with
        | Sum.inl st2 => Sum.inl st2
        | Sum.inr st2 =>
          if cap_reached cap st2.out then Sum.inl st2
          else expand_enum_loop adj cap target child size R_bits
            (and_not P_local (2 ^ v)) rest st2

/-- Embeds `_expand_enum(size, R_bits, P_bits, target, out, cap)` with the
same fuel-based time model as `expand_max`. -/
def expand_enum (adj : List Nat) (cap : Option Nat) (target : Nat) :
    Nat → Nat → Nat → Nat → EnumSt → EnumSt ⊕ EnumSt
  | 0, _, _, _, st => Sum.inl st
  | fuel+1, size, R_bits, P_bits, st =>
    if P_bits = 0 then
      Sum.inr (if size = target then
        { st with out := st.out ++ [bits_to_list R_bits] } else st)
    else
      let oc := color_sort P_bits adj
      expand_enum_loop adj cap target (expand_enum adj cap target fuel) size R_bits P_bits
        ((oc.1.zip oc.2).reverse) st

/-- Embeds `MaxCliqueSolver.enumerate_all_max`: resets the node counter, runs
`_expand_enum` over the full vertex mask, catches the timeout/cap signal, and
returns `(out, complete, nodes_expanded)`. -/
def enumerate_all_max (adj : List Nat) (n : Nat) (omega fuel : Nat) (cap : Option Nat) :
    List (List Nat) × Bool × Nat :=
  let st0 : EnumSt := ⟨0, []⟩
  match expand_enum adj cap omega fuel 0 0 (2 ^ n - 1) st0 with
  | Sum.inl st => (st.out, false, st.nodes_expanded)
  | Sum.inr st => (st.out, true, st.nodes_expanded)

/-- Soundness invariant of the enumeration output: every collected list is
the sorted listing of a clique mask of exactly the target size. -/
def EnumInv (n : Nat) (adj : List Nat) (target : Nat) (st : EnumSt) : Prop :=
  ∀ l ∈ st.out, ∃ m, l = bits_to_list m ∧ CliqueMask adj m ∧
    bit_count m = target ∧ m < 2 ^ n

/-! Unfolding equations for `expand_enum_loop`, one per control path. -/

theorem expand_enum_loop_nil (adj : List Nat) (cap : Option Nat) (target : Nat) (child)
    (size R_bits P_local : Nat) (st : EnumSt) :
    expand_enum_loop adj cap target child size R_bits P_local [] st = Sum.inr st := rfl

theorem expand_enum_loop_break (adj : List Nat) (cap : Option Nat) (target : Nat) (child)
    (size R_bits P_local v c : Nat) (rest : List (Nat × Nat)) (st : EnumSt)
    (h : size + c < target) :
    expand_enum_loop adj cap target child size R_bits P_local ((v, c) :: rest) st =
      Sum.inr st := by
  simp only [expand_enum_loop]
  rw [if_pos h]

theorem expand_enum_loop_skip (adj : List Nat) (cap : Option Nat) (target : Nat) (child)
    (size R_bits P_local v c : Nat) (rest : List (Nat × Nat)) (st : EnumSt)
    (h : ¬ size + c < target) (htb : P_local.testBit v = false) :
    expand_enum_loop adj cap target child size R_bits P_local ((v, c) :: rest) st =
      expand_enum_loop adj cap target child size R_bits P_local rest st := by
  simp only [expand_enum_loop]
  rw [if_neg h, if_pos (by simp [htb])]

theorem expand_enum_loop_leaf_app (adj : List Nat) (cap : Option Nat) (target : Nat) (child)
    (size R_bits P_local v c : Nat) (rest : List (Nat × Nat)) (st : EnumSt)
    (h : ¬ size + c < target) (htb : P_local.testBit v = true)
    (hP2 : P_local &&& adj.getD v 0 = 0) (htgt : size + 1 = target) :
    expand_enum_loop adj cap target child size R_bits P_local ((v, c) :: rest) st =
      (if cap_reached cap (st.out ++ [bits_to_list (R_bits ||| 2 ^ v)]) then
        Sum.inl ⟨st.nodes_expanded + 1, st.out ++ [bits_to_list (R_bits ||| 2 ^ v)]⟩
      else expand_enum_loop adj cap target child size R_bits (and_not P_local (2 ^ v)) rest
        ⟨st.nodes_expanded + 1, st.out ++ [bits_to_list (R_bits ||| 2 ^ v)]⟩) := by
  simp only [expand_enum_loop]
  rw [if_neg h, if_neg (by simp [htb]), if_pos hP2, if_pos htgt]
  by_cases hcap : cap_reached cap (st.out ++ [bits_to_list (R_bits ||| 2 ^ v)]) = true
  · rw [if_pos hcap, if_pos hcap]
  · rw [if_neg hcap, if_neg hcap]

theorem expand_enum_loop_leaf_noapp (adj : List Nat) (cap : Option Nat) (target : Nat)
    (child) (size R_bits P_local v c : Nat) (rest : List (Nat × Nat)) (st : EnumSt)
    (h : ¬ size + c < target) (htb : P_local.testBit v = true)
    (hP2 : P_local &&& adj.getD v 0 = 0) (htgt : ¬ size + 1 = target) :
    expand_enum_loop adj cap target child size R_bits P_local ((v, c) :: rest) st =
      (if cap_reached cap st.out then
        Sum.inl ⟨st.nodes_expanded + 1, st.out⟩
      else expand_enum_loop adj cap target child size R_bits (and_not P_local (2 ^ v)) rest
        ⟨st.nodes_expanded + 1, st.out⟩) := by
  simp only [expand_enum_loop]
  rw [if_neg h, if_neg (by simp [htb]), if_pos hP2, if_neg htgt]

theorem expand_enum_loop_child (adj : List Nat) (cap : Option Nat) (target : Nat) (child)
    (size R_bits P_local v c : Nat) (rest : List (Nat × Nat)) (st : EnumSt)
    (h : ¬ size + c < target) (htb : P_local.testBit v = true)
    (hP2 : ¬ P_local &&& adj.getD v 0 = 0) :
    expand_enum_loop adj cap target child size R_bits P_local ((v, c) :: rest) st =
      match child (size + 1) (R_bits ||| 2 ^ v) (P_local &&& adj.getD v 0)
          ⟨st.nodes_expanded + 1, st.out⟩ with
      | Sum.inl st2 => Sum.inl st2
      | Sum.inr st2 =>
        if cap_reached cap st2.out then Sum.inl st2
        else expand_enum_loop adj cap target child size R_bits
          (and_not P_local (2 ^ v)) rest st2 := by
  simp only [expand_enum_loop]
  rw [if_neg h, if_neg (by simp [htb]), if_neg hP2]

/-- Merging the chosen vertex back: if `v ∈ Q` then
`(R ∪ {v}) ∪ (Q - {v}) = R ∪ Q`. -/
theorem lor_two_pow_and_not {R Q v : Nat} (hv : Q.testBit v = true) :
    (R ||| 2 ^ v) ||| and_not Q (2 ^ v) = R ||| Q := by
  apply Nat.eq_of_testBit_eq
  intro j
  rw [Nat.testBit_lor, Nat.testBit_lor, Nat.testBit_lor, testBit_and_not,
    Nat.testBit_two_pow]
  by_cases hj : v = j
  · subst hj
    simp [hv]
  · simp [hj]

/-- If clearing `v` from `Q` leaves nothing and `v ∈ Q`, then `Q = {v}`. -/
theorem eq_two_pow_of_and_not_zero {Q v : Nat} (hv : Q.testBit v = true)
    (h0 : and_not Q (2 ^ v) = 0) : Q = 2 ^ v := by
  apply Nat.eq_of_testBit_eq
  intro j
  rw [Nat.testBit_two_pow]
  by_cases hj : v = j
  · subst hj
    simp [hv]
  · have h1 := congrArg (fun m => Nat.testBit m j) h0
    simp only [testBit_and_not, Nat.zero_testBit, Nat.testBit_two_pow] at h1
    rw [Bool.and_eq_false_iff] at h1
    rcases h1 with h1 | h1
    · rw [h1]
      simp [hj]
    · rw [Bool.not_eq_false', decide_eq_true_eq] at h1
      exact absurd h1 hj

/-- What one recursive call of `_expand_enum` guarantees: output soundness,
append-only output, and completeness — every non-empty clique `Q` of the
candidate set that reaches the target size and cannot be extended inside the
candidate set gets `R ∪ Q` appended, provided no timeout/cap fired. -/
def enum_child_spec (n : Nat) (adj : List Nat) (cap : Option Nat) (target : Nat)
    (child : Nat → Nat → Nat → EnumSt → EnumSt ⊕ EnumSt) : Prop :=
  ∀ size R P st, MaxPre n adj size R P → EnumInv n adj target st →
    (∀ st', child size R P st = Sum.inl st' →
      EnumInv n adj target st' ∧ ∃ tail, st'.out = st.out ++ tail) ∧
    (∀ st', child size R P st = Sum.inr st' →
      EnumInv n adj target st' ∧ (∃ tail, st'.out = st.out ++ tail) ∧
      ∀ Q, CliqueMask adj Q → Q ≠ 0 → mask_subset Q P →
        size + bit_count Q = target →
        (∀ w, P.testBit w = true →
          (∀ q, Q.testBit q = true → (adj.getD q 0).testBit w = true) →
          Q.testBit w = true) →
        bits_to_list (R ||| Q) ∈ st'.out)

/-- Main invariant lemma for the `_expand_enum` loop. -/
theorem expand_enum_loop_spec {n : Nat} {adj : List Nat} {cap : Option Nat} {target : Nat}
    (hwf : AdjWF n adj) {child : Nat → Nat → Nat → EnumSt → EnumSt ⊕ EnumSt}
    (hchild : enum_child_spec n adj cap target child)
    {size R P : Nat} (hpre : MaxPre n adj size R P)
    {order colors : List Nat}
    (hlen : order.length = colors.length)
    (hmem : ∀ v, v ∈ order ↔ P.testBit v = true)
    (hnd : order.Nodup)
    (hbound : ∀ k, 0 < k → k ≤ order.length → ∀ Q, CliqueMask adj Q →
      (∀ u, Q.testBit u = true → u ∈ order.take k) →
      bit_count Q ≤ colors.getD (k - 1) 0) :
    ∀ k, k ≤ order.length → ∀ P_local st,
      (∀ u, P_local.testBit u = true ↔ (P.testBit u = true ∧ u ∈ order.take k)) →
      EnumInv n adj target st →
      (∀ st', expand_enum_loop adj cap target child size R P_local
          (((order.zip colors).take k).reverse) st = Sum.inl st' →
        EnumInv n adj target st' ∧ ∃ tail, st'.out = st.out ++ tail) ∧
      (∀ st', expand_enum_loop adj cap target child size R P_local
          (((order.zip colors).take k).reverse) st = Sum.inr st' →
        EnumInv n adj target st' ∧ (∃ tail, st'.out = st.out ++ tail) ∧
        ∀ Q, CliqueMask adj Q → Q ≠ 0 → mask_subset Q P_local →
          size + bit_count Q = target →
          (∀ w, P_local.testBit w = true →
            (∀ q, Q.testBit q = true → (adj.getD q 0).testBit w = true) →
            Q.testBit w = true) →
          bits_to_list (R ||| Q) ∈ st'.out) := by
  intro k
  induction k with
  | zero =>
    intro _ P_local st hPl hinv
    constructor
    · intro st' h
      rw [List.take_zero, List.reverse_nil, expand_enum_loop_nil] at h
      exact absurd h (by simp)
    · intro st' h
      rw [List.take_zero, List.reverse_nil, expand_enum_loop_nil] at h
      obtain rfl : st = st' := by injection h
      refine ⟨hinv, ⟨[], by simp⟩, ?_⟩
      intro Q hQ hQne hQsub _ _
      exfalso
      have h1 : Q.testBit (lsb_index Q) = true :=
        (lsb_index_spec Q (Nat.pos_of_ne_zero hQne)).1
      have h2 := (hPl _).mp (hQsub _ h1)
      simp at h2
  | succ k ih =>
    intro hk1 P_local st hPl hinv
    have hk : k < order.length := by omega
    have hkc : k < colors.length := by omega
    have hzlen : (order.zip colors).length = order.length := by
      rw [List.length_zip, hlen]
      exact Nat.min_self _
    have hkz : k < (order.zip colors).length := by omega
    have hdecomp : ((order.zip colors).take (k+1)).reverse
        = (order[k], colors[k]) :: ((order.zip colors).take k).reverse := by
      rw [List.take_succ, List.getElem?_eq_getElem hkz]
      simp [List.getElem_zip]
    have htk1 : order.take (k+1) = order.take k ++ [order[k]] := by
      rw [List.take_succ, List.getElem?_eq_getElem hk]
      rfl
    have hvmem : order[k] ∈ order := List.getElem_mem _
    have hvPbit : P.testBit order[k] = true := (hmem _).mp hvmem
    have hvtk1 : order[k] ∈ order.take (k+1) := by
      rw [htk1]
      exact List.mem_append_right _ (List.mem_singleton_self _)
    have hcval : colors.getD k 0 = colors[k] := by
      rw [List.getD_eq_getElem?_getD, List.getElem?_eq_getElem hkc]
      rfl
    rw [hdecomp]
    by_cases hbr : size + colors[k] < target
    · rw [expand_enum_loop_break _ _ _ _ _ _ _ _ _ _ _ hbr]
      constructor
      · intro st' h
        exact absurd h (by simp)
      · intro st' h
        obtain rfl : st = st' := by injection h
        refine ⟨hinv, ⟨[], by simp⟩, ?_⟩
        intro Q hQ hQne hQsub htgt _
        exfalso
        have hb := hbound (k+1) (by omega) (by omega) Q hQ
          (fun u hu => (hPl u).mp (hQsub u hu) |>.2)
        simp only [Nat.add_sub_cancel] at hb
        rw [hcval] at hb
        omega
    · by_cases htb : P_local.testBit order[k] = true
      case neg =>
        exfalso
        exact htb ((hPl _).mpr ⟨hvPbit, hvtk1⟩)
      case pos =>
        have hvn : order[k] < n := testBit_lt_of_lt_two_pow hpre.2.2.2.1 hvPbit
        have hRv : R.testBit order[k] = false := by
          cases hb : R.testBit order[k]
          · rfl
          · exfalso
            have h1 := hpre.2.2.2.2 order[k] hvPbit order[k] hb
            rw [hwf.irrefl] at h1
            exact absurd h1 (by simp)
        have hR2clique : CliqueMask adj (R ||| 2 ^ order[k]) := by
          intro a b ha hb hne
          rw [Nat.testBit_lor, Bool.or_eq_true, Nat.testBit_two_pow, decide_eq_true_eq] at ha hb
          rcases ha with ha | ha
          · rcases hb with hb | hb
            · exact hpre.1 a b ha hb hne
            · rw [← hb]
              exact hpre.2.2.2.2 order[k] hvPbit a ha
          · rcases hb with hb | hb
            · rw [← ha, hwf.symm]
              exact hpre.2.2.2.2 order[k] hvPbit b hb
            · exact absurd (ha.symm.trans hb) hne
        have hbcR2 : bit_count (R ||| 2 ^ order[k]) = size + 1 := by
          rw [bit_count_lor_two_pow hRv, hpre.2.1]
        have hR2lt : R ||| 2 ^ order[k] < 2 ^ n := by
          refine lt_two_pow_of_bits fun j hj => ?_
          rw [Nat.testBit_lor, Bool.or_eq_true, Nat.testBit_two_pow, decide_eq_true_eq] at hj
          rcases hj with hj | hj
          · exact testBit_lt_of_lt_two_pow hpre.2.2.1 hj
          · omega
        have hP2sub : ∀ w, (P_local &&& adj.getD order[k] 0).testBit w = true →
            P_local.testBit w = true ∧ (adj.getD order[k] 0).testBit w = true := by
          intro w hw
          rw [Nat.testBit_land] at hw
          exact (Bool.and_eq_true _ _).mp hw
        have hP2pre : MaxPre n adj (size + 1) (R ||| 2 ^ order[k])
            (P_local &&& adj.getD order[k] 0) := by
          refine ⟨hR2clique, hbcR2, hR2lt, ?_, ?_⟩
          · refine lt_two_pow_of_bits fun j hj => ?_
            exact (hwf.bits order[k] j (hP2sub j hj).2).2
          · intro w hw r hr
            rw [Nat.testBit_lor, Bool.or_eq_true, Nat.testBit_two_pow, decide_eq_true_eq] at hr
            rcases hr with hr | hr
            · exact hpre.2.2.2.2 w ((hPl w).mp (hP2sub w hw).1).1 r hr
            · rw [← hr]
              exact (hP2sub w hw).2
        have hPl' : ∀ u, (and_not P_local (2 ^ order[k])).testBit u = true ↔
            (P.testBit u = true ∧ u ∈ order.take k) := by
          intro u
          rw [testBit_and_not, Bool.and_eq_true, Bool.not_eq_true', Nat.testBit_two_pow]
          constructor
          · rintro ⟨h1, h2⟩
            have h3 := (hPl u).mp h1
            have hune : u ≠ order[k] := by
              intro he
              rw [he] at h2
              simp at h2
            rw [htk1] at h3
            rcases List.mem_append.mp h3.2 with h4 | h4
            · exact ⟨h3.1, h4⟩
            · rw [List.mem_singleton] at h4
              exact absurd h4 hune
          · rintro ⟨h1, h2⟩
            have hune : u ≠ order[k] := by
              intro he
              rw [he] at h2
              exact getElem_not_mem_take hnd hk h2
            refine ⟨(hPl u).mpr ⟨h1, by rw [htk1]; exact List.mem_append_left _ h2⟩, ?_⟩
            simp [Ne.symm hune]
        -- vertices dropped from the local candidate set keep cliques not
        -- containing the current vertex inside the smaller set
        have hQdrop : ∀ Q, Q.testBit order[k] = false → mask_subset Q P_local →
            mask_subset Q (and_not P_local (2 ^ order[k])) := by
          intro Q hvQ hQsub j hj
          rw [testBit_and_not, Bool.and_eq_true, Bool.not_eq_true', Nat.testBit_two_pow]
          refine ⟨hQsub j hj, ?_⟩
          have hne : j ≠ order[k] := by
            intro he
            rw [he] at hj
            rw [hj] at hvQ
            exact absurd hvQ (by simp)
          simp [Ne.symm hne]
        by_cases hP2z : P_local &&& adj.getD order[k] 0 = 0
        · by_cases htgt : size + 1 = target
          · rw [expand_enum_loop_leaf_app _ _ _ _ _ _ _ _ _ _ _ hbr htb hP2z htgt]
            have hinv2 : EnumInv n adj target
                ⟨st.nodes_expanded + 1, st.out ++ [bits_to_list (R ||| 2 ^ order[k])]⟩ := by
              intro l hl
              rcases List.mem_append.mp hl with hl | hl
              · exact hinv l hl
              · rw [List.mem_singleton] at hl
                exact ⟨R ||| 2 ^ order[k], hl, hR2clique, by omega, hR2lt⟩
            by_cases hcap : cap_reached cap (st.out ++ [bits_to_list (R ||| 2 ^ order[k])]) = true
            · rw [if_pos hcap]
              constructor
              · intro st' h
                obtain rfl : _ = st' := by injection h
                exact ⟨hinv2, ⟨[bits_to_list (R ||| 2 ^ order[k])], rfl⟩⟩
              · intro st' h
                exact absurd h (by simp)
            · rw [if_neg hcap]
              obtain ⟨ihL, ihR⟩ := ih (by omega) (and_not P_local (2 ^ order[k])) _ hPl' hinv2
              constructor
              · intro st' h
                obtain ⟨h1, tail, h2⟩ := ihL st' h
                exact ⟨h1, ⟨bits_to_list (R ||| 2 ^ order[k]) :: tail, by simpa using h2⟩⟩
              · intro st' h
                obtain ⟨h1, ⟨tail, h2⟩, h3⟩ := ihR st' h
                refine ⟨h1, ⟨bits_to_list (R ||| 2 ^ order[k]) :: tail, by simpa using h2⟩, ?_⟩
                intro Q hQ hQne hQsub hQtgt hQmax
                by_cases hvQ : Q.testBit order[k] = true
                · -- Q = {order[k]} : appended now, survives the recursion
                  have hQp0 : and_not Q (2 ^ order[k]) = 0 := by
                    apply Nat.zero_of_testBit_eq_false
                    intro j
                    cases hj : (and_not Q (2 ^ order[k])).testBit j
                    · rfl
                    · exfalso
                      rw [testBit_and_not, Bool.and_eq_true, Bool.not_eq_true',
                        Nat.testBit_two_pow] at hj
                      have hjne : order[k] ≠ j := by
                        intro he
                        rw [he] at hj
                        simp at hj
                      have hjP2 : (P_local &&& adj.getD order[k] 0).testBit j = true := by
                        rw [Nat.testBit_land, hQsub j hj.1,
                          hQ order[k] j hvQ hj.1 hjne]
                        rfl
                      rw [hP2z, Nat.zero_testBit] at hjP2
                      exact absurd hjP2 (by simp)
                  have hQeq : Q = 2 ^ order[k] := eq_two_pow_of_and_not_zero hvQ hQp0
                  rw [hQeq, h2]
                  exact List.mem_append_left _
                    (List.mem_append_right _ (List.mem_singleton_self _))
                · refine h3 Q hQ hQne (hQdrop Q (by cases hq : Q.testBit order[k] with
                      | true => exact absurd hq hvQ
                      | false => rfl) hQsub) hQtgt ?_
                  intro w hw hwnb
                  refine hQmax w ?_ hwnb
                  rw [testBit_and_not, Bool.and_eq_true] at hw
                  exact hw.1
          · rw [expand_enum_loop_leaf_noapp _ _ _ _ _ _ _ _ _ _ _ hbr htb hP2z htgt]
            have hinv1 : EnumInv n adj target ⟨st.nodes_expanded + 1, st.out⟩ := hinv
            by_cases hcap : cap_reached cap st.out = true
            · rw [if_pos hcap]
              constructor
              · intro st' h
                obtain rfl : _ = st' := by injection h
                exact ⟨hinv1, ⟨[], by simp⟩⟩
              · intro st' h
                exact absurd h (by simp)
            · rw [if_neg hcap]
              obtain ⟨ihL, ihR⟩ := ih (by omega) (and_not P_local (2 ^ order[k])) _ hPl' hinv1
              constructor
              · intro st' h
                obtain ⟨h1, tail, h2⟩ := ihL st' h
                exact ⟨h1, ⟨tail, by simpa using h2⟩⟩
              · intro st' h
                obtain ⟨h1, ⟨tail, h2⟩, h3⟩ := ihR st' h
                refine ⟨h1, ⟨tail, by simpa using h2⟩, ?_⟩
                intro Q hQ hQne hQsub hQtgt hQmax
                by_cases hvQ : Q.testBit order[k] = true
                · exfalso
                  -- Q would have to be the singleton {order[k]}, forcing the
                  -- append branch
                  have hQp0 : and_not Q (2 ^ order[k]) = 0 := by
                    apply Nat.zero_of_testBit_eq_false
                    intro j
                    cases hj : (and_not Q (2 ^ order[k])).testBit j
                    · rfl
                    · exfalso
                      rw [testBit_and_not, Bool.and_eq_true, Bool.not_eq_true',
                        Nat.testBit_two_pow] at hj
                      have hjne : order[k] ≠ j := by
                        intro he
                        rw [he] at hj
                        simp at hj
                      have hjP2 : (P_local &&& adj.getD order[k] 0).testBit j = true := by
                        rw [Nat.testBit_land, hQsub j hj.1,
                          hQ order[k] j hvQ hj.1 hjne]
                        rfl
                      rw [hP2z, Nat.zero_testBit] at hjP2
                      exact absurd hjP2 (by simp)
                  have hQeq : Q = 2 ^ order[k] := eq_two_pow_of_and_not_zero hvQ hQp0
                  rw [hQeq, bit_count_two_pow] at hQtgt
                  exact htgt hQtgt
                · refine h3 Q hQ hQne (hQdrop Q (by cases hq : Q.testBit order[k] with
                      | true => exact absurd hq hvQ
                      | false => rfl) hQsub) hQtgt ?_
                  intro w hw hwnb
                  refine hQmax w ?_ hwnb
                  rw [testBit_and_not, Bool.and_eq_true] at hw
                  exact hw.1
        · rw [expand_enum_loop_child _ _ _ _ _ _ _ _ _ _ _ hbr htb hP2z]
          obtain ⟨cInl, cInr⟩ := hchild (size + 1) (R ||| 2 ^ order[k])
            (P_local &&& adj.getD order[k] 0)
            ⟨st.nodes_expanded + 1, st.out⟩ hP2pre hinv
          cases hc : child (size + 1) (R ||| 2 ^ order[k]) (P_local &&& adj.getD order[k] 0)
              ⟨st.nodes_expanded + 1, st.out⟩ with
          | inl st2 =>
            obtain ⟨h1, tail, h2⟩ := cInl st2 hc
            constructor
            · intro st' h
              simp only [hc] at h
              obtain rfl : st2 = st' := by injection h
              exact ⟨h1, ⟨tail, by simpa using h2⟩⟩
            · intro st' h
              simp only [hc] at h
              exact absurd h (by simp)
          | inr st2 =>
            obtain ⟨c2inv, ⟨tail2, hc2out⟩, c2comp⟩ := cInr st2 hc
            by_cases hcap : cap_reached cap st2.out = true
            · constructor
              · intro st' h
                simp only [hc] at h
                rw [if_pos hcap] at h
                obtain rfl : st2 = st' := by injection h
                exact ⟨c2inv, ⟨tail2, by simpa using hc2out⟩⟩
              · intro st' h
                simp only [hc] at h
                rw [if_pos hcap] at h
                exact absurd h (by simp)
            · obtain ⟨ihL, ihR⟩ := ih (by omega) (and_not P_local (2 ^ order[k])) st2 hPl' c2inv
              constructor
              · intro st' h
                simp only [hc] at h
                rw [if_neg hcap] at h
                obtain ⟨h1, tail, h2⟩ := ihL st' h
                refine ⟨h1, ⟨tail2 ++ tail, ?_⟩⟩
                rw [h2, hc2out]
                simp
              · intro st' h
                simp only [hc] at h
                rw [if_neg hcap] at h
                obtain ⟨h1, ⟨tail, h2⟩, h3⟩ := ihR st' h
                refine ⟨h1, ⟨tail2 ++ tail, by rw [h2, hc2out]; simp⟩, ?_⟩
                intro Q hQ hQne hQsub hQtgt hQmax
                have houtmono : ∀ l, l ∈ st2.out → l ∈ st'.out := by
                  intro l hl
                  rw [h2]
                  exact List.mem_append_left _ hl
                by_cases hvQ : Q.testBit order[k] = true
                · have hQ'sub : mask_subset (and_not Q (2 ^ order[k]))
                      (P_local &&& adj.getD order[k] 0) := by
                    intro j hj
                    rw [testBit_and_not, Bool.and_eq_true, Bool.not_eq_true',
                      Nat.testBit_two_pow] at hj
                    have hjne : order[k] ≠ j := by
                      intro he
                      rw [he] at hj
                      simp at hj
                    rw [Nat.testBit_land, hQsub j hj.1, hQ order[k] j hvQ hj.1 hjne]
                    rfl
                  by_cases hQ'z : and_not Q (2 ^ order[k]) = 0
                  · exfalso
                    -- Q = {order[k]} cannot be target-maximal here: the
                    -- candidate set P2 is non-empty and extends it
                    have hQeq : Q = 2 ^ order[k] := eq_two_pow_of_and_not_zero hvQ hQ'z
                    have hP2pos : 0 < P_local &&& adj.getD order[k] 0 :=
                      Nat.pos_of_ne_zero hP2z
                    have hw := (lsb_index_spec _ hP2pos).1
                    have hwP := hP2sub _ hw
                    have hwQ := hQmax _ hwP.1 (by
                      intro q hq
                      rw [hQeq, Nat.testBit_two_pow, decide_eq_true_eq] at hq
                      rw [← hq]
                      exact hwP.2)
                    rw [hQeq, Nat.testBit_two_pow, decide_eq_true_eq] at hwQ
                    rw [← hwQ] at hwP
                    rw [hwf.irrefl] at hwP
                    exact absurd hwP.2 (by simp)
                  · have hsp := bit_count_split Q (2 ^ order[k])
                    rw [land_two_pow_of_testBit hvQ, bit_count_two_pow] at hsp
                    have hmem2 := c2comp (and_not Q (2 ^ order[k]))
                      (cliqueMask_mono (fun j hj => by
                        rw [testBit_and_not, Bool.and_eq_true] at hj
                        exact hj.1) hQ) hQ'z hQ'sub (by omega)
                      (by
                        intro w hw hwnb
                        have hwP := hP2sub w hw
                        have hwne : w ≠ order[k] := by
                          intro he
                          rw [he, hwf.irrefl] at hwP
                          exact absurd hwP.2 (by simp)
                        have hwQ := hQmax w hwP.1 (by
                          intro q hq
                          by_cases hqv : q = order[k]
                          · rw [hqv]
                            exact hwP.2
                          · refine hwnb q ?_
                            rw [testBit_and_not, Bool.and_eq_true, Bool.not_eq_true',
                              Nat.testBit_two_pow]
                            exact ⟨hq, by simp [Ne.symm hqv]⟩)
                        rw [testBit_and_not, Bool.and_eq_true, Bool.not_eq_true',
                          Nat.testBit_two_pow]
                        exact ⟨hwQ, by simp [Ne.symm hwne]⟩)
                    rw [lor_two_pow_and_not hvQ] at hmem2
                    exact houtmono _ hmem2
                · refine h3 Q hQ hQne (hQdrop Q (by cases hq : Q.testBit order[k] with
                      | true => exact absurd hq hvQ
                      | false => rfl) hQsub) hQtgt ?_
                  intro w hw hwnb
                  refine hQmax w ?_ hwnb
                  rw [testBit_and_not, Bool.and_eq_true] at hw
                  exact hw.1

/-- Every fuel instance of `_expand_enum` satisfies the enumeration node
contract. -/
theorem expand_enum_spec {n : Nat} {adj : List Nat} (hwf : AdjWF n adj)
    (cap : Option Nat) (target : Nat) :
    ∀ fuel, enum_child_spec n adj cap target (expand_enum adj cap target fuel) := by
  intro fuel
  induction fuel with
  | zero =>
    intro size R P st hpre hinv
    constructor
    · intro st' h
      obtain rfl : st = st' := by injection h
      exact ⟨hinv, ⟨[], by simp⟩⟩
    · intro st' h
      exact absurd h (by simp [expand_enum])
  | succ fuel ih =>
    intro size R P st hpre hinv
    by_cases hP0 : P = 0
    · subst hP0
      have hunf : expand_enum adj cap target (fuel+1) size R 0 st =
          Sum.inr (if size = target then
            ⟨st.nodes_expanded, st.out ++ [bits_to_list R]⟩ else st) := by
        simp [expand_enum]
      constructor
      · intro st' h
        rw [hunf] at h
        exact absurd h (by simp)
      · intro st' h
        rw [hunf] at h
        obtain rfl := (by injection h : _ = st')
        refine ⟨?_, ?_, ?_⟩
        · split
          next htgt =>
            intro l hl
            rcases List.mem_append.mp hl with hl | hl
            · exact hinv l hl
            · rw [List.mem_singleton] at hl
              exact ⟨R, hl, hpre.1, by rw [hpre.2.1, htgt], hpre.2.2.1⟩
          next htgt => exact hinv
        · split
          next htgt => exact ⟨[bits_to_list R], rfl⟩
          next htgt => exact ⟨[], by simp⟩
        · intro Q hQ hQne hQsub _ _
          exfalso
          have h1 : Q.testBit (lsb_index Q) = true :=
            (lsb_index_spec Q (Nat.pos_of_ne_zero hQne)).1
          have h2 := hQsub _ h1
          rw [Nat.zero_testBit] at h2
          exact absurd h2 (by simp)
    · obtain ⟨hoclen, hocmem, hocnd, hoccol, hocbd⟩ := color_sort_spec P adj
      have hunf : expand_enum adj cap target (fuel+1) size R P st =
          expand_enum_loop adj cap target (expand_enum adj cap target fuel) size R P
            (((color_sort P adj).1.zip (color_sort P adj).2)).reverse st := by
        simp only [expand_enum]
        rw [if_neg hP0]
      have hzfull : ((color_sort P adj).1.zip (color_sort P adj).2) =
          (((color_sort P adj).1.zip (color_sort P adj).2)).take
            ((color_sort P adj).1.length) := by
        rw [List.take_of_length_le]
        rw [List.length_zip, hoclen]
        simp
      have htfull : (color_sort P adj).1.take ((color_sort P adj).1.length) =
          (color_sort P adj).1 := List.take_of_length_le (le_refl _)
      obtain ⟨mainL, mainR⟩ := expand_enum_loop_spec hwf ih hpre hoclen hocmem hocnd
        (fun k hk hkle Q hq ht => hocbd k hk hkle Q hq ht)
        ((color_sort P adj).1.length) (le_refl _) P st
        (fun u => by
          rw [htfull]
          constructor
          · intro h1
            exact ⟨h1, (hocmem u).mpr h1⟩
          · intro h1
            exact h1.1)
        hinv
      rw [← hzfull] at mainL mainR
      constructor
      · intro st' h
        rw [hunf] at h
        exact mainL st' h
      · intro st' h
        rw [hunf] at h
        exact mainR st' h

/-! ### Corollaries at the `max_size` / `enumerate_all_max` level -/

theorem maxPre_top {n : Nat} {adj : List Nat} (hwf : AdjWF n adj) :
    MaxPre n adj 0 0 (2 ^ n - 1) := by
  refine ⟨?_, rfl, ?_, ?_, ?_⟩
  · intro u v hu
    rw [Nat.zero_testBit] at hu
    exact absurd hu (by simp)
  · exact Nat.pos_pow_of_pos n (by omega)
  · have : (0:Nat) < 2 ^ n := Nat.pos_pow_of_pos n (by omega)
    omega
  · intro w _ r hr
    rw [Nat.zero_testBit] at hr
    exact absurd hr (by simp)

theorem st0_inv (n : Nat) (adj : List Nat) (init : Nat) :
    StInv n adj init ⟨init, 0, 0⟩ :=
  ⟨le_refl _, fun _ => rfl, fun h => absurd rfl h⟩

theorem max_size_cases (adj : List Nat) (n fuel init_lb : Nat)
    (C : Nat × List Nat × Bool × SolverSt → Prop)
    (h1 : ∀ st, expand_max adj fuel 0 0 (2 ^ n - 1) ⟨init_lb, 0, 0⟩ = Sum.inl st →
      C (st.best_size, bits_to_list st.best_bits, false, st))
    (h2 : ∀ st, expand_max adj fuel 0 0 (2 ^ n - 1) ⟨init_lb, 0, 0⟩ = Sum.inr st →
      C (st.best_size, bits_to_list st.best_bits, true, st)) :
    C (max_size adj n fuel init_lb) := by
  show C (match expand_max adj fuel 0 0 (2 ^ n - 1) ⟨init_lb, 0, 0⟩ with
    | Sum.inl st => (st.best_size, bits_to_list st.best_bits, false, st)
    | Sum.inr st => (st.best_size, bits_to_list st.best_bits, true, st))
  cases hres : expand_max adj fuel 0 0 (2 ^ n - 1) ⟨init_lb, 0, 0⟩ with
  | inl st => exact h1 st hres
  | inr st => exact h2 st hres

/-- The solver state surviving `max_size` satisfies the soundness invariant,
and the returned size and witness list are its projections. -/
theorem max_size_inv {n : Nat} {adj : List Nat} (hwf : AdjWF n adj) (fuel init_lb : Nat) :
    StInv n adj init_lb (max_size adj n fuel init_lb).2.2.2 ∧
    (max_size adj n fuel init_lb).1 = (max_size adj n fuel init_lb).2.2.2.best_size ∧
    (max_size adj n fuel init_lb).2.1 =
      bits_to_list (max_size adj n fuel init_lb).2.2.2.best_bits := by
  refine max_size_cases adj n fuel init_lb
    (fun r => StInv n adj init_lb r.2.2.2 ∧ r.1 = r.2.2.2.best_size ∧
      r.2.1 = bits_to_list r.2.2.2.best_bits) ?_ ?_
  · intro st hres
    obtain ⟨hL, _⟩ := expand_max_spec hwf init_lb fuel 0 0 (2 ^ n - 1) ⟨init_lb, 0, 0⟩
      (maxPre_top hwf) (st0_inv n adj init_lb)
    exact ⟨(hL st hres).1, rfl, rfl⟩
  · intro st hres
    obtain ⟨_, hR⟩ := expand_max_spec hwf init_lb fuel 0 0 (2 ^ n - 1) ⟨init_lb, 0, 0⟩
      (maxPre_top hwf) (st0_inv n adj init_lb)
    exact ⟨(hR st hres).1, rfl, rfl⟩

/-- If the max-size phase completes, the returned size is exactly the maximum
of the seed and the clique number of the first `n` vertices. -/
theorem max_size_complete_eq {n : Nat} {adj : List Nat} (hwf : AdjWF n adj)
    (fuel init_lb : Nat) (hc : (max_size adj n fuel init_lb).2.2.1 = true) :
    (max_size adj n fuel init_lb).1 = max init_lb (clique_number n adj) := by
  revert hc
  refine max_size_cases adj n fuel init_lb
    (fun r => r.2.2.1 = true → r.1 = max init_lb (clique_number n adj)) ?_ ?_
  · intro st _ hc
    exact absurd hc (by simp)
  · intro st hres _
    obtain ⟨_, hR⟩ := expand_max_spec hwf init_lb fuel 0 0 (2 ^ n - 1) ⟨init_lb, 0, 0⟩
      (maxPre_top hwf) (st0_inv n adj init_lb)
    obtain ⟨hinv, _, hcomp⟩ := hR st hres
    show st.best_size = max init_lb (clique_number n adj)
    -- upper bound
    have hub : st.best_size ≤ max init_lb (clique_number n adj) := by
      by_cases hb0 : st.best_bits = 0
      · rw [hinv.2.1 hb0]
        exact le_max_left _ _
      · obtain ⟨hcl, hbc, hlt⟩ := hinv.2.2 hb0
        have hsub : set_bits st.best_bits ⊆ Finset.range n := by
          intro j hj
          rw [Finset.mem_range]
          exact testBit_lt_of_lt_two_pow hlt (mem_set_bits.mp hj)
        have hle := card_le_clique_number hsub (cliqueMask_iff_finset.mp hcl)
        rw [← bit_count_eq_card, hbc] at hle
        omega
    -- lower bound
    have hlb1 : init_lb ≤ st.best_size := hinv.1
    have hlb2 : clique_number n adj ≤ st.best_size := by
      obtain ⟨s, hssub, hscl, hscard⟩ := clique_number_attained n adj
      by_cases hs0 : s.card = 0
      · omega
      · have hne : s.Nonempty := Finset.card_pos.mp (by omega)
        obtain ⟨v, hv⟩ := hne
        set Q := mask_of_finset s with hQdef
        have hQbits : ∀ j, Q.testBit j = true ↔ j ∈ s := fun j => testBit_mask_of_finset
        have hQne : Q ≠ 0 := testBit_ne_zero ((hQbits v).mpr hv)
        have hQclique : CliqueMask adj Q := by
          intro a b ha hb hne2
          exact hscl a ((hQbits a).mp ha) b ((hQbits b).mp hb) hne2
        have hQsub : mask_subset Q (2 ^ n - 1) := by
          intro j hj
          rw [testBit_ones]
          exact decide_eq_true (Finset.mem_range.mp (hssub ((hQbits j).mp hj)))
        have := hcomp Q hQclique hQne hQsub
        rw [(by rw [bit_count_mask_of_finset]; exact hscard : bit_count Q = clique_number n adj)] at this
        omega
    omega

theorem enumerate_cases (adj : List Nat) (cap : Option Nat) (n omega fuel : Nat)
    (C : List (List Nat) × Bool × Nat → Prop)
    (h1 : ∀ st, expand_enum adj cap omega fuel 0 0 (2 ^ n - 1) ⟨0, []⟩ = Sum.inl st →
      C (st.out, false, st.nodes_expanded))
    (h2 : ∀ st, expand_enum adj cap omega fuel 0 0 (2 ^ n - 1) ⟨0, []⟩ = Sum.inr st →
      C (st.out, true, st.nodes_expanded)) :
    C (enumerate_all_max adj n omega fuel cap) := by
  show C (match expand_enum adj cap omega fuel 0 0 (2 ^ n - 1) ⟨0, []⟩ with
    | Sum.inl st => (st.out, false, st.nodes_expanded)
    | Sum.inr st => (st.out, true, st.nodes_expanded))
  cases hres : expand_enum adj cap omega fuel 0 0 (2 ^ n - 1) ⟨0, []⟩ with
  | inl st => exact h1 st hres
  | inr st => exact h2 st hres

/-- Output soundness of the enumeration phase, timeout or not: every
collected list is the sorted listing of a clique mask of size exactly the
target. -/
theorem enumerate_sound {n : Nat} {adj : List Nat} (hwf : AdjWF n adj)
    (omega fuel : Nat) (cap : Option Nat) :
    ∀ l ∈ (enumerate_all_max adj n omega fuel cap).1,
      ∃ m, l = bits_to_list m ∧ CliqueMask adj m ∧ bit_count m = omega ∧ m < 2 ^ n := by
  refine enumerate_cases adj cap n omega fuel
    (fun r => ∀ l ∈ r.1,
      ∃ m, l = bits_to_list m ∧ CliqueMask adj m ∧ bit_count m = omega ∧ m < 2 ^ n) ?_ ?_
  · intro st hres
    obtain ⟨hL, _⟩ := expand_enum_spec hwf cap omega fuel 0 0 (2 ^ n - 1) ⟨0, []⟩
      (maxPre_top hwf) (fun l hl => absurd hl (List.not_mem_nil l))
    exact (hL st hres).1
  · intro st hres
    obtain ⟨_, hR⟩ := expand_enum_spec hwf cap omega fuel 0 0 (2 ^ n - 1) ⟨0, []⟩
      (maxPre_top hwf) (fun l hl => absurd hl (List.not_mem_nil l))
    exact (hR st hres).1

/-- Completeness of the enumeration phase when it reports `complete`: every
non-empty clique of the target size that is not extendable inside the vertex
range is listed. -/
theorem enumerate_complete {n : Nat} {adj : List Nat} (hwf : AdjWF n adj)
    (omega fuel : Nat) (cap : Option Nat)
    (hc : (enumerate_all_max adj n omega fuel cap).2.1 = true) :
    ∀ Q, CliqueMask adj Q → Q ≠ 0 → bit_count Q = omega →
      (∀ j, Q.testBit j = true → j < n) →
      (∀ w, w < n → (∀ q, Q.testBit q = true → (adj.getD q 0).testBit w = true) →
        Q.testBit w = true) →
      bits_to_list Q ∈ (enumerate_all_max adj n omega fuel cap).1 := by
  revert hc
  refine enumerate_cases adj cap n omega fuel
    (fun r => r.2.1 = true →
      ∀ Q, CliqueMask adj Q → Q ≠ 0 → bit_count Q = omega →
        (∀ j, Q.testBit j = true → j < n) →
        (∀ w, w < n → (∀ q, Q.testBit q = true → (adj.getD q 0).testBit w = true) →
          Q.testBit w = true) →
        bits_to_list Q ∈ r.1) ?_ ?_
  · intro st _ hc
    exact absurd hc (by simp)
  · intro st hres _ Q hQ hQne hQbc hQlt hQmax
    obtain ⟨_, hR⟩ := expand_enum_spec hwf cap omega fuel 0 0 (2 ^ n - 1) ⟨0, []⟩
      (maxPre_top hwf) (fun l hl => absurd hl (List.not_mem_nil l))
    obtain ⟨_, _, hcomp⟩ := hR st hres
    have := hcomp Q hQ hQne
      (fun j hj => by
        rw [testBit_ones]
        exact decide_eq_true (hQlt j hj))
      (by omega)
      (fun w hw hwnb => hQmax w (by
        rw [testBit_ones, decide_eq_true_eq] at hw
        exact hw) hwnb)
    simpa using this


/-! ### A stable sort

A stable sort's output is uniquely determined (ascending keys, ties in
original order), so Python's stable `sorted` is embedded by the standard
stable insertion sort, which the kernel can evaluate. -/

def insort {α : Type} (le : α → α → Bool) (a : α) : List α → List α
  | [] => [a]
  | b :: l => if le a b then a :: b :: l else b :: insort le a l

def isort {α : Type} (le : α → α → Bool) : List α → List α
  | [] => []
  | a :: l => insort le a (isort le l)

theorem insort_perm {α : Type} (le : α → α → Bool) (a : α) :
    ∀ l : List α, (insort le a l).Perm (a :: l) := by
  intro l
  induction l with
  | nil => exact List.Perm.refl _
  | cons b t ih =>
    simp only [insort]
    split
    · exact List.Perm.refl _
    · exact (ih.cons b).trans (List.Perm.swap a b t)

theorem isort_perm {α : Type} (le : α → α → Bool) :
    ∀ l : List α, (isort le l).Perm l := by
  intro l
  induction l with
  | nil => exact List.Perm.refl _
  | cons a t ih =>
    exact (insort_perm le a (isort le t)).trans (ih.cons a)

theorem length_isort {α : Type} (le : α → α → Bool) (l : List α) :
    (isort le l).length = l.length :=
  (isort_perm le l).length_eq

theorem mem_isort {α : Type} {le : α → α → Bool} {l : List α} {x : α} :
    x ∈ isort le l ↔ x ∈ l :=
  (isort_perm le l).mem_iff

theorem nodup_isort {α : Type} (le : α → α → Bool) {l : List α} (h : l.Nodup) :
    (isort le l).Nodup :=
  ((isort_perm le l).nodup_iff).mpr h

theorem pairwise_insort {α : Type} (le : α → α → Bool)
    (htotal : ∀ a b, le a b = true ∨ le b a = true)
    (htrans : ∀ a b c, le a b = true → le b c = true → le a c = true)
    (a : α) : ∀ l : List α, l.Pairwise (fun x y => le x y = true) →
      (insort le a l).Pairwise (fun x y => le x y = true) := by
  intro l
  induction l with
  | nil => intro _; exact List.pairwise_singleton _ a
  | cons b t ih =>
    intro hp
    obtain ⟨hb, ht⟩ := List.pairwise_cons.mp hp
    simp only [insort]
    split
    · next hab =>
      refine List.pairwise_cons.mpr ⟨?_, hp⟩
      intro x hx
      rcases List.mem_cons.mp hx with h | h
      · exact h ▸ hab
      · exact htrans a b x hab (hb x h)
    · next hab =>
      have hba : le b a = true := by
        rcases htotal a b with h | h
        · exact absurd h hab
        · exact h
      refine List.pairwise_cons.mpr ⟨?_, ih ht⟩
      intro x hx
      rcases List.mem_cons.mp ((insort_perm le a t).mem_iff.mp hx) with h | h
      · subst h
        exact hba
      · exact hb x h

theorem pairwise_isort {α : Type} (le : α → α → Bool)
    (htotal : ∀ a b, le a b = true ∨ le b a = true)
    (htrans : ∀ a b c, le a b = true → le b c = true → le a c = true) :
    ∀ l : List α, (isort le l).Pairwise (fun x y => le x y = true) := by
  intro l
  induction l with
  | nil => exact List.Pairwise.nil
  | cons a t ih => exact pairwise_insort le htotal htrans a (isort le t) ih

/-! ### Greedy lower bound (`_greedy_lb`) -/

theorem xor_two_pow_lsb {x : Nat} (hx : 0 < x) :
    x ^^^ 2 ^ lsb_index x = x &&& (x - 1) := by
  apply Nat.eq_of_testBit_eq
  intro j
  rw [Nat.testBit_xor, Nat.testBit_two_pow, clear_lsb_char x hx j]
  by_cases hj : j = lsb_index x
  · subst hj
    rw [(lsb_index_spec x hx).1]
    simp
  · have hne : lsb_index x ≠ j := fun h => hj h.symm
    simp [hj, hne]

theorem bit_count_pos {x : Nat} (hx : x ≠ 0) : 0 < bit_count x := by
  rw [bit_count_eq_card]
  exact Finset.card_pos.mpr ⟨lsb_index x, mem_set_bits.mpr (lsb_index_spec x (by omega)).1⟩

/-- One step of adding a compatible vertex to a clique mask. -/
theorem cliqueMask_union_vertex {n : Nat} {adj : List Nat} (hwf : AdjWF n adj)
    {C v : Nat} (hC : CliqueMask adj C)
    (hadj : ∀ r, C.testBit r = true → (adj.getD r 0).testBit v = true) :
    CliqueMask adj (C ||| 2 ^ v) := by
  intro a b ha hb hne
  rw [Nat.testBit_or, Nat.testBit_two_pow, Bool.or_eq_true, decide_eq_true_eq] at ha hb
  rcases ha with ha | ha <;> rcases hb with hb | hb
  · exact hC a b ha hb hne
  · exact hb ▸ hadj a ha
  · rw [hwf.symm]
    exact ha ▸ hadj b hb
  · exact absurd (ha.symm.trans hb) (by omega)

/-- Inner scan of `_greedy_lb`: walk the bits of `tmp`, keeping the vertex of
highest score `(adj[v] & P).bit_count()`; earlier vertices win ties.  `best`
starts at `(-1, -1)` as in the source; fuel is one unit per iteration. -/
def pick_best (adj : List Nat) (P : Nat) : Nat → Nat → Int × Int → Int × Int
  | 0, _, best => best
  | fuel + 1, tmp, best =>
    if tmp = 0 then best
    else
      let v := lsb_index tmp
      let tmp2 := tmp ^^^ 2 ^ v
      let sc : Int := (bit_count ((adj.getD v 0) &&& P) : Int)
      if best.2 < sc then pick_best adj P fuel tmp2 ((v : Int), sc)
      else pick_best adj P fuel tmp2 best

/-- The growth loop of `_greedy_lb`:
`while P: pick best_v; C |= 1 << best_v; P &= adj[best_v]`. -/
def greedy_grow (adj : List Nat) : Nat → Nat → Nat → Nat
  | 0, C, _ => C
  | fuel + 1, C, P =>
    if P = 0 then C
    else
      let best_v := (pick_best adj P P P (-1, -1)).1.toNat
      greedy_grow adj fuel (C ||| 2 ^ best_v) (P &&& adj.getD best_v 0)

/-- The body of the `for s in starts` loop of `_greedy_lb`. -/
def greedy_step (adj : List Nat) (best : Nat × Nat) (s : Nat) : Nat × Nat :=
  let C := greedy_grow adj (adj.getD s 0) (2 ^ s) (adj.getD s 0)
  if best.1 < bit_count C then (bit_count C, C) else best

/-- Embeds `_greedy_lb(adj, n, trials)`, returning `(best_sz, best_mask)`.
Line 196 of the source rebinds `starts` to `verts[:n]`, shadowing the
trial-capped slice of line 195; both bindings are kept.  Python's
`sorted(..., reverse=True)` is a stable descending sort, matched here by a
stable merge sort with `≥` on degrees. -/
def greedy_lb (adj : List Nat) (n : Nat) (trials : Nat) : Nat × Nat :=
  let verts := isort
    (fun a b => decide (bit_count (adj.getD b 0) ≤ bit_count (adj.getD a 0)))
    (List.range n)
  let starts := verts.take (min n trials)
  let starts := verts.take n
  starts.foldl (greedy_step adj) (0, 0)
theorem pick_best_in (adj : List Nat) (P : Nat) (S : Nat → Prop) :
    ∀ fuel tmp (best : Int × Int), tmp ≤ fuel →
      (∀ j, tmp.testBit j = true → S j) →
      (∃ v : Nat, best.1 = (v : Int) ∧ S v) →
      ∃ v : Nat, (pick_best adj P fuel tmp best).1 = (v : Int) ∧ S v := by
  intro fuel
  induction fuel with
  | zero =>
    intro tmp best _ _ hb
    simpa [pick_best] using hb
  | succ g ih =>
    intro tmp best hle hS hb
    by_cases h0 : tmp = 0
    · simpa [pick_best, h0] using hb
    · have hpos : 0 < tmp := by omega
      have hlt : tmp ^^^ 2 ^ lsb_index tmp < tmp := by
        rw [xor_two_pow_lsb hpos]
        exact clear_lsb_lt hpos
      have hS2 : ∀ j, (tmp ^^^ 2 ^ lsb_index tmp).testBit j = true → S j := by
        intro j hj
        rw [xor_two_pow_lsb hpos, clear_lsb_char tmp hpos j, Bool.and_eq_true] at hj
        exact hS j hj.1
      simp only [pick_best]
      rw [if_neg h0]
      by_cases hcmp :
          best.2 < (bit_count ((adj.getD (lsb_index tmp) 0) &&& P) : Int)
      · rw [if_pos hcmp]
        exact ih _ _ (by omega) hS2
          ⟨lsb_index tmp, rfl, hS _ (lsb_index_spec tmp hpos).1⟩
      · rw [if_neg hcmp]
        exact ih _ _ (by omega) hS2 hb

theorem pick_best_start (adj : List Nat) (P : Nat) (S : Nat → Prop)
    (fuel tmp : Nat) (hle : tmp ≤ fuel) (h0 : tmp ≠ 0)
    (hS : ∀ j, tmp.testBit j = true → S j) :
    ∃ v : Nat, (pick_best adj P fuel tmp (-1, -1)).1 = (v : Int) ∧ S v := by
  have hpos : 0 < tmp := by omega
  cases fuel with
  | zero => omega
  | succ g =>
    have hcmp : (-1 : Int) <
        (bit_count ((adj.getD (lsb_index tmp) 0) &&& P) : Int) := by
      have h1 : (0 : Int) ≤ (bit_count ((adj.getD (lsb_index tmp) 0) &&& P) : Int) :=
        Int.natCast_nonneg _
      omega
    simp only [pick_best]
    rw [if_neg h0, if_pos hcmp]
    have hlt : tmp ^^^ 2 ^ lsb_index tmp < tmp := by
      rw [xor_two_pow_lsb hpos]
      exact clear_lsb_lt hpos
    have hS2 : ∀ j, (tmp ^^^ 2 ^ lsb_index tmp).testBit j = true → S j := by
      intro j hj
      rw [xor_two_pow_lsb hpos, clear_lsb_char tmp hpos j, Bool.and_eq_true] at hj
      exact hS j hj.1
    exact pick_best_in adj P S g _ _ (by omega) hS2
      ⟨lsb_index tmp, rfl, hS _ (lsb_index_spec tmp hpos).1⟩

/-- Soundness of the greedy growth: starting from a nonempty clique `C` whose
candidate set `P` holds only common neighbours below `n`, the result is a
clique containing `C`, with all vertices below `n`. -/
theorem greedy_grow_spec {n : Nat} {adj : List Nat} (hwf : AdjWF n adj) :
    ∀ fuel C P, CliqueMask adj C →
      (∀ j, C.testBit j = true → j < n) →
      (∀ w, P.testBit w = true →
        w < n ∧ ∀ r, C.testBit r = true → (adj.getD r 0).testBit w = true) →
      CliqueMask adj (greedy_grow adj fuel C P) ∧
        (∀ j, C.testBit j = true → (greedy_grow adj fuel C P).testBit j = true) ∧
        (∀ j, (greedy_grow adj fuel C P).testBit j = true → j < n) := by
  intro fuel
  induction fuel with
  | zero =>
    intro C P hC hCn _
    exact ⟨hC, fun j hj => hj, hCn⟩
  | succ g ih =>
    intro C P hC hCn hP
    by_cases h0 : P = 0
    · simp only [greedy_grow, h0, if_pos]
      exact ⟨hC, fun j hj => hj, hCn⟩
    · obtain ⟨v, hv1, hvP⟩ :=
        pick_best_start adj P (fun v => P.testBit v = true) P P le_rfl h0
          (fun j hj => hj)
      simp only [greedy_grow]
      rw [if_neg h0, hv1, Int.toNat_natCast]
      have hvprops := hP v hvP
      have hC' : CliqueMask adj (C ||| 2 ^ v) :=
        cliqueMask_union_vertex hwf hC (fun r hr => (hvprops.2 r hr))
      have hCn' : ∀ j, (C ||| 2 ^ v).testBit j = true → j < n := by
        intro j hj
        rw [Nat.testBit_or, Bool.or_eq_true, Nat.testBit_two_pow,
          decide_eq_true_eq] at hj
        rcases hj with hj | hj
        · exact hCn j hj
        · omega
      have hP' : ∀ w, (P &&& adj.getD v 0).testBit w = true →
          w < n ∧ ∀ r, (C ||| 2 ^ v).testBit r = true →
            (adj.getD r 0).testBit w = true := by
        intro w hw
        rw [Nat.testBit_land, Bool.and_eq_true] at hw
        refine ⟨(hP w hw.1).1, fun r hr => ?_⟩
        rw [Nat.testBit_or, Bool.or_eq_true, Nat.testBit_two_pow,
          decide_eq_true_eq] at hr
        rcases hr with hr | hr
        · exact (hP w hw.1).2 r hr
        · exact hr ▸ hw.2
      obtain ⟨h1, h2, h3⟩ := ih (C ||| 2 ^ v) (P &&& adj.getD v 0) hC' hCn' hP'
      refine ⟨h1, fun j hj => h2 j ?_, h3⟩
      rw [Nat.testBit_or, hj, Bool.true_or]

/-- The invariant carried by the best pair across the `for s in starts` loop. -/
def GreedyInv (n : Nat) (adj : List Nat) (p : Nat × Nat) : Prop :=
  CliqueMask adj p.2 ∧ bit_count p.2 = p.1 ∧ ∀ j, p.2.testBit j = true → j < n

theorem greedy_step_grows (adj : List Nat) (best : Nat × Nat) (s : Nat) :
    best.1 ≤ (greedy_step adj best s).1 := by
  simp only [greedy_step]
  split
  · next h => exact Nat.le_of_lt h
  · exact le_refl _

theorem greedy_step_inv {n : Nat} {adj : List Nat} (hwf : AdjWF n adj)
    {best : Nat × Nat} {s : Nat} (hs : s < n)
    (hb : best = (0, 0) ∨ GreedyInv n adj best) :
    greedy_step adj best s = (0, 0) ∨ GreedyInv n adj (greedy_step adj best s) := by
  have hgrow := greedy_grow_spec hwf (adj.getD s 0) (2 ^ s) (adj.getD s 0)
    (singleton_cliqueMask adj s)
    (by
      intro j hj
      rw [Nat.testBit_two_pow, decide_eq_true_eq] at hj
      omega)
    (by
      intro w hw
      refine ⟨(hwf.bits s w hw).2, fun r hr => ?_⟩
      rw [Nat.testBit_two_pow, decide_eq_true_eq] at hr
      exact hr ▸ hw)
  simp only [greedy_step]
  split
  · right
    exact ⟨hgrow.1, rfl, hgrow.2.2⟩
  · exact hb

theorem greedy_step_pos (adj : List Nat) (s : Nat) :
    1 ≤ (greedy_step adj (0, 0) s).1 := by
  have hmem : (greedy_grow adj (adj.getD s 0) (2 ^ s) (adj.getD s 0)) ≠ 0 := by
    intro hzero
    have h2 : ∀ fuel C P j, C.testBit j = true →
        (greedy_grow adj fuel C P).testBit j = true := by
      intro fuel
      induction fuel with
      | zero => intro C P j hj; exact hj
      | succ g ih =>
        intro C P j hj
        by_cases h0 : P = 0
        · simpa [greedy_grow, h0] using hj
        · simp only [greedy_grow]
          rw [if_neg h0]
          apply ih
          rw [Nat.testBit_or, hj, Bool.true_or]
    have := h2 (adj.getD s 0) (2 ^ s) (adj.getD s 0) s
      (by rw [Nat.testBit_two_pow]; simp)
    rw [hzero] at this
    simp [Nat.zero_testBit] at this
  have hbc := bit_count_pos hmem
  simp only [greedy_step]
  split
  · exact hbc
  · next h => exact absurd hbc h

theorem greedy_fold_mono (adj : List Nat) :
    ∀ (l : List Nat) (acc : Nat × Nat),
      acc.1 ≤ (l.foldl (greedy_step adj) acc).1 := by
  intro l
  induction l with
  | nil => intro acc; exact le_refl _
  | cons s rest ih =>
    intro acc
    calc acc.1 ≤ (greedy_step adj acc s).1 := greedy_step_grows adj acc s
      _ ≤ _ := ih (greedy_step adj acc s)

theorem greedy_fold_inv {n : Nat} {adj : List Nat} (hwf : AdjWF n adj) :
    ∀ (l : List Nat) (acc : Nat × Nat), (∀ s ∈ l, s < n) →
      (acc = (0, 0) ∨ GreedyInv n adj acc) →
      (l.foldl (greedy_step adj) acc = (0, 0) ∨
        GreedyInv n adj (l.foldl (greedy_step adj) acc)) := by
  intro l
  induction l with
  | nil => intro acc _ hb; exact hb
  | cons s rest ih =>
    intro acc hmem hb
    exact ih (greedy_step adj acc s) (fun t ht => hmem t (List.mem_cons_of_mem s ht))
      (greedy_step_inv hwf (hmem s (List.mem_cons_self s rest)) hb)

/-- `_greedy_lb` returns either the dummy pair `(0, 0)` or a genuine clique of
the graph of the reported size. -/
theorem greedy_lb_spec {n : Nat} {adj : List Nat} (hwf : AdjWF n adj)
    (trials : Nat) :
    greedy_lb adj n trials = (0, 0) ∨ GreedyInv n adj (greedy_lb adj n trials) := by
  simp only [greedy_lb]
  apply greedy_fold_inv hwf _ _ _ (Or.inl rfl)
  intro s hs
  have hs2 := List.take_subset n _ hs
  have := (isort_perm _ (List.range n)).mem_iff.mp hs2
  exact List.mem_range.mp this

/-- For a nonempty graph the greedy lower bound is at least `1`. -/
theorem greedy_lb_pos {n : Nat} (adj : List Nat) (trials : Nat) (hn : 1 ≤ n) :
    1 ≤ (greedy_lb adj n trials).1 := by
  simp only [greedy_lb]
  set verts := isort
    (fun a b => decide (bit_count (adj.getD b 0) ≤ bit_count (adj.getD a 0)))
    (List.range n)
    with hverts
  have hlen : (verts.take n).length = n := by
    rw [List.length_take, hverts, length_isort, List.length_range]
    omega
  cases hstarts : verts.take n with
  | nil => rw [hstarts] at hlen; simp at hlen; omega
  | cons s rest =>
    rw [List.foldl_cons]
    calc (1 : Nat) ≤ (greedy_step adj (0, 0) s).1 := greedy_step_pos adj s
      _ ≤ _ := greedy_fold_mono adj rest (greedy_step adj (0, 0) s)

/-- The greedy lower bound never exceeds the clique number. -/
theorem greedy_lb_le_omega {n : Nat} {adj : List Nat} (hwf : AdjWF n adj)
    (trials : Nat) :
    (greedy_lb adj n trials).1 ≤ clique_number n adj := by
  rcases greedy_lb_spec hwf trials with h | ⟨h1, h2, h3⟩
  · rw [h]
    exact Nat.zero_le _
  · rw [← h2, bit_count_eq_card]
    refine card_le_clique_number ?_ (cliqueMask_iff_finset.mp h1)
    intro j hj
    exact Finset.mem_range.mpr (h3 j (mem_set_bits.mp hj))


/-! ### Degeneracy reordering (`BitGraph.reorder_by_degeneracy`) -/

/-- Embeds `BitGraph.degrees`. -/
def degrees (n : Nat) (adj : List Nat) : List Nat :=
  (List.range n).map (fun v => bit_count (adj.getD v 0))

/-- `min(remaining, key=lambda x: deg[x])`: scan the remaining vertices in
ascending order (CPython iterates a set of small ints in ascending slot
order), keeping the first vertex of minimal degree. -/
def pick_min_deg (deg : List Nat) : List Nat → Nat → Nat
  | [], v => v
  | x :: rest, v =>
    if deg.getD x 0 < deg.getD v 0 then pick_min_deg deg rest x
    else pick_min_deg deg rest v

/-- The inner `while u` loop of the peeling: decrement the degree of every
neighbour of the removed vertex that is still remaining. -/
def dec_nbrs (remaining : List Nat) : Nat → Nat → List Nat → List Nat
  | 0, _, deg => deg
  | fuel + 1, u, deg =>
    if u = 0 then deg
    else
      let w := lsb_index u
      let deg2 := if w ∈ remaining then deg.set w (deg.getD w 0 - 1) else deg
      dec_nbrs remaining fuel (u &&& (u - 1)) deg2

/-- The peeling loop of `reorder_by_degeneracy`: repeatedly remove a vertex
of minimum remaining degree, appending it to the order.  Fuel is one unit per
iteration; `remaining.length` is enough. -/
def peel (adj : List Nat) : Nat → List Nat → List Nat → List Nat
  | 0, _, _ => []
  | fuel + 1, remaining, deg =>
    match remaining with
    | [] => []
    | x :: rest =>
      let v := pick_min_deg deg rest x
      let remaining2 := (x :: rest).erase v
      let nbrs := adj.getD v 0
      let deg2 := dec_nbrs remaining2 nbrs nbrs deg
      v :: peel adj fuel remaining2 deg2

/-- Builds `perm` from `invperm`: `perm[old_v] = new_i` for every enumerated
entry of `invperm`. -/
def build_perm (n : Nat) (invperm : List Nat) : List Nat :=
  invperm.enum.foldl (fun p pr => p.set pr.2 pr.1) (List.replicate n 0)

/-- The inner translation loop: `rel |= 1 << perm[old_u]` over the bits of
`tmp`. -/
def translate_mask (perm : List Nat) : Nat → Nat → Nat → Nat
  | 0, _, rel => rel
  | fuel + 1, tmp, rel =>
    if tmp = 0 then rel
    else translate_mask perm fuel (tmp &&& (tmp - 1))
      (rel ||| 2 ^ perm.getD (lsb_index tmp) 0)

/-- The second loop of `reorder_by_degeneracy`: fill `new_adj` by writing, at
position `perm[old_v]`, the translated neighbour mask with the self-bit
cleared. -/
def build_new_adj (n : Nat) (adj perm : List Nat) : List Nat :=
  (List.range n).foldl
    (fun na old_v =>
      let new_v := perm.getD old_v 0
      let mask := adj.getD old_v 0
      let rel := translate_mask perm mask mask 0
      na.set new_v (and_not rel (2 ^ new_v)))
    (List.replicate n 0)

/-- Embeds `BitGraph.reorder_by_degeneracy`, returning
`(new_adj, perm, invperm)`. -/
def reorder_by_degeneracy (n : Nat) (adj : List Nat) :
    List Nat × List Nat × List Nat :=
  let deg := degrees n adj
  let invperm := peel adj n (List.range n) deg
  let perm := build_perm n invperm
  let new_adj := build_new_adj n adj perm
  (new_adj, perm, invperm)

theorem pick_min_deg_mem (deg : List Nat) :
    ∀ (l : List Nat) (v : Nat),
      pick_min_deg deg l v = v ∨ pick_min_deg deg l v ∈ l := by
  intro l
  induction l with
  | nil => intro v; exact Or.inl rfl
  | cons x rest ih =>
    intro v
    simp only [pick_min_deg]
    split
    · rcases ih x with h | h
      · exact Or.inr (by rw [h]; exact List.mem_cons_self x rest)
      · exact Or.inr (List.mem_cons_of_mem x h)
    · rcases ih v with h | h
      · exact Or.inl h
      · exact Or.inr (List.mem_cons_of_mem x h)

theorem peel_perm (adj : List Nat) :
    ∀ fuel (remaining deg : List Nat), remaining.length ≤ fuel →
      remaining.Nodup → (peel adj fuel remaining deg).Perm remaining := by
  intro fuel
  induction fuel with
  | zero =>
    intro remaining deg hle _
    cases remaining with
    | nil => simp [peel]
    | cons x rest => simp at hle
  | succ g ih =>
    intro remaining deg hle hnd
    cases remaining with
    | nil => simp [peel]
    | cons x rest =>
      simp only [peel]
      have hv : pick_min_deg deg rest x ∈ x :: rest := by
        rcases pick_min_deg_mem deg rest x with h | h
        · rw [h]
          exact List.mem_cons_self x rest
        · exact List.mem_cons_of_mem x h
      have hlen : ((x :: rest).erase (pick_min_deg deg rest x)).length ≤ g := by
        rw [List.length_erase_of_mem hv]
        simp only [List.length_cons] at hle ⊢
        omega
      have hrec := ih ((x :: rest).erase (pick_min_deg deg rest x))
        (dec_nbrs ((x :: rest).erase (pick_min_deg deg rest x))
          (adj.getD (pick_min_deg deg rest x) 0)
          (adj.getD (pick_min_deg deg rest x) 0) deg)
        hlen (hnd.erase _)
      exact (hrec.cons _).trans (List.perm_cons_erase hv).symm

/-- Writing distinct positions with `List.set` in a left fold: each written
position holds its value, the rest of the accumulator is untouched. -/
theorem foldl_set_getD :
    ∀ (pairs : List (Nat × Nat)) (acc : List Nat),
      (pairs.map Prod.snd).Nodup →
      (∀ pr ∈ pairs, pr.2 < acc.length) →
      (pairs.foldl (fun p q => p.set q.2 q.1) acc).length = acc.length ∧
      (∀ v, v ∉ pairs.map Prod.snd →
        (pairs.foldl (fun p q => p.set q.2 q.1) acc).getD v 0 = acc.getD v 0) ∧
      (∀ pr ∈ pairs,
        (pairs.foldl (fun p q => p.set q.2 q.1) acc).getD pr.2 0 = pr.1) := by
  intro pairs
  induction pairs with
  | nil =>
    intro acc _ _
    exact ⟨rfl, fun v _ => rfl, fun pr h => absurd h (List.not_mem_nil _)⟩
  | cons q rest ih =>
    intro acc hnd hlt
    simp only [List.map_cons, List.nodup_cons] at hnd
    have hlt' : ∀ pr ∈ rest, pr.2 < (acc.set q.2 q.1).length := by
      intro pr hpr
      rw [List.length_set]
      exact hlt pr (List.mem_cons_of_mem q hpr)
    obtain ⟨hlen, huntouched, hvals⟩ := ih (acc.set q.2 q.1) hnd.2 hlt'
    simp only [List.foldl_cons]
    refine ⟨by rw [hlen, List.length_set], ?_, ?_⟩
    · intro v hv
      simp only [List.map_cons, List.mem_cons, not_or] at hv
      rw [huntouched v hv.2]
      exact getD_set_ne (fun h => hv.1 h.symm)
    · intro pr hpr
      rcases List.mem_cons.mp hpr with h | h
      · subst h
        rw [huntouched pr.2 hnd.1]
        exact getD_set_self (hlt pr (List.mem_cons_self _ _))
      · exact hvals pr h

theorem build_perm_spec {n : Nat} {invperm : List Nat}
    (hnd : invperm.Nodup) (hmem : ∀ v ∈ invperm, v < n) :
    (build_perm n invperm).length = n ∧
    ∀ i, i < invperm.length →
      (build_perm n invperm).getD (invperm.getD i 0) 0 = i := by
  have hnd2 : (invperm.enum.map Prod.snd).Nodup := by
    rw [List.enum_map_snd]
    exact hnd
  have hlt : ∀ pr ∈ invperm.enum, pr.2 < (List.replicate n 0).length := by
    intro pr hpr
    rw [List.length_replicate]
    exact hmem pr.2 (List.getElem?_mem (List.mem_enum_iff_getElem?.mp hpr))
  obtain ⟨hlen, _, hvals⟩ := foldl_set_getD invperm.enum (List.replicate n 0) hnd2 hlt
  refine ⟨by rw [build_perm, hlen, List.length_replicate], ?_⟩
  intro i hi
  have hpair : ((i, invperm.getD i 0) : Nat × Nat) ∈ invperm.enum := by
    rw [List.mem_enum_iff_getElem?]
    rw [List.getD_eq_getElem _ _ hi]
    exact List.getElem?_eq_getElem hi
  exact hvals (i, invperm.getD i 0) hpair

theorem getD_range {n i : Nat} (h : i < n) : (List.range n).getD i 0 = i := by
  rw [List.getD_eq_getElem _ _ (by simpa using h)]
  simp

theorem perm_inverse_spec {n : Nat} {invperm : List Nat}
    (hperm : invperm.Perm (List.range n)) :
    (build_perm n invperm).length = n ∧
    (∀ i, i < n → invperm.getD i 0 < n) ∧
    (∀ i, i < n → (build_perm n invperm).getD (invperm.getD i 0) 0 = i) ∧
    (∀ v, v < n → (build_perm n invperm).getD v 0 < n ∧
      invperm.getD ((build_perm n invperm).getD v 0) 0 = v) := by
  have hlen : invperm.length = n := hperm.length_eq.trans (List.length_range n)
  have hnd : invperm.Nodup := hperm.nodup_iff.mpr (List.nodup_range n)
  have hmemv : ∀ v ∈ invperm, v < n := fun v hv =>
    List.mem_range.mp (hperm.mem_iff.mp hv)
  obtain ⟨hbl, hbv⟩ := build_perm_spec (n := n) hnd hmemv
  have hq : ∀ i, i < n → invperm.getD i 0 < n := by
    intro i hi
    have hi' : i < invperm.length := by omega
    rw [List.getD_eq_getElem _ _ hi']
    exact hmemv _ (List.getElem_mem hi')
  refine ⟨hbl, hq, fun i hi => hbv i (by omega), ?_⟩
  intro v hv
  have hvmem : v ∈ invperm := hperm.mem_iff.mpr (List.mem_range.mpr hv)
  obtain ⟨i, hil, hie⟩ := List.mem_iff_getElem.mp hvmem
  have hqi : invperm.getD i 0 = v := by
    rw [List.getD_eq_getElem _ _ hil, hie]
  have hpv : (build_perm n invperm).getD v 0 = i := by
    rw [← hqi]
    exact hbv i hil
  rw [hpv, hqi]
  exact ⟨by omega, rfl⟩

theorem translate_mask_spec (perm : List Nat) :
    ∀ fuel tmp rel, tmp ≤ fuel → ∀ j,
      ((translate_mask perm fuel tmp rel).testBit j = true ↔
        rel.testBit j = true ∨ ∃ u, tmp.testBit u = true ∧ perm.getD u 0 = j) := by
  intro fuel
  induction fuel with
  | zero =>
    intro tmp rel hle j
    have h0 : tmp = 0 := by omega
    subst h0
    simp [translate_mask, Nat.zero_testBit]
  | succ g ih =>
    intro tmp rel hle j
    by_cases h0 : tmp = 0
    · subst h0
      simp [translate_mask, Nat.zero_testBit]
    · have hpos : 0 < tmp := Nat.pos_of_ne_zero h0
      have hlt : tmp &&& (tmp - 1) < tmp := clear_lsb_lt hpos
      simp only [translate_mask]
      rw [if_neg h0, ih _ _ (by omega) j]
      rw [Nat.testBit_lor, Nat.testBit_two_pow, Bool.or_eq_true, decide_eq_true_eq]
      constructor
      · rintro (⟨hrel | hlsb⟩ | ⟨u, hu, hpu⟩)
        · exact Or.inl hrel
        · exact Or.inr ⟨lsb_index tmp, (lsb_index_spec tmp hpos).1, hlsb⟩
        · rw [clear_lsb_char tmp hpos u, Bool.and_eq_true] at hu
          exact Or.inr ⟨u, hu.1, hpu⟩
      · rintro (hrel | ⟨u, hu, hpu⟩)
        · exact Or.inl (Or.inl hrel)
        · by_cases hul : u = lsb_index tmp
          · exact Or.inl (Or.inr (by rw [← hpu, hul]))
          · refine Or.inr ⟨u, ?_, hpu⟩
            rw [clear_lsb_char tmp hpos u, Bool.and_eq_true]
            exact ⟨hu, by simp [hul]⟩

theorem build_new_adj_spec {n : Nat} {adj invperm : List Nat} (hwf : AdjWF n adj)
    (hperm : invperm.Perm (List.range n)) :
    (build_new_adj n adj (build_perm n invperm)).length = n ∧
    (∀ a j,
      ((build_new_adj n adj (build_perm n invperm)).getD a 0).testBit j = true →
      a < n ∧ j < n) ∧
    (∀ a b, a < n → b < n →
      (((build_new_adj n adj (build_perm n invperm)).getD a 0).testBit b = true ↔
        b ≠ a ∧ (adj.getD (invperm.getD a 0) 0).testBit (invperm.getD b 0) = true)) := by
  obtain ⟨hplen, hq, hpq, hqp⟩ := perm_inverse_spec hperm
  have hpinj : ∀ a b, a < n → b < n →
      (build_perm n invperm).getD a 0 = (build_perm n invperm).getD b 0 → a = b := by
    intro a b ha hb hab
    have h1 := (hqp a ha).2
    have h2 := (hqp b hb).2
    rw [hab] at h1
    rw [← h1, h2]
  have hfold : build_new_adj n adj (build_perm n invperm) =
      ((List.range n).map (fun ov =>
        (and_not (translate_mask (build_perm n invperm) (adj.getD ov 0)
            (adj.getD ov 0) 0) (2 ^ (build_perm n invperm).getD ov 0),
          (build_perm n invperm).getD ov 0))).foldl
        (fun na q => na.set q.2 q.1) (List.replicate n 0) := by
    rw [List.foldl_map]
    rfl
  have hnd : ((((List.range n).map (fun ov =>
      (and_not (translate_mask (build_perm n invperm) (adj.getD ov 0)
          (adj.getD ov 0) 0) (2 ^ (build_perm n invperm).getD ov 0),
        (build_perm n invperm).getD ov 0)))).map Prod.snd).Nodup := by
    rw [List.map_map]
    refine List.Nodup.map_on ?_ (List.nodup_range n)
    intro a ha b hb hab
    exact hpinj a b (List.mem_range.mp ha) (List.mem_range.mp hb) hab
  have hltp : ∀ pr ∈ ((List.range n).map (fun ov =>
      (and_not (translate_mask (build_perm n invperm) (adj.getD ov 0)
          (adj.getD ov 0) 0) (2 ^ (build_perm n invperm).getD ov 0),
        (build_perm n invperm).getD ov 0))), pr.2 < (List.replicate (n := n) 0).length := by
    intro pr hpr
    obtain ⟨ov, hov, hove⟩ := List.mem_map.mp hpr
    rw [List.length_replicate, ← hove]
    exact (hqp ov (List.mem_range.mp hov)).1
  obtain ⟨hlen, _, hvals⟩ := foldl_set_getD _ _ hnd hltp
  have hslot : ∀ a, a < n → (build_new_adj n adj (build_perm n invperm)).getD a 0 =
      and_not (translate_mask (build_perm n invperm)
        (adj.getD (invperm.getD a 0) 0) (adj.getD (invperm.getD a 0) 0) 0)
        (2 ^ a) := by
    intro a ha
    have hova : (build_perm n invperm).getD (invperm.getD a 0) 0 = a := hpq a ha
    have hpr : (and_not (translate_mask (build_perm n invperm)
        (adj.getD (invperm.getD a 0) 0) (adj.getD (invperm.getD a 0) 0) 0)
          (2 ^ (build_perm n invperm).getD (invperm.getD a 0) 0),
        (build_perm n invperm).getD (invperm.getD a 0) 0) ∈
        ((List.range n).map (fun ov =>
          (and_not (translate_mask (build_perm n invperm) (adj.getD ov 0)
              (adj.getD ov 0) 0) (2 ^ (build_perm n invperm).getD ov 0),
            (build_perm n invperm).getD ov 0))) :=
      List.mem_map.mpr ⟨invperm.getD a 0, List.mem_range.mpr (hq a ha), rfl⟩
    have := hvals _ hpr
    rw [hova] at this
    rw [hfold]
    exact this
  have hlen2 : (build_new_adj n adj (build_perm n invperm)).length = n := by
    rw [hfold, hlen, List.length_replicate]
  refine ⟨hlen2, ?_, ?_⟩
  · intro a j hj
    have ha : a < n := by
      by_contra hc
      rw [List.getD_eq_default _ _ (by rw [hlen2]; omega)] at hj
      simp [Nat.zero_testBit] at hj
    refine ⟨ha, ?_⟩
    rw [hslot a ha, testBit_and_not, Bool.and_eq_true] at hj
    rw [translate_mask_spec _ _ _ _ (le_refl _) j] at hj
    rcases hj.1 with h | ⟨u, hu, hpu⟩
    · simp [Nat.zero_testBit] at h
    · have hun : u < n := (hwf.bits _ u hu).2
      rw [← hpu]
      exact (hqp u hun).1
  · intro a b ha hb
    rw [hslot a ha, testBit_and_not, Bool.and_eq_true,
      translate_mask_spec _ _ _ _ (le_refl _) b]
    constructor
    · rintro ⟨h | ⟨u, hu, hpu⟩, hne⟩
      · simp [Nat.zero_testBit] at h
      · have hun : u < n := (hwf.bits _ u hu).2
        have huqb : u = invperm.getD b 0 := by
          have := (hqp u hun).2
          rw [hpu] at this
          rw [← this]
        rw [Bool.not_eq_true', Nat.testBit_two_pow] at hne
        refine ⟨?_, huqb ▸ hu⟩
        intro hba
        rw [hba] at hne
        simp at hne
    · rintro ⟨hne, hadj⟩
      constructor
      · exact Or.inr ⟨invperm.getD b 0, hadj, hpq b hb⟩
      · rw [Bool.not_eq_true', Nat.testBit_two_pow]
        have h2 : a ≠ b := fun h => hne h.symm
        simp [h2]

theorem reordered_wf {n : Nat} {adj invperm : List Nat} (hwf : AdjWF n adj)
    (hperm : invperm.Perm (List.range n)) :
    AdjWF n (build_new_adj n adj (build_perm n invperm)) := by
  obtain ⟨hlen, hbits, hchar⟩ := build_new_adj_spec hwf hperm
  refine ⟨hlen, fun u v h => hbits u v h, ?_, ?_⟩
  · intro u
    rw [Bool.eq_false_iff]
    intro h
    have ⟨hu, _⟩ := hbits u u h
    exact absurd ((hchar u u hu hu).mp h).1 (by simp)
  · intro u v
    by_cases hu : u < n
    · by_cases hv : v < n
      · rw [Bool.eq_iff_iff, hchar u v hu hv, hchar v u hv hu, hwf.symm]
        constructor
        · rintro ⟨h1, h2⟩; exact ⟨Ne.symm h1, h2⟩
        · rintro ⟨h1, h2⟩; exact ⟨Ne.symm h1, h2⟩
      · have h1 : ((build_new_adj n adj (build_perm n invperm)).getD u 0).testBit v
            = false := by
          rw [Bool.eq_false_iff]; intro h; exact hv (hbits u v h).2
        have h2 : ((build_new_adj n adj (build_perm n invperm)).getD v 0).testBit u
            = false := by
          rw [Bool.eq_false_iff]; intro h; exact hv (hbits v u h).1
        rw [h1, h2]
    · have h1 : ((build_new_adj n adj (build_perm n invperm)).getD u 0).testBit v
          = false := by
        rw [Bool.eq_false_iff]; intro h; exact hu (hbits u v h).1
      have h2 : ((build_new_adj n adj (build_perm n invperm)).getD v 0).testBit u
          = false := by
        rw [Bool.eq_false_iff]; intro h; exact hu (hbits v u h).2
      rw [h1, h2]

theorem reordered_clique_number {n : Nat} {adj invperm : List Nat}
    (hwf : AdjWF n adj) (hperm : invperm.Perm (List.range n)) :
    clique_number n (build_new_adj n adj (build_perm n invperm)) =
      clique_number n adj := by
  obtain ⟨hplen, hq, hpq, hqp⟩ := perm_inverse_spec hperm
  obtain ⟨_, _, hchar⟩ := build_new_adj_spec hwf hperm
  apply Nat.le_antisymm
  · refine clique_number_le ?_
    intro s hsub hc
    have hmem : ∀ i ∈ s, i < n := fun i hi => Finset.mem_range.mp (hsub hi)
    have hinj : Set.InjOn (fun i => invperm.getD i 0) ↑s := by
      intro a ha b hb hab
      have h1 := hpq a (hmem a ha)
      have h2 := hpq b (hmem b hb)
      simp only at hab
      rw [hab] at h1
      rw [← h1, h2]
    rw [← Finset.card_image_of_injOn hinj]
    refine card_le_clique_number ?_ ?_
    · intro j hj
      obtain ⟨i, hi, hie⟩ := Finset.mem_image.mp hj
      subst hie
      exact Finset.mem_range.mpr (hq i (hmem i hi))
    · intro u hu v hv hne
      obtain ⟨a, ha, hae⟩ := Finset.mem_image.mp hu
      obtain ⟨b, hb, hbe⟩ := Finset.mem_image.mp hv
      subst hae
      subst hbe
      have hab : a ≠ b := fun h => hne (by rw [h])
      exact ((hchar a b (hmem a ha) (hmem b hb)).mp (hc a ha b hb hab)).2
  · refine clique_number_le ?_
    intro s hsub hc
    have hmem : ∀ i ∈ s, i < n := fun i hi => Finset.mem_range.mp (hsub hi)
    have hinj : Set.InjOn (fun v => (build_perm n invperm).getD v 0) ↑s := by
      intro a ha b hb hab
      have h1 := (hqp a (hmem a ha)).2
      have h2 := (hqp b (hmem b hb)).2
      simp only at hab
      rw [hab] at h1
      rw [← h1, h2]
    rw [← Finset.card_image_of_injOn hinj]
    refine card_le_clique_number ?_ ?_
    · intro j hj
      obtain ⟨i, hi, hie⟩ := Finset.mem_image.mp hj
      subst hie
      exact Finset.mem_range.mpr (hqp i (hmem i hi)).1
    · intro u hu v hv hne
      obtain ⟨a, ha, hae⟩ := Finset.mem_image.mp hu
      obtain ⟨b, hb, hbe⟩ := Finset.mem_image.mp hv
      subst hae
      subst hbe
      have hab : a ≠ b := fun h => hne (by rw [h])
      refine (hchar ((build_perm n invperm).getD a 0)
        ((build_perm n invperm).getD b 0)
        ((hqp a (hmem a ha)).1) ((hqp b (hmem b hb)).1)).mpr ⟨?_, ?_⟩
      · intro h
        have h1 := (hqp a (hmem a ha)).2
        have h2 := (hqp b (hmem b hb)).2
        rw [h] at h2
        exact hab (h1.symm.trans h2)
      · rw [(hqp a (hmem a ha)).2, (hqp b (hmem b hb)).2]
        exact hc a ha b hb hab

/-- The relationship between the graph handed to the solver (`adj2`) and the
input graph (`adj`) established by the (possibly trivial) reordering:
`invperm` injects new indices into old ones, adjacency transfers along it,
and the clique number is preserved. -/
def ReorderOK (n : Nat) (adj adj2 invperm : List Nat) : Prop :=
  AdjWF n adj2 ∧
  (∀ i, i < n → invperm.getD i 0 < n) ∧
  (∀ i j, i < n → j < n → invperm.getD i 0 = invperm.getD j 0 → i = j) ∧
  (∀ a b, a < n → b < n →
    ((adj2.getD a 0).testBit b = true ↔
      b ≠ a ∧ (adj.getD (invperm.getD a 0) 0).testBit (invperm.getD b 0) = true)) ∧
  clique_number n adj2 = clique_number n adj

theorem reorder_ok_reordered {n : Nat} {adj : List Nat} (hwf : AdjWF n adj) :
    ReorderOK n adj (reorder_by_degeneracy n adj).1
      (reorder_by_degeneracy n adj).2.2 := by
  have hperm : (peel adj n (List.range n) (degrees n adj)).Perm (List.range n) :=
    peel_perm adj n _ _ (by simp) (List.nodup_range n)
  obtain ⟨hplen, hq, hpq, hqp⟩ := perm_inverse_spec hperm
  have h1 : (reorder_by_degeneracy n adj).1 =
      build_new_adj n adj (build_perm n (peel adj n (List.range n) (degrees n adj))) :=
    rfl
  have h2 : (reorder_by_degeneracy n adj).2.2 =
      peel adj n (List.range n) (degrees n adj) := rfl
  rw [h1, h2]
  obtain ⟨_, _, hchar⟩ := build_new_adj_spec hwf hperm
  refine ⟨reordered_wf hwf hperm, hq, ?_, hchar, reordered_clique_number hwf hperm⟩
  intro i j hi hj hij
  have h1 := hpq i hi
  have h2 := hpq j hj
  rw [hij] at h1
  rw [← h1, h2]

theorem reorder_ok_trivial {n : Nat} {adj : List Nat} (hwf : AdjWF n adj) :
    ReorderOK n adj adj (List.range n) := by
  refine ⟨hwf, ?_, ?_, ?_, rfl⟩
  · intro i hi
    rw [getD_range hi]
    exact hi
  · intro i j hi hj hij
    rw [getD_range hi, getD_range hj] at hij
    exact hij
  · intro a b ha hb
    rw [getD_range ha, getD_range hb]
    constructor
    · intro h
      refine ⟨?_, h⟩
      intro hba
      rw [hba, hwf.irrefl a] at h
      exact absurd h (by simp)
    · exact fun h => h.2


/-! ### The orchestrator (`solve_max_clique_all`) -/

/-- Ascending sort of a vertex list (Python's `sorted`). -/
def sort_nat (l : List Nat) : List Nat :=
  isort (fun a b => decide (a ≤ b)) l

/-- Lexicographic comparison of vertex lists, as Python compares tuples. -/
def list_lex_le : List Nat → List Nat → Bool
  | [], _ => true
  | _ :: _, [] => false
  | a :: l1, b :: l2 =>
    if a < b then true else if b < a then false else list_lex_le l1 l2

/-- `sorted({tuple(sorted(c)) for c in cliques})`: the distinct canonical
forms in ascending lexicographic order.  Deduplicating first and sorting
after gives the same value, because distinct tuples have a unique ascending
enumeration. -/
def canon_cliques (cliques : List (List Nat)) : List (List Nat) :=
  isort list_lex_le ((cliques.map sort_nat).dedup)

/-- The record returned by `solve_max_clique_all`.  The two keys that the
`n <= 0` early return omits are modelled with `Option` (`none` = key
absent). -/
structure SolveResult where
  omega : Nat
  witness : Option (List Nat)
  max_cliques : List (List Nat)
  complete : Bool
  runtime_sec : Rat
  expanded_nodes : Nat
  reordered : Option Bool
  deriving DecidableEq, Repr

/-- The phase-1/phase-2 part of `solve_max_clique_all`, once the solved graph
`adj2` and the back-translation `invperm` are fixed: greedy lower bound,
max-size phase seeded with `max(0, lb_sz - 2)`, witness substitution when
`lb_sz > 0` and the phase-1 witness is empty, optional enumeration, and the
assembled record. -/
def solve_post (n : Nat) (adj2 invperm : List Nat) (fuel1 fuel2 : Nat)
    (time_remains : Bool) (runtime_sec : Rat) (enum_cap : Option Nat)
    (reorder : Bool) : SolveResult :=
  let lb := greedy_lb adj2 n 64
  let ms := max_size adj2 n fuel1 (max 0 (lb.1 - 2))
  let omega := ms.1
  let complete1 := ms.2.2.1
  let witness_rel :=
    if 0 < lb.1 ∧ ms.2.1 = [] then
      (List.range n).filter (fun i => decide ((lb.2 >>> i) &&& 1 = 1))
    else ms.2.1
  let witness_abs := witness_rel.map (fun v => invperm.getD v 0)
  if time_remains && decide (0 < omega) then
    let er := enumerate_all_max adj2 n omega fuel2 enum_cap
    let cliques_abs := er.1.map (fun c => c.map (fun v => invperm.getD v 0))
    ⟨omega, some (sort_nat witness_abs), canon_cliques cliques_abs,
      complete1 && er.2.1, runtime_sec, er.2.2, some reorder⟩
  else
    ⟨omega, some (sort_nat witness_abs), [],
      complete1 && true, runtime_sec, ms.2.2.2.nodes_expanded, some reorder⟩

/-- Embeds `solve_max_clique_all`.  Wall-clock quantities are modelled by
parameters: `fuel1`/`fuel2` are the two phase deadlines (one unit of fuel
per node entry), `time_remains` is the test `t_remaining > 0`, and
`runtime_sec` is the measured total runtime, stored verbatim in the result.
A `ValueError` raised by `BitGraph.from_edges` is `none`. -/
def solve_max_clique_all (n : Nat) (edges : List (Nat × Nat)) (fuel1 fuel2 : Nat)
    (time_remains : Bool) (runtime_sec : Rat) (enum_cap : Option Nat)
    (reorder : Bool) : Option SolveResult :=
  if n = 0 then
    some ⟨0, none, [[]], true, 0, 0, none⟩
  else
    match from_edges n edges with
    | none => none
    | some adj =>
      let g2 := if reorder then reorder_by_degeneracy n adj
        else (adj, List.range n, List.range n)
      some (solve_post n g2.1 g2.2.2 fuel1 fuel2 time_remains runtime_sec
        enum_cap reorder)

/-- Modelled from the spec: the reference pipeline of the orchestrator
section, identical to `solve_max_clique_all` except that phase 1 is seeded
with `init_lb = lb_size` and the greedy mask is substituted exactly when
that phase returns `omega = lb_size` with an empty witness. -/
def solve_max_clique_all_ref (n : Nat) (edges : List (Nat × Nat)) (fuel1 fuel2 : Nat)
    (time_remains : Bool) (runtime_sec : Rat) (enum_cap : Option Nat)
    (reorder : Bool) : Option SolveResult :=
  if n = 0 then
    some ⟨0, none, [[]], true, 0, 0, none⟩
  else
    match from_edges n edges with
    | none => none
    | some adj =>
      let g2 := if reorder then reorder_by_degeneracy n adj
        else (adj, List.range n, List.range n)
      let adj2 := g2.1
      let invperm := g2.2.2
      let lb := greedy_lb adj2 n 64
      let ms := max_size adj2 n fuel1 lb.1
      let omega := ms.1
      let complete1 := ms.2.2.1
      let witness_rel :=
        if omega = lb.1 ∧ ms.2.1 = [] then
          (List.range n).filter (fun i => decide ((lb.2 >>> i) &&& 1 = 1))
        else ms.2.1
      let witness_abs := witness_rel.map (fun v => invperm.getD v 0)
      if time_remains && decide (0 < omega) then
        let er := enumerate_all_max adj2 n omega fuel2 enum_cap
        let cliques_abs := er.1.map (fun c => c.map (fun v => invperm.getD v 0))
        some ⟨omega, some (sort_nat witness_abs), canon_cliques cliques_abs,
          complete1 && er.2.1, runtime_sec, er.2.2, some reorder⟩
      else
        some ⟨omega, some (sort_nat witness_abs), [],
          complete1 && true, runtime_sec, ms.2.2.2.nodes_expanded, some reorder⟩

/-- Splitting `solve_max_clique_all = some r` into the early return and the
main pipeline through `solve_post`. -/
theorem solve_some_elim {n : Nat} {edges : List (Nat × Nat)} {f1 f2 : Nat}
    {tr : Bool} {rt : Rat} {cap : Option Nat} {ro : Bool} {r : SolveResult}
    (hres : solve_max_clique_all n edges f1 f2 tr rt cap ro = some r) :
    (n = 0 ∧ r = ⟨0, none, [[]], true, 0, 0, none⟩) ∨
    (n ≠ 0 ∧ ∃ adj, from_edges n edges = some adj ∧
      r = solve_post n
        ((if ro then reorder_by_degeneracy n adj
          else (adj, List.range n, List.range n)).1)
        ((if ro then reorder_by_degeneracy n adj
          else (adj, List.range n, List.range n)).2.2)
        f1 f2 tr rt cap ro) := by
  by_cases hn : n = 0
  · left
    refine ⟨hn, ?_⟩
    rw [solve_max_clique_all, if_pos hn] at hres
    exact (Option.some.inj hres).symm
  · right
    rw [solve_max_clique_all, if_neg hn] at hres
    cases hfe : from_edges n edges with
    | none =>
      rw [hfe] at hres
      exact absurd hres (by simp)
    | some adj =>
      rw [hfe] at hres
      exact ⟨hn, adj, rfl, (Option.some.inj hres).symm⟩

/-- Modelled from the spec: `_greedy_lb` restricted to the first
`min n trials` start vertices, i.e. the value of `starts` on line 195 before
line 196 overwrites it. -/
def greedy_lb_ref (adj : List Nat) (n : Nat) (trials : Nat) : Nat × Nat :=
  let verts := isort
    (fun a b => decide (bit_count (adj.getD b 0) ≤ bit_count (adj.getD a 0)))
    (List.range n)
  let starts := verts.take (min n trials)
  starts.foldl (greedy_step adj) (0, 0)

theorem list_lex_le_total :
    ∀ l1 l2 : List Nat, list_lex_le l1 l2 = true ∨ list_lex_le l2 l1 = true := by
  intro l1
  induction l1 with
  | nil => intro l2; exact Or.inl rfl
  | cons a t1 ih =>
    intro l2
    cases l2 with
    | nil => exact Or.inr rfl
    | cons b t2 =>
      simp only [list_lex_le]
      rcases Nat.lt_trichotomy a b with h | h | h
      · left
        rw [if_pos h]
      · subst h
        rcases ih t2 with h2 | h2
        · left
          rw [if_neg (by omega), if_neg (by omega)]
          exact h2
        · right
          rw [if_neg (by omega), if_neg (by omega)]
          exact h2
      · right
        rw [if_pos h]

theorem list_lex_le_trans :
    ∀ l1 l2 l3 : List Nat, list_lex_le l1 l2 = true → list_lex_le l2 l3 = true →
      list_lex_le l1 l3 = true := by
  intro l1
  induction l1 with
  | nil => intro l2 l3 _ _; rfl
  | cons a t1 ih =>
    intro l2 l3 h12 h23
    cases l2 with
    | nil => exact absurd h12 (by simp [list_lex_le])
    | cons b t2 =>
      cases l3 with
      | nil => exact absurd h23 (by simp [list_lex_le])
      | cons c t3 =>
        simp only [list_lex_le] at h12 h23 ⊢
        rcases Nat.lt_trichotomy a b with hab | hab | hab
        · rcases Nat.lt_trichotomy b c with hbc | hbc | hbc
          · rw [if_pos (by omega)]
          · subst hbc
            rw [if_pos (by omega)]
          · rw [if_neg (by omega), if_pos hbc] at h23
            exact absurd h23 (by simp)
        · subst hab
          rcases Nat.lt_trichotomy a c with hbc | hbc | hbc
          · rw [if_pos hbc]
          · subst hbc
            rw [if_neg (by omega), if_neg (by omega)] at h12 h23 ⊢
            exact ih t2 t3 h12 h23
          · rw [if_neg (by omega), if_pos hbc] at h23
            exact absurd h23 (by simp)
        · rw [if_neg (by omega), if_pos hab] at h12
          exact absurd h12 (by simp)

theorem mem_canon_cliques {cliques : List (List Nat)} {l : List Nat} :
    l ∈ canon_cliques cliques ↔ ∃ c ∈ cliques, l = sort_nat c := by
  rw [canon_cliques, mem_isort, List.mem_dedup]
  constructor
  · intro h
    obtain ⟨c, hc, he⟩ := List.mem_map.mp h
    exact ⟨c, hc, he.symm⟩
  · rintro ⟨c, hc, he⟩
    exact List.mem_map.mpr ⟨c, hc, he.symm⟩

theorem canon_cliques_nodup (cliques : List (List Nat)) :
    (canon_cliques cliques).Nodup :=
  nodup_isort _ (List.nodup_dedup _)

theorem canon_cliques_sorted (cliques : List (List Nat)) :
    (canon_cliques cliques).Pairwise (fun a b => list_lex_le a b = true) :=
  pairwise_isort list_lex_le list_lex_le_total list_lex_le_trans _

theorem mem_sort_nat {l : List Nat} {v : Nat} : v ∈ sort_nat l ↔ v ∈ l :=
  mem_isort

theorem length_sort_nat (l : List Nat) : (sort_nat l).length = l.length :=
  length_isort _ l

theorem sort_nat_sorted (l : List Nat) :
    (sort_nat l).Pairwise (fun a b => a ≤ b) := by
  have := pairwise_isort (fun a b : Nat => decide (a ≤ b))
    (fun a b => by
      rcases Nat.le_total a b with h | h
      · exact Or.inl (by simp [h])
      · exact Or.inr (by simp [h]))
    (fun a b c hab hbc => by
      rw [decide_eq_true_eq] at hab hbc ⊢
      omega)
    l
  refine this.imp ?_
  intro a b h
  rw [decide_eq_true_eq] at h
  exact h

theorem sort_nat_nodup {l : List Nat} (h : l.Nodup) : (sort_nat l).Nodup :=
  nodup_isort _ h


/-! ### Scoring (`CliqueAI/scoring/clique_scoring.py`) -/

/-- Embeds `CliqueAI.graph.model.LambdaGraph`. -/
structure LambdaGraph where
  uuid : String
  label : String
  number_of_nodes : Nat
  adjacency_list : List (List Nat)

/-- Embeds `CliqueScoreCalculator.is_valid_maximum_clique`.  Python's
`set(nodes)` is modelled by `nodes.dedup`; the inner pair loop
`for j in range(i+1, len(nodes))` is the guarded double loop below. -/
def is_valid_maximum_clique (graph : LambdaGraph) (nodes : List Nat) : Bool :=
  let node_set := nodes.dedup
  if node_set.length = 0 then false
  else if node_set.length ≠ nodes.length then false
  else if ¬ (node_set.all (fun v => decide (v < graph.number_of_nodes))) then false
  else if ¬ ((List.range nodes.length).all (fun i =>
      (List.range nodes.length).all (fun j =>
        if i < j then
          (graph.adjacency_list.getD (nodes.getD i 0) []).contains (nodes.getD j 0)
        else true))) then false
  else if ((List.range graph.number_of_nodes).filter
      (fun c => ¬ (nodes.contains c))).any
      (fun c => node_set.all (fun v =>
        (graph.adjacency_list.getD c []).contains v)) then false
  else true

/-- `np.max` of a list of floats (callers guard against emptiness). -/
noncomputable def np_max (l : List ℝ) : ℝ := l.foldl max (l.headD 0)

/-- Embeds `CliqueScoreCalculator.optimality`, returning
`(rel, pr, omega, omega_normalized)`. -/
noncomputable def optimality (graph : LambdaGraph) (responses : List (List Nat)) :
    List ℝ × List ℝ × List ℝ × List ℝ :=
  let val : List ℝ := responses.map
    (fun r => if is_valid_maximum_clique graph r then (1 : ℝ) else 0)
  let size : List ℝ := (responses.zip val).map (fun p => (p.1.length : ℝ) * p.2)
  let zeros : List ℝ := List.replicate responses.length 0
  if size.length = 0 then (zeros, zeros, zeros, zeros)
  else
    let max_size := np_max size
    if max_size ≤ 0 then (zeros, zeros, zeros, zeros)
    else
      let rel := size.map (fun s => s / max_size)
      let pr := (List.range size.length).map
        (fun i => ((size.filter (fun t => decide (size.getD i 0 < t))).length : ℝ) /
          (size.length : ℝ))
      let omega := (List.range responses.length).map
        (fun i => if val.getD i 0 ≠ 0 then
            Real.exp (-(pr.getD i 0) / (rel.getD i 0))
          else 0)
      let max_omega := np_max omega
      if max_omega = 0 then (rel, pr, omega, omega)
      else (rel, pr, omega, omega.map (fun x => x / max_omega))

/-- Embeds `CliqueScoreCalculator.diversity`.  `Counter` lookups become
counting filters over the canonical forms. -/
noncomputable def diversity (graph : LambdaGraph) (responses : List (List Nat)) :
    List ℝ :=
  let val : List ℝ := responses.map
    (fun r => if is_valid_maximum_clique graph r then (1 : ℝ) else 0)
  let canonical := responses.map sort_nat
  let unq : List ℝ := canonical.map
    (fun c => 1 / ((canonical.filter (fun d => decide (d = c))).length : ℝ))
  let delta : List ℝ := (val.zip unq).map (fun p => p.1 * p.2)
  if delta.length = 0 then []
  else
    let max_delta := np_max delta
    if max_delta = 0 then delta
    else delta.map (fun x => x / max_delta)

/-- Embeds `CliqueScoreCalculator.get_scores`, returning
`(rel, pr, omega, optimality, diversity, rewards)`. -/
noncomputable def get_scores (graph : LambdaGraph) (difficulty : ℝ)
    (responses : List (List Nat)) :
    List ℝ × List ℝ × List ℝ × List ℝ × List ℝ × List ℝ :=
  match optimality graph responses with
  | (rel, pr, omega, opt) =>
    let div := diversity graph responses
    let rewards := (opt.zip div).map (fun p => p.1 * (1 + difficulty) + p.2)
    (rel, pr, omega, opt, div, rewards)

/-- The reference graph `K_4` of the scoring scenario. -/
def K4 : LambdaGraph :=
  ⟨"k4", "k4", 4, [[1, 2, 3], [0, 2, 3], [0, 1, 3], [0, 1, 2]]⟩


/-! ### Further facts feeding the claim-level theorems -/

theorem pairwise_le_map_const {α : Type} (l : List α) (k : Nat) :
    (l.map (fun _ => k)).Pairwise (fun a b : Nat => a ≤ b) := by
  induction l with
  | nil => exact List.Pairwise.nil
  | cons x t ih =>
    rw [List.map_cons]
    refine List.pairwise_cons.mpr ⟨?_, ih⟩
    intro y hy
    obtain ⟨_, _, rfl⟩ := List.mem_map.mp hy
    exact le_refl k

theorem color_sort_aux_colors_mono :
    ∀ f P c (adj : List Nat), P ≤ f →
      (color_sort_aux f adj P c).2.Pairwise (fun a b => a ≤ b) := by
  intro f
  induction f with
  | zero =>
    intro P c adj h
    have : P = 0 := by omega
    subst this
    simp [color_sort_aux]
  | succ f ih =>
    intro P c adj h
    by_cases h0 : P = 0
    · subst h0
      simp [color_sort_aux]
    · have hP : 0 < P := by omega
      obtain ⟨clsmask, clsmem, clsnodup, clspw⟩ := color_class_spec P P (le_refl P) adj
      set cls := color_class P adj P with hcls
      set P2 := and_not P cls.2 with hP2
      have hlsb : lsb_index P ∈ cls.1 := color_class_head adj hP (le_refl P)
      have hP2f : P2 ≤ f := by
        have h1 : P2 ≤ P := and_not_le ..
        have h3 : P2 ≠ P := by
          intro he
          have hbv : P2.testBit (lsb_index P) = false := by
            rw [hP2, testBit_and_not, (clsmask _).mpr hlsb]
            simp
          rw [he, (lsb_index_spec P hP).1] at hbv
          exact absurd hbv (by simp)
        omega
      obtain ⟨_, _, _, rcol, _⟩ := color_sort_aux_spec f P2 (c + 1) adj hP2f
      set rest := color_sort_aux f adj P2 (c + 1) with hrest
      have hunfold : color_sort_aux (f + 1) adj P c =
          (cls.1 ++ rest.1, cls.1.map (fun _ => c + 1) ++ rest.2) := by
        simp only [color_sort_aux, h0, if_false]
      rw [hunfold]
      refine List.pairwise_append.mpr
        ⟨pairwise_le_map_const cls.1 (c + 1), ih P2 (c + 1) adj hP2f, ?_⟩
      intro a ha b hb
      obtain ⟨_, _, rfl⟩ := List.mem_map.mp ha
      have := rcol b hb
      omega

/-- Colours are non-decreasing along the order. -/
theorem color_sort_colors_mono (P : Nat) (adj : List Nat) :
    (color_sort P adj).2.Pairwise (fun a b => a ≤ b) := by
  unfold color_sort
  exact color_sort_aux_colors_mono P P 0 adj (le_refl P)

theorem clique_number_pos {n : Nat} (adj : List Nat) (hn : 0 < n) :
    1 ≤ clique_number n adj := by
  have hsub : ({0} : Finset Nat) ⊆ Finset.range n := by
    intro j hj
    rw [Finset.mem_singleton] at hj
    subst hj
    exact Finset.mem_range.mpr hn
  have hcl : CliqueFinset adj ({0} : Finset Nat) := by
    intro u hu v hv hne
    rw [Finset.mem_singleton] at hu hv
    exact absurd (hu.trans hv.symm) hne
  have := card_le_clique_number hsub hcl
  rw [Finset.card_singleton] at this
  exact this

/-- A clique of maximum size cannot be extended: any vertex below `n`
adjacent to all members is already a member. -/
theorem max_clique_nonextendable {n : Nat} {adj2 : List Nat} {W : Nat}
    (hwf2 : AdjWF n adj2) (hcl : CliqueMask adj2 W)
    (hbc : bit_count W = clique_number n adj2) (hlt : W < 2 ^ n) :
    ∀ w, w < n → (∀ q, W.testBit q = true → (adj2.getD q 0).testBit w = true) →
      W.testBit w = true := by
  intro w hw hnb
  by_contra hnotin
  rw [Bool.not_eq_true] at hnotin
  have hW' : CliqueMask adj2 (W ||| 2 ^ w) := cliqueMask_union_vertex hwf2 hcl hnb
  have hbc' : bit_count (W ||| 2 ^ w) = bit_count W + 1 := bit_count_lor_two_pow hnotin
  have hsub : set_bits (W ||| 2 ^ w) ⊆ Finset.range n := by
    intro j hj
    rw [mem_set_bits, Nat.testBit_or, Bool.or_eq_true, Nat.testBit_two_pow,
      decide_eq_true_eq] at hj
    rcases hj with hj | hj
    · exact Finset.mem_range.mpr (testBit_lt_of_lt_two_pow hlt hj)
    · exact Finset.mem_range.mpr (by omega)
  have := card_le_clique_number hsub (cliqueMask_iff_finset.mp hW')
  rw [← bit_count_eq_card, hbc', hbc] at this
  omega

/-- Everything phase 1 guarantees when it completes on a nonempty graph:
the size is the clique number, the witness substitution does not fire, and
the returned witness list is the sorted listing of a maximum clique mask. -/
theorem solve_phase1_spec {n : Nat} {adj2 : List Nat} (hwf2 : AdjWF n adj2)
    (f1 : Nat) (hn : 0 < n)
    (hc1 : (max_size adj2 n f1 (max 0 ((greedy_lb adj2 n 64).1 - 2))).2.2.1 = true) :
    (max_size adj2 n f1 (max 0 ((greedy_lb adj2 n 64).1 - 2))).1 =
      clique_number n adj2 ∧
    ¬ (0 < (greedy_lb adj2 n 64).1 ∧
        (max_size adj2 n f1 (max 0 ((greedy_lb adj2 n 64).1 - 2))).2.1 = []) ∧
    ∃ W, (max_size adj2 n f1 (max 0 ((greedy_lb adj2 n 64).1 - 2))).2.1 =
        bits_to_list W ∧ W ≠ 0 ∧ CliqueMask adj2 W ∧
      bit_count W = clique_number n adj2 ∧ W < 2 ^ n := by
  have hlb := greedy_lb_le_omega hwf2 64
  have homega1 := clique_number_pos adj2 hn
  have hinit : max 0 ((greedy_lb adj2 n 64).1 - 2) < clique_number n adj2 := by
    omega
  have heq := max_size_complete_eq hwf2 f1 (max 0 ((greedy_lb adj2 n 64).1 - 2)) hc1
  have homega : (max_size adj2 n f1 (max 0 ((greedy_lb adj2 n 64).1 - 2))).1 =
      clique_number n adj2 := by
    rw [heq]
    omega
  obtain ⟨hstinv, hs1, hs2⟩ := max_size_inv hwf2 f1 (max 0 ((greedy_lb adj2 n 64).1 - 2))
  have hb0 : (max_size adj2 n f1
      (max 0 ((greedy_lb adj2 n 64).1 - 2))).2.2.2.best_bits ≠ 0 := by
    intro hz
    have hbest := hstinv.2.1 hz
    rw [← hs1, homega] at hbest
    omega
  obtain ⟨hcl, hbc, hlt2⟩ := hstinv.2.2 hb0
  refine ⟨homega, ?_,
    (max_size adj2 n f1 (max 0 ((greedy_lb adj2 n 64).1 - 2))).2.2.2.best_bits,
    hs2, hb0, hcl, ?_, hlt2⟩
  · rintro ⟨_, hemp⟩
    rw [hs2, bits_to_list_eq_nil_iff] at hemp
    exact hb0 hemp
  · rw [hbc, ← hs1, homega]

/-- Mapping the sorted listing of a clique mask of the solved graph through
`invperm` gives a duplicate-free clique list of the input graph. -/
theorem mapped_clique_spec {n : Nat} {adj adj2 invperm : List Nat}
    (hrok : ReorderOK n adj adj2 invperm) {m : Nat}
    (hcl : CliqueMask adj2 m) (hlt : m < 2 ^ n) :
    ((bits_to_list m).map (fun v => invperm.getD v 0)).length = bit_count m ∧
    ((bits_to_list m).map (fun v => invperm.getD v 0)).Nodup ∧
    (∀ v ∈ (bits_to_list m).map (fun v => invperm.getD v 0), v < n) ∧
    (∀ u ∈ (bits_to_list m).map (fun v => invperm.getD v 0),
      ∀ v ∈ (bits_to_list m).map (fun v => invperm.getD v 0), u ≠ v →
        (adj.getD u 0).testBit v = true) := by
  obtain ⟨hwf2, hqlt, hqinj, hchar, _⟩ := hrok
  have hbit : ∀ j ∈ bits_to_list m, j < n := fun j hj =>
    testBit_lt_of_lt_two_pow hlt (mem_bits_to_list.mp hj)
  refine ⟨?_, ?_, ?_, ?_⟩
  · rw [List.length_map, bit_count_eq_length_bits]
  · refine List.Nodup.map_on ?_ (bits_to_list_nodup m)
    intro a ha b hb hab
    exact hqinj a b (hbit a ha) (hbit b hb) hab
  · intro v hv
    obtain ⟨a, ha, rfl⟩ := List.mem_map.mp hv
    exact hqlt a (hbit a ha)
  · intro u hu v hv hne
    obtain ⟨a, ha, rfl⟩ := List.mem_map.mp hu
    obtain ⟨b, hb, rfl⟩ := List.mem_map.mp hv
    have hab : a ≠ b := fun h => hne (by rw [h])
    have h2 : (adj2.getD a 0).testBit b = true :=
      hcl a b (mem_bits_to_list.mp ha) (mem_bits_to_list.mp hb) hab
    exact ((hchar a b (hbit a ha) (hbit b hb)).mp h2).2

/-- `solve_post` when the enumeration phase runs. -/
theorem solve_post_enum (n : Nat) (adj2 invperm : List Nat) (f1 f2 : Nat)
    (tr : Bool) (rt : Rat) (cap : Option Nat) (ro : Bool)
    (h : (tr && decide (0 <
      (max_size adj2 n f1 (max 0 ((greedy_lb adj2 n 64).1 - 2))).1)) = true) :
    solve_post n adj2 invperm f1 f2 tr rt cap ro =
      ⟨(max_size adj2 n f1 (max 0 ((greedy_lb adj2 n 64).1 - 2))).1,
        some (sort_nat ((if 0 < (greedy_lb adj2 n 64).1 ∧
              (max_size adj2 n f1 (max 0 ((greedy_lb adj2 n 64).1 - 2))).2.1 = [] then
            (List.range n).filter
              (fun i => decide (((greedy_lb adj2 n 64).2 >>> i) &&& 1 = 1))
          else
            (max_size adj2 n f1 (max 0 ((greedy_lb adj2 n 64).1 - 2))).2.1).map
          (fun v => invperm.getD v 0))),
        canon_cliques
          ((enumerate_all_max adj2 n
              (max_size adj2 n f1 (max 0 ((greedy_lb adj2 n 64).1 - 2))).1 f2
              cap).1.map (fun c => c.map (fun v => invperm.getD v 0))),
        (max_size adj2 n f1 (max 0 ((greedy_lb adj2 n 64).1 - 2))).2.2.1 &&
          (enumerate_all_max adj2 n
            (max_size adj2 n f1 (max 0 ((greedy_lb adj2 n 64).1 - 2))).1 f2
            cap).2.1,
        rt,
        (enumerate_all_max adj2 n
          (max_size adj2 n f1 (max 0 ((greedy_lb adj2 n 64).1 - 2))).1 f2 cap).2.2,
        some ro⟩ := by
  simp only [solve_post]
  rw [if_pos h]

/-- `solve_post` when the enumeration phase is skipped. -/
theorem solve_post_noenum (n : Nat) (adj2 invperm : List Nat) (f1 f2 : Nat)
    (tr : Bool) (rt : Rat) (cap : Option Nat) (ro : Bool)
    (h : (tr && decide (0 <
      (max_size adj2 n f1 (max 0 ((greedy_lb adj2 n 64).1 - 2))).1)) = false) :
    solve_post n adj2 invperm f1 f2 tr rt cap ro =
      ⟨(max_size adj2 n f1 (max 0 ((greedy_lb adj2 n 64).1 - 2))).1,
        some (sort_nat ((if 0 < (greedy_lb adj2 n 64).1 ∧
              (max_size adj2 n f1 (max 0 ((greedy_lb adj2 n 64).1 - 2))).2.1 = [] then
            (List.range n).filter
              (fun i => decide (((greedy_lb adj2 n 64).2 >>> i) &&& 1 = 1))
          else
            (max_size adj2 n f1 (max 0 ((greedy_lb adj2 n 64).1 - 2))).2.1).map
          (fun v => invperm.getD v 0))),
        [],
        (max_size adj2 n f1 (max 0 ((greedy_lb adj2 n 64).1 - 2))).2.2.1 && true,
        rt,
        (max_size adj2 n f1
          (max 0 ((greedy_lb adj2 n 64).1 - 2))).2.2.2.nodes_expanded,
        some ro⟩ := by
  have hne : ¬ ((tr && decide (0 <
      (max_size adj2 n f1 (max 0 ((greedy_lb adj2 n 64).1 - 2))).1)) = true) := by
    rw [h]
    simp
  simp only [solve_post]
  rw [if_neg hne]

/-- The reordering branch of the orchestrator always satisfies `ReorderOK`. -/
theorem reorder_branch_ok {n : Nat} {adj : List Nat} (hwf : AdjWF n adj)
    (ro : Bool) :
    ReorderOK n adj
      ((if ro then reorder_by_degeneracy n adj
        else (adj, List.range n, List.range n)).1)
      ((if ro then reorder_by_degeneracy n adj
        else (adj, List.range n, List.range n)).2.2) := by
  cases ro
  · simpa using reorder_ok_trivial hwf
  · simpa using reorder_ok_reordered hwf


/-! ### Evaluation of the scoring scenario -/

theorem optimality_K4 :
    optimality K4 [[0, 1, 2, 3], [0, 1, 2, 3], [0, 1]] =
      ([1, 1, 0], [0, 0, 2 / 3], [1, 1, 0], [1, 1, 0]) := by
  have hv1 : is_valid_maximum_clique K4 [0, 1, 2, 3] = true := by decide
  have hv2 : is_valid_maximum_clique K4 [0, 1] = false := by decide
  have d1 : decide ((4 : ℝ) < 4) = false := by
    rw [decide_eq_false_iff_not]
    norm_num
  have d2 : decide ((4 : ℝ) < 0) = false := by
    rw [decide_eq_false_iff_not]
    norm_num
  have d3 : decide ((0 : ℝ) < 4) = true := by
    rw [decide_eq_true_eq]
    norm_num
  have m1 : max (4 : ℝ) 4 = 4 := max_self 4
  have m2 : max (4 : ℝ) 0 = 4 := by
    rw [max_eq_left]
    norm_num
  have m3 : max (1 : ℝ) 1 = 1 := max_self 1
  have m4 : max (1 : ℝ) 0 = 1 := by
    rw [max_eq_left]
    norm_num
  unfold optimality
  norm_num [hv1, hv2, np_max, List.filter, Real.exp_zero, List.range_succ,
    d1, d2, d3, m1, m2, m3, m4]

theorem diversity_K4 :
    diversity K4 [[0, 1, 2, 3], [0, 1, 2, 3], [0, 1]] = [1, 1, 0] := by
  have hv1 : is_valid_maximum_clique K4 [0, 1, 2, 3] = true := by decide
  have hv2 : is_valid_maximum_clique K4 [0, 1] = false := by decide
  have hs1 : sort_nat [0, 1, 2, 3] = [0, 1, 2, 3] := by decide
  have hs2 : sort_nat [0, 1] = [0, 1] := by decide
  have m1 : max (1 / 2 : ℝ) (1 / 2) = 1 / 2 := max_self _
  have m2 : max (1 / 2 : ℝ) 0 = 1 / 2 := by
    rw [max_eq_left]
    norm_num
  have f1 : ([[0, 1, 2, 3], [0, 1, 2, 3], [0, 1]] : List (List Nat)).filter
      (fun d => decide (d = [0, 1, 2, 3])) = [[0, 1, 2, 3], [0, 1, 2, 3]] := by
    decide
  have f2 : ([[0, 1, 2, 3], [0, 1, 2, 3], [0, 1]] : List (List Nat)).filter
      (fun d => decide (d = [0, 1])) = [[0, 1]] := by
    decide
  unfold diversity
  norm_num [hv1, hv2, hs1, hs2, np_max, f1, f2, m1, m2]

theorem get_scores_K4_eval :
    get_scores K4 (1 / 2) [[0, 1, 2, 3], [0, 1, 2, 3], [0, 1]] =
      ([1, 1, 0], [0, 0, 2 / 3], [1, 1, 0], [1, 1, 0], [1, 1, 0],
        [5 / 2, 5 / 2, 0]) := by
  unfold get_scores
  rw [optimality_K4]
  norm_num [diversity_K4]

/-! ### The claims -/

/-- C2, counterexample: on `K_4` with responses `[0,1,2,3]`, `[0,1,2,3]`,
`[0,1]` at difficulty `0.5`, `get_scores` does not return the values the
spec's scenario lists: the diversity of the two duplicated valid responses
normalizes to `1`, not `0.5`, and their rewards are `2.5`, not `2.0`. -/
theorem C2_counterexample :
    ¬ (get_scores K4 (1 / 2) [[0, 1, 2, 3], [0, 1, 2, 3], [0, 1]] =
      ([1, 1, 0], [0, 0, 2 / 3], [1, 1, 0], [1, 1, 0], [1 / 2, 1 / 2, 0],
        [2, 2, 0])) := by
  intro h
  rw [get_scores_K4_eval] at h
  have h5 := congrArg (fun t => t.2.2.2.2.1) h
  simp only at h5
  rw [List.cons.injEq] at h5
  norm_num at h5

/-- C2, amended: with those responses, `get_scores` returns validity-driven
relative sizes `[1,1,0]`, rank pressure `[0,0,2/3]`, raw and normalized
omega `[1,1,0]`, diversity `[1,1,0]` (each duplicate gets `1/2`, normalized
by the maximum `1/2`), and rewards `optimality*(1+0.5)+diversity =
[2.5,2.5,0]`. -/
theorem C2_amended :
    get_scores K4 (1 / 2) [[0, 1, 2, 3], [0, 1, 2, 3], [0, 1]] =
      ([1, 1, 0], [0, 0, 2 / 3], [1, 1, 0], [1, 1, 0], [1, 1, 0],
        [5 / 2, 5 / 2, 0]) :=
  get_scores_K4_eval

/-- C6, counterexample: on `K_2` (`adj = [2,1]`, `P = 3`), `_color_sort`
returns `order = [0,1]`, `colors = [1,2]`, yet the clique `{0,1}` lies
entirely at positions `≥ 0` and has `2 > colors[0] = 1` vertices: `colors[i]`
does not bound cliques at positions `≥ i`. -/
theorem C6_counterexample :
    color_sort 3 [2, 1] = ([0, 1], [1, 2]) ∧
    CliqueFinset [2, 1] ({0, 1} : Finset Nat) ∧
    ({0, 1} : Finset Nat).card = 2 ∧
    (∀ v ∈ ({0, 1} : Finset Nat), Nat.testBit 3 v = true ∧ v ∈ [0, 1]) ∧
    ([1, 2].getD 0 0 < 2) := by
  refine ⟨by decide, by decide, by decide, by decide, by decide⟩

/-- C6, amended: `_color_sort` covers exactly the vertices of `P` with two
equal-length, duplicate-free parallel sequences; colours start at `1` and
are non-decreasing along the order; and `colors[k-1]` bounds the size of any
clique of `P` contained in the first `k` positions of `order` (positions
`≤ k-1`, not `≥ k-1`). -/
theorem C6_amended (P : Nat) (adj : List Nat) :
    ((color_sort P adj).1.length = (color_sort P adj).2.length) ∧
    (∀ v, v ∈ (color_sort P adj).1 ↔ P.testBit v = true) ∧
    (color_sort P adj).1.Nodup ∧
    (∀ x ∈ (color_sort P adj).2, 1 ≤ x) ∧
    (color_sort P adj).2.Pairwise (fun a b => a ≤ b) ∧
    (∀ k, 0 < k → k ≤ (color_sort P adj).1.length →
      ∀ Q, CliqueMask adj Q →
        (∀ u, Q.testBit u = true → u ∈ (color_sort P adj).1.take k) →
        bit_count Q ≤ (color_sort P adj).2.getD (k - 1) 0) := by
  obtain ⟨h1, h2, h3, h4, h5⟩ := color_sort_spec P adj
  exact ⟨h1, h2, h3, h4, color_sort_colors_mono P adj, h5⟩

/-- The 67-vertex graph separating the trial-capped greedy from the shipped
one: a triangle-free 3-regular bipartite graph on vertices `0..63` plus the
triangle `{64,65,66}`. -/
def c8_edges : List (Nat × Nat) :=
  ((List.range 32).map (fun i => (i, 32 + i % 32))) ++
  ((List.range 32).map (fun i => (i, 32 + (i + 1) % 32))) ++
  ((List.range 32).map (fun i => (i, 32 + (i + 2) % 32))) ++
  [(64, 65), (64, 66), (65, 66)]

set_option maxRecDepth 40000 in
/-- C8: `_greedy_lb` does not stop at 64 seed vertices.  Line 196 overwrites
the trial-capped start list of line 195 with all `n` vertices, so on
`c8_edges` (where the 64 highest-degree seeds all lie in the triangle-free
part) the shipped function returns a triangle while the 64-trial reference
`greedy_lb_ref` can only reach size 2. -/
theorem C8_trials_bug :
    ∃ adj, from_edges 67 c8_edges = some adj ∧
      greedy_lb adj 67 64 = (3, 129127208515966861312) ∧
      greedy_lb_ref adj 67 64 = (2, 4294967297) ∧
      greedy_lb adj 67 64 ≠ greedy_lb_ref adj 67 64 := by
  refine ⟨(from_edges 67 c8_edges).getD [], by decide, by decide, by decide,
    by decide⟩

/-- C9, counterexample: the `n <= 0` early return carries neither a
`witness` nor a `reordered` key (modelled as `none`), so the record does not
contain all seven keys. -/
theorem C9_counterexample :
    ∃ r, solve_max_clique_all 0 [] 100 100 true 0 none true = some r ∧
      r.witness = none ∧ r.reordered = none ∧ r.omega = 0 ∧
      r.max_cliques = [[]] ∧ r.complete = true ∧ r.runtime_sec = 0 ∧
      r.expanded_nodes = 0 := by
  refine ⟨⟨0, none, [[]], true, 0, 0, none⟩, by decide, rfl, rfl, rfl, rfl,
    rfl, rfl, rfl⟩


/-- Modelled from the spec: the reference pipeline of the orchestrator
section with the amended phase-1 seed `max(0, lb_size - 2)` and the amended
substitution condition `lb_size > 0` with an empty phase-1 witness; written
out independently of `solve_post`. -/
def solve_max_clique_all_amended_ref (n : Nat) (edges : List (Nat × Nat))
    (fuel1 fuel2 : Nat) (time_remains : Bool) (runtime_sec : Rat)
    (enum_cap : Option Nat) (reorder : Bool) : Option SolveResult :=
  if n = 0 then
    some ⟨0, none, [[]], true, 0, 0, none⟩
  else
    match from_edges n edges with
    | none => none
    | some adj =>
      let g2 := if reorder then reorder_by_degeneracy n adj
        else (adj, List.range n, List.range n)
      let adj2 := g2.1
      let invperm := g2.2.2
      let lb := greedy_lb adj2 n 64
      let ms := max_size adj2 n fuel1 (max 0 (lb.1 - 2))
      let omega := ms.1
      let complete1 := ms.2.2.1
      let witness_rel :=
        if 0 < lb.1 ∧ ms.2.1 = [] then
          (List.range n).filter (fun i => decide ((lb.2 >>> i) &&& 1 = 1))
        else ms.2.1
      let witness_abs := witness_rel.map (fun v => invperm.getD v 0)
      if time_remains && decide (0 < omega) then
        let er := enumerate_all_max adj2 n omega fuel2 enum_cap
        let cliques_abs := er.1.map (fun c => c.map (fun v => invperm.getD v 0))
        some ⟨omega, some (sort_nat witness_abs), canon_cliques cliques_abs,
          complete1 && er.2.1, runtime_sec, er.2.2, some reorder⟩
      else
        some ⟨omega, some (sort_nat witness_abs), [],
          complete1 && true, runtime_sec, ms.2.2.2.nodes_expanded, some reorder⟩

/-- C5, counterexample: on the triangle with no enumeration time, the
orchestrator and the spec's pipeline (phase 1 seeded with `init_lb =
lb_size`) return different records: seeding with the full greedy size makes
phase 1 prune every branch and expand 0 nodes, while the shipped seed
`max(0, lb_size - 2)` expands 3. -/
theorem C5_counterexample :
    solve_max_clique_all 3 [(0, 1), (0, 2), (1, 2)] 100 100 false 0 none
        false ≠
      solve_max_clique_all_ref 3 [(0, 1), (0, 2), (1, 2)] 100 100 false 0 none
        false := by
  decide

/-- C5, amended: the orchestrator coincides, on every input, with the
reference pipeline whose phase 1 is seeded with `init_lb = max(0,
lb_size - 2)` and which substitutes the greedy mask exactly when
`lb_size > 0` and the phase-1 witness is empty. -/
theorem C5_amended (n : Nat) (edges : List (Nat × Nat)) (fuel1 fuel2 : Nat)
    (time_remains : Bool) (runtime_sec : Rat) (enum_cap : Option Nat)
    (reorder : Bool) :
    solve_max_clique_all n edges fuel1 fuel2 time_remains runtime_sec enum_cap
        reorder =
      solve_max_clique_all_amended_ref n edges fuel1 fuel2 time_remains
        runtime_sec enum_cap reorder := by
  by_cases hn : n = 0
  · rw [solve_max_clique_all, solve_max_clique_all_amended_ref, if_pos hn,
      if_pos hn]
  · rw [solve_max_clique_all, solve_max_clique_all_amended_ref, if_neg hn,
      if_neg hn]
    cases hfe : from_edges n edges with
    | none => rfl
    | some adj =>
      dsimp only
      simp only [solve_post]
      rw [apply_ite some]

/-- C9, amended: the `n = 0` early return is exactly the five-key record
(`witness` and `reordered` absent, i.e. `none`), and every record of the
main pipeline carries all seven keys, `witness` and `reordered` included. -/
theorem C9_amended (n : Nat) (edges : List (Nat × Nat)) (f1 f2 : Nat)
    (tr : Bool) (rt : Rat) (cap : Option Nat) (ro : Bool) (r : SolveResult)
    (hres : solve_max_clique_all n edges f1 f2 tr rt cap ro = some r) :
    (n = 0 → r = ⟨0, none, [[]], true, 0, 0, none⟩) ∧
    (n ≠ 0 → (∃ w, r.witness = some w) ∧ r.reordered = some ro) := by
  rcases solve_some_elim hres with ⟨h0, hr⟩ | ⟨hne, adj, hfe, hr⟩
  · subst hr
    exact ⟨fun _ => rfl, fun hn => absurd h0 hn⟩
  · subst hr
    refine ⟨fun h0 => absurd h0 hne, fun _ => ?_⟩
    by_cases hcond : (tr && decide (0 <
        (max_size ((if ro then reorder_by_degeneracy n adj
          else (adj, List.range n, List.range n)).1) n f1
          (max 0 ((greedy_lb ((if ro then reorder_by_degeneracy n adj
            else (adj, List.range n, List.range n)).1) n 64).1 - 2))).1)) =
        true
    · rw [solve_post_enum _ _ _ _ _ _ _ _ _ hcond]
      exact ⟨⟨_, rfl⟩, rfl⟩
    · rw [solve_post_noenum _ _ _ _ _ _ _ _ _ (Bool.eq_false_iff.mpr hcond)]
      exact ⟨⟨_, rfl⟩, rfl⟩

theorem C9_amended_witness :
    (0 = 0 →
      (⟨0, none, [[]], true, 0, 0, none⟩ : SolveResult) =
        ⟨0, none, [[]], true, 0, 0, none⟩) ∧
    (0 ≠ 0 →
      (∃ w, (⟨0, none, [[]], true, 0, 0, none⟩ : SolveResult).witness =
        some w) ∧
      (⟨0, none, [[]], true, 0, 0, none⟩ : SolveResult).reordered =
        some true) :=
  C9_amended 0 [] 100 100 true 0 none true
    ⟨0, none, [[]], true, 0, 0, none⟩ (by decide)

/-- C7: a timeout in either phase surfaces only through the returned
`complete` flag: the phase still returns its record, the reported size and
witness are exactly the surviving best (`StInv` holds of it, so the partial
best is a genuine clique), and every clique collected before an enumeration
timeout or cap is a genuine clique of the target size. -/
theorem C7_timeout_preserves {n : Nat} {adj : List Nat} (hwf : AdjWF n adj)
    (fuel init_lb omega fuel2 : Nat) (cap : Option Nat) :
    ((max_size adj n fuel init_lb).1 =
        (max_size adj n fuel init_lb).2.2.2.best_size ∧
      (max_size adj n fuel init_lb).2.1 =
        bits_to_list (max_size adj n fuel init_lb).2.2.2.best_bits ∧
      StInv n adj init_lb (max_size adj n fuel init_lb).2.2.2) ∧
    (∀ l ∈ (enumerate_all_max adj n omega fuel2 cap).1,
      ∃ m, l = bits_to_list m ∧ CliqueMask adj m ∧ bit_count m = omega ∧
        m < 2 ^ n) := by
  obtain ⟨hinv, h1, h2⟩ := max_size_inv hwf fuel init_lb
  exact ⟨⟨h1, h2, hinv⟩, enumerate_sound hwf omega fuel2 cap⟩

theorem C7_timeout_preserves_witness :
    (((max_size [6, 5, 3] 3 0 0).1 =
        (max_size [6, 5, 3] 3 0 0).2.2.2.best_size ∧
      (max_size [6, 5, 3] 3 0 0).2.1 =
        bits_to_list (max_size [6, 5, 3] 3 0 0).2.2.2.best_bits ∧
      StInv 3 [6, 5, 3] 0 (max_size [6, 5, 3] 3 0 0).2.2.2) ∧
    (∀ l ∈ (enumerate_all_max [6, 5, 3] 3 3 0 none).1,
      ∃ m, l = bits_to_list m ∧ CliqueMask [6, 5, 3] m ∧ bit_count m = 3 ∧
        m < 2 ^ 3)) :=
  C7_timeout_preserves
    (from_edges_wf
      (show from_edges 3 [(0, 1), (0, 2), (1, 2)] = some [6, 5, 3] by decide))
    0 0 3 0 none

/-- C10: whenever the enumeration phase runs (time remains and `omega > 0`),
the reported `expanded_nodes` is the node count of the enumeration phase
alone, recomputed standalone here — the counter is reset on entry to
`enumerate_all_max`, so the max-size phase's expansions are discarded. -/
theorem C10_enum_nodes (n : Nat) (edges : List (Nat × Nat)) (f1 f2 : Nat)
    (rt : Rat) (cap : Option Nat) (ro : Bool) (r : SolveResult)
    (adj : List Nat) (hfe : from_edges n edges = some adj)
    (hres : solve_max_clique_all n edges f1 f2 true rt cap ro = some r)
    (homega : 0 < r.omega) :
    r.expanded_nodes =
      (enumerate_all_max
        ((if ro then reorder_by_degeneracy n adj
          else (adj, List.range n, List.range n)).1) n r.omega f2 cap).2.2 := by
  rcases solve_some_elim hres with ⟨h0, hr⟩ | ⟨hne, adj', hfe', hr⟩
  · subst hr
    simp at homega
  · rw [hfe] at hfe'
    obtain rfl : adj = adj' := Option.some.inj hfe'
    subst hr
    by_cases hcond : (true && decide (0 <
        (max_size ((if ro then reorder_by_degeneracy n adj
          else (adj, List.range n, List.range n)).1) n f1
          (max 0 ((greedy_lb ((if ro then reorder_by_degeneracy n adj
            else (adj, List.range n, List.range n)).1) n 64).1 - 2))).1)) =
        true
    · rw [solve_post_enum _ _ _ _ _ _ _ _ _ hcond]
    · rw [solve_post_noenum _ _ _ _ _ _ _ _ _
        (Bool.eq_false_iff.mpr hcond)] at homega
      rw [Bool.true_and, decide_eq_true_eq] at hcond
      exact absurd homega hcond

theorem C10_enum_nodes_witness :
    (⟨3, some [0, 1, 2], [[0, 1, 2]], true, 0, 3, some false⟩ :
        SolveResult).expanded_nodes =
      (enumerate_all_max
        ((if false then reorder_by_degeneracy 3 [6, 5, 3]
          else ([6, 5, 3], List.range 3, List.range 3)).1) 3
        (⟨3, some [0, 1, 2], [[0, 1, 2]], true, 0, 3, some false⟩ :
          SolveResult).omega 100 none).2.2 :=
  C10_enum_nodes 3 [(0, 1), (0, 2), (1, 2)] 100 100 0 none false
    ⟨3, some [0, 1, 2], [[0, 1, 2]], true, 0, 3, some false⟩ [6, 5, 3]
    (by decide) (by decide) (by decide)


/-- C1: whenever the solver reports `complete = true` on a nonempty graph,
the returned `omega` is the clique number of the input edge list, every
listed clique has `omega` vertices of the input graph that are pairwise
connected by listed edges, and the collection is duplicate-free and
lexicographically sorted. -/
theorem C1_complete_solution (n : Nat) (edges : List (Nat × Nat)) (f1 f2 : Nat)
    (tr : Bool) (rt : Rat) (cap : Option Nat) (ro : Bool) (r : SolveResult)
    (hn : 0 < n)
    (hres : solve_max_clique_all n edges f1 f2 tr rt cap ro = some r)
    (hcomp : r.complete = true) :
    r.omega = input_clique_number n edges ∧
    (∀ l ∈ r.max_cliques, l.length = r.omega ∧ (∀ v ∈ l, v < n) ∧
      (∀ u ∈ l, ∀ v ∈ l, u ≠ v → ((u, v) ∈ edges ∨ (v, u) ∈ edges))) ∧
    r.max_cliques.Nodup ∧
    r.max_cliques.Pairwise (fun a b => list_lex_le a b = true) := by
  rcases solve_some_elim hres with ⟨h0, _⟩ | ⟨hne, adj, hfe, hr⟩
  · omega
  · have hwf := from_edges_wf hfe
    have hrok := reorder_branch_ok hwf ro
    set A2 := (if ro then reorder_by_degeneracy n adj
      else (adj, List.range n, List.range n)).1 with hA2
    set IV := (if ro then reorder_by_degeneracy n adj
      else (adj, List.range n, List.range n)).2.2 with hIV
    subst hr
    by_cases hcond : (tr && decide (0 <
        (max_size A2 n f1 (max 0 ((greedy_lb A2 n 64).1 - 2))).1)) = true
    · rw [solve_post_enum _ _ _ _ _ _ _ _ _ hcond] at hcomp ⊢
      have hcomp' :
          ((max_size A2 n f1 (max 0 ((greedy_lb A2 n 64).1 - 2))).2.2.1 &&
            (enumerate_all_max A2 n
              (max_size A2 n f1 (max 0 ((greedy_lb A2 n 64).1 - 2))).1 f2
              cap).2.1) = true := hcomp
      rw [Bool.and_eq_true] at hcomp'
      obtain ⟨hc1, hc2⟩ := hcomp'
      obtain ⟨hsz, hnosub, W, hWlist, hWne, hWcl, hWbc, hWlt⟩ :=
        solve_phase1_spec hrok.1 f1 hn hc1
      have homega_eq : (max_size A2 n f1
          (max 0 ((greedy_lb A2 n 64).1 - 2))).1 =
          input_clique_number n edges := by
        rw [hsz, hrok.2.2.2.2, ← input_clique_number_eq hfe]
      refine ⟨homega_eq, ?_, canon_cliques_nodup _, canon_cliques_sorted _⟩
      intro l hl
      obtain ⟨c, hcmem, hleq⟩ := mem_canon_cliques.mp hl
      subst hleq
      obtain ⟨c0, hc0, hc0eq⟩ := List.mem_map.mp hcmem
      subst hc0eq
      obtain ⟨m, hm0, hmcl, hmbc, hmlt⟩ :=
        enumerate_sound hrok.1
          (max_size A2 n f1 (max 0 ((greedy_lb A2 n 64).1 - 2))).1 f2 cap c0 hc0
      subst hm0
      obtain ⟨hmaplen, hmapnd, hmaplt, hmapcl⟩ := mapped_clique_spec hrok hmcl hmlt
      refine ⟨?_, ?_, ?_⟩
      · rw [length_sort_nat, hmaplen, hmbc]
      · intro v hv
        rw [mem_sort_nat] at hv
        exact hmaplt v hv
      · intro u hu v hv hne2
        rw [mem_sort_nat] at hu hv
        exact (((from_edges_char hfe).2 u v).mp (hmapcl u hu v hv hne2)).2.2.2
    · rw [solve_post_noenum _ _ _ _ _ _ _ _ _
        (Bool.eq_false_iff.mpr hcond)] at hcomp ⊢
      have hcomp' :
          ((max_size A2 n f1 (max 0 ((greedy_lb A2 n 64).1 - 2))).2.2.1 &&
            true) = true := hcomp
      rw [Bool.and_true] at hcomp'
      obtain ⟨hsz, _, _⟩ := solve_phase1_spec hrok.1 f1 hn hcomp'
      refine ⟨?_, ?_, List.nodup_nil, List.Pairwise.nil⟩
      · show (max_size A2 n f1 (max 0 ((greedy_lb A2 n 64).1 - 2))).1 =
          input_clique_number n edges
        rw [hsz, hrok.2.2.2.2, ← input_clique_number_eq hfe]
      · intro l hl
        exact absurd hl (List.not_mem_nil l)

theorem C1_complete_solution_witness :
    (⟨3, some [0, 1, 2], [[0, 1, 2]], true, 0, 3, some false⟩ :
        SolveResult).omega =
      input_clique_number 3 [(0, 1), (0, 2), (1, 2)] ∧
    (∀ l ∈ (⟨3, some [0, 1, 2], [[0, 1, 2]], true, 0, 3, some false⟩ :
        SolveResult).max_cliques,
      l.length = (⟨3, some [0, 1, 2], [[0, 1, 2]], true, 0, 3, some false⟩ :
        SolveResult).omega ∧
      (∀ v ∈ l, v < 3) ∧
      (∀ u ∈ l, ∀ v ∈ l, u ≠ v →
        ((u, v) ∈ [(0, 1), (0, 2), (1, 2)] ∨
          (v, u) ∈ [(0, 1), (0, 2), (1, 2)]))) ∧
    (⟨3, some [0, 1, 2], [[0, 1, 2]], true, 0, 3, some false⟩ :
      SolveResult).max_cliques.Nodup ∧
    (⟨3, some [0, 1, 2], [[0, 1, 2]], true, 0, 3, some false⟩ :
      SolveResult).max_cliques.Pairwise (fun a b => list_lex_le a b = true) :=
  C1_complete_solution 3 [(0, 1), (0, 2), (1, 2)] 100 100 true 0 none false
    ⟨3, some [0, 1, 2], [[0, 1, 2]], true, 0, 3, some false⟩ (by decide)
    (by decide) (by decide)

/-- C3, counterexample: with a zero phase-1 budget on the triangle, the
substituted greedy witness `[0,1,2]` is not an element of the enumerated
`max_cliques = [[0]]`, although both are non-empty. -/
theorem C3_counterexample :
    solve_max_clique_all 3 [(0, 1), (0, 2), (1, 2)] 0 100 true 0 none false =
      some ⟨1, some [0, 1, 2], [[0]], false, 0, 7, some false⟩ ∧
    ([0, 1, 2] : List Nat) ∉ ([[0]] : List (List Nat)) ∧
    ([[0]] : List (List Nat)) ≠ [] ∧ ([0, 1, 2] : List Nat) ≠ [] := by
  refine ⟨by decide, by decide, by decide, by decide⟩

/-- C3, amended: when the run is `complete` (so neither deadline fired and
no cap was hit), a non-empty witness is always an element of a non-empty
`max_cliques`. -/
theorem C3_amended (n : Nat) (edges : List (Nat × Nat)) (f1 f2 : Nat)
    (tr : Bool) (rt : Rat) (cap : Option Nat) (ro : Bool) (r : SolveResult)
    (w : List Nat)
    (hres : solve_max_clique_all n edges f1 f2 tr rt cap ro = some r)
    (hcomp : r.complete = true) (hw : r.witness = some w) (hwne : w ≠ [])
    (hmc : r.max_cliques ≠ []) :
    w ∈ r.max_cliques := by
  rcases solve_some_elim hres with ⟨h0, hr⟩ | ⟨hne, adj, hfe, hr⟩
  · subst hr
    simp at hw
  · have hwf := from_edges_wf hfe
    have hrok := reorder_branch_ok hwf ro
    set A2 := (if ro then reorder_by_degeneracy n adj
      else (adj, List.range n, List.range n)).1 with hA2
    set IV := (if ro then reorder_by_degeneracy n adj
      else (adj, List.range n, List.range n)).2.2 with hIV
    subst hr
    by_cases hcond : (tr && decide (0 <
        (max_size A2 n f1 (max 0 ((greedy_lb A2 n 64).1 - 2))).1)) = true
    · rw [solve_post_enum _ _ _ _ _ _ _ _ _ hcond] at hcomp hw ⊢
      have hcomp' :
          ((max_size A2 n f1 (max 0 ((greedy_lb A2 n 64).1 - 2))).2.2.1 &&
            (enumerate_all_max A2 n
              (max_size A2 n f1 (max 0 ((greedy_lb A2 n 64).1 - 2))).1 f2
              cap).2.1) = true := hcomp
      rw [Bool.and_eq_true] at hcomp'
      obtain ⟨hc1, hc2⟩ := hcomp'
      obtain ⟨hsz, hnosub, W, hWlist, hWne, hWcl, hWbc, hWlt⟩ :=
        solve_phase1_spec hrok.1 f1 (Nat.pos_of_ne_zero hne) hc1
      have hw2 : some (sort_nat
          ((if 0 < (greedy_lb A2 n 64).1 ∧
              (max_size A2 n f1 (max 0 ((greedy_lb A2 n 64).1 - 2))).2.1 = []
            then (List.range n).filter
              (fun i => decide (((greedy_lb A2 n 64).2 >>> i) &&& 1 = 1))
            else (max_size A2 n f1
              (max 0 ((greedy_lb A2 n 64).1 - 2))).2.1).map
            (fun v => IV.getD v 0))) = some w := hw
      rw [if_neg hnosub, hWlist] at hw2
      have hww : w = sort_nat ((bits_to_list W).map (fun v => IV.getD v 0)) :=
        (Option.some.inj hw2).symm
      have hbits : ∀ j, W.testBit j = true → j < n := fun j hj =>
        testBit_lt_of_lt_two_pow hWlt hj
      have hmem := enumerate_complete hrok.1
        (max_size A2 n f1 (max 0 ((greedy_lb A2 n 64).1 - 2))).1 f2 cap hc2 W
        hWcl hWne (by rw [hWbc, hsz]) hbits
        (max_clique_nonextendable hrok.1 hWcl hWbc hWlt)
      rw [hww]
      exact mem_canon_cliques.mpr
        ⟨(bits_to_list W).map (fun v => IV.getD v 0),
          List.mem_map_of_mem _ hmem, rfl⟩
    · rw [solve_post_noenum _ _ _ _ _ _ _ _ _
        (Bool.eq_false_iff.mpr hcond)] at hmc
      exact absurd rfl hmc

theorem C3_amended_witness :
    ([0, 1, 2] : List Nat) ∈
      (⟨3, some [0, 1, 2], [[0, 1, 2]], true, 0, 3, some false⟩ :
        SolveResult).max_cliques :=
  C3_amended 3 [(0, 1), (0, 2), (1, 2)] 100 100 true 0 none false
    ⟨3, some [0, 1, 2], [[0, 1, 2]], true, 0, 3, some false⟩ [0, 1, 2]
    (by decide) (by decide) (by decide) (by decide) (by decide)

/-- C4, counterexample: with a zero phase-1 budget on the triangle (a
deadline firing), the returned witness `[0,1,2]` has length 3 while
`omega = 1 ≠ 0`: the witness length does not match `omega`. -/
theorem C4_counterexample :
    solve_max_clique_all 3 [(0, 1), (0, 2), (1, 2)] 0 100 true 0 none false =
      some ⟨1, some [0, 1, 2], [[0]], false, 0, 7, some false⟩ ∧
    ([0, 1, 2] : List Nat).length ≠ 1 ∧ (1 : Nat) ≠ 0 := by
  refine ⟨by decide, by decide, by decide⟩

/-- C4, amended: on a nonempty graph whose run reports `complete = true`
(in particular phase 1 finished), the witness is a sorted, duplicate-free
vertex list of length exactly `omega` forming a clique of the input graph. -/
theorem C4_amended (n : Nat) (edges : List (Nat × Nat)) (f1 f2 : Nat)
    (tr : Bool) (rt : Rat) (cap : Option Nat) (ro : Bool) (r : SolveResult)
    (hn : 0 < n)
    (hres : solve_max_clique_all n edges f1 f2 tr rt cap ro = some r)
    (hcomp : r.complete = true) :
    ∃ w, r.witness = some w ∧ w.Pairwise (fun a b => a ≤ b) ∧ w.Nodup ∧
      w.length = r.omega ∧ (∀ v ∈ w, v < n) ∧
      (∀ u ∈ w, ∀ v ∈ w, u ≠ v → ((u, v) ∈ edges ∨ (v, u) ∈ edges)) := by
  rcases solve_some_elim hres with ⟨h0, _⟩ | ⟨hne, adj, hfe, hr⟩
  · omega
  · have hwf := from_edges_wf hfe
    have hrok := reorder_branch_ok hwf ro
    set A2 := (if ro then reorder_by_degeneracy n adj
      else (adj, List.range n, List.range n)).1 with hA2
    set IV := (if ro then reorder_by_degeneracy n adj
      else (adj, List.range n, List.range n)).2.2 with hIV
    subst hr
    have main : ∀ W,
        CliqueMask A2 W → W < 2 ^ n →
        bit_count W = (max_size A2 n f1
          (max 0 ((greedy_lb A2 n 64).1 - 2))).1 →
        ∃ w, some (sort_nat ((bits_to_list W).map (fun v => IV.getD v 0))) =
            some w ∧
          w.Pairwise (fun a b => a ≤ b) ∧ w.Nodup ∧
          w.length = (max_size A2 n f1
            (max 0 ((greedy_lb A2 n 64).1 - 2))).1 ∧
          (∀ v ∈ w, v < n) ∧
          (∀ u ∈ w, ∀ v ∈ w, u ≠ v →
            ((u, v) ∈ edges ∨ (v, u) ∈ edges)) := by
      intro W hWcl hWlt hWbc
      obtain ⟨hmaplen, hmapnd, hmaplt, hmapcl⟩ := mapped_clique_spec hrok hWcl hWlt
      refine ⟨_, rfl, sort_nat_sorted _, sort_nat_nodup hmapnd, ?_, ?_, ?_⟩
      · rw [length_sort_nat, hmaplen, hWbc]
      · intro v hv
        rw [mem_sort_nat] at hv
        exact hmaplt v hv
      · intro u hu v hv hne2
        rw [mem_sort_nat] at hu hv
        exact (((from_edges_char hfe).2 u v).mp (hmapcl u hu v hv hne2)).2.2.2
    by_cases hcond : (tr && decide (0 <
        (max_size A2 n f1 (max 0 ((greedy_lb A2 n 64).1 - 2))).1)) = true
    · rw [solve_post_enum _ _ _ _ _ _ _ _ _ hcond] at hcomp ⊢
      have hcomp' :
          ((max_size A2 n f1 (max 0 ((greedy_lb A2 n 64).1 - 2))).2.2.1 &&
            (enumerate_all_max A2 n
              (max_size A2 n f1 (max 0 ((greedy_lb A2 n 64).1 - 2))).1 f2
              cap).2.1) = true := hcomp
      rw [Bool.and_eq_true] at hcomp'
      obtain ⟨hsz, hnosub, W, hWlist, hWne, hWcl, hWbc, hWlt⟩ :=
        solve_phase1_spec hrok.1 f1 hn hcomp'.1
      have hwfield : (if 0 < (greedy_lb A2 n 64).1 ∧
            (max_size A2 n f1 (max 0 ((greedy_lb A2 n 64).1 - 2))).2.1 = []
          then (List.range n).filter
            (fun i => decide (((greedy_lb A2 n 64).2 >>> i) &&& 1 = 1))
          else (max_size A2 n f1
            (max 0 ((greedy_lb A2 n 64).1 - 2))).2.1) = bits_to_list W := by
        rw [if_neg hnosub, hWlist]
      show ∃ w, some (sort_nat ((if 0 < (greedy_lb A2 n 64).1 ∧
            (max_size A2 n f1 (max 0 ((greedy_lb A2 n 64).1 - 2))).2.1 = []
          then (List.range n).filter
            (fun i => decide (((greedy_lb A2 n 64).2 >>> i) &&& 1 = 1))
          else (max_size A2 n f1
            (max 0 ((greedy_lb A2 n 64).1 - 2))).2.1).map
          (fun v => IV.getD v 0))) = some w ∧
        w.Pairwise (fun a b => a ≤ b) ∧ w.Nodup ∧
        w.length = (max_size A2 n f1
          (max 0 ((greedy_lb A2 n 64).1 - 2))).1 ∧
        (∀ v ∈ w, v < n) ∧
        (∀ u ∈ w, ∀ v ∈ w, u ≠ v → ((u, v) ∈ edges ∨ (v, u) ∈ edges))
      rw [hwfield]
      exact main W hWcl hWlt (by rw [hWbc, hsz])
    · rw [solve_post_noenum _ _ _ _ _ _ _ _ _
        (Bool.eq_false_iff.mpr hcond)] at hcomp ⊢
      have hcomp' :
          ((max_size A2 n f1 (max 0 ((greedy_lb A2 n 64).1 - 2))).2.2.1 &&
            true) = true := hcomp
      rw [Bool.and_true] at hcomp'
      obtain ⟨hsz, hnosub, W, hWlist, hWne, hWcl, hWbc, hWlt⟩ :=
        solve_phase1_spec hrok.1 f1 hn hcomp'
      have hwfield : (if 0 < (greedy_lb A2 n 64).1 ∧
            (max_size A2 n f1 (max 0 ((greedy_lb A2 n 64).1 - 2))).2.1 = []
          then (List.range n).filter
            (fun i => decide (((greedy_lb A2 n 64).2 >>> i) &&& 1 = 1))
          else (max_size A2 n f1
            (max 0 ((greedy_lb A2 n 64).1 - 2))).2.1) = bits_to_list W := by
        rw [if_neg hnosub, hWlist]
      show ∃ w, some (sort_nat ((if 0 < (greedy_lb A2 n 64).1 ∧
            (max_size A2 n f1 (max 0 ((greedy_lb A2 n 64).1 - 2))).2.1 = []
          then (List.range n).filter
            (fun i => decide (((greedy_lb A2 n 64).2 >>> i) &&& 1 = 1))
          else (max_size A2 n f1
            (max 0 ((greedy_lb A2 n 64).1 - 2))).2.1).map
          (fun v => IV.getD v 0))) = some w ∧
        w.Pairwise (fun a b => a ≤ b) ∧ w.Nodup ∧
        w.length = (max_size A2 n f1
          (max 0 ((greedy_lb A2 n 64).1 - 2))).1 ∧
        (∀ v ∈ w, v < n) ∧
        (∀ u ∈ w, ∀ v ∈ w, u ≠ v → ((u, v) ∈ edges ∨ (v, u) ∈ edges))
      rw [hwfield]
      exact main W hWcl hWlt (by rw [hWbc, hsz])

theorem C4_amended_witness :
    ∃ w, (⟨3, some [0, 1, 2], [[0, 1, 2]], true, 0, 3, some false⟩ :
        SolveResult).witness = some w ∧
      w.Pairwise (fun a b => a ≤ b) ∧ w.Nodup ∧
      w.length = (⟨3, some [0, 1, 2], [[0, 1, 2]], true, 0, 3, some false⟩ :
        SolveResult).omega ∧
      (∀ v ∈ w, v < 3) ∧
      (∀ u ∈ w, ∀ v ∈ w, u ≠ v →
        ((u, v) ∈ [(0, 1), (0, 2), (1, 2)] ∨
          (v, u) ∈ [(0, 1), (0, 2), (1, 2)])) :=
  C4_amended 3 [(0, 1), (0, 2), (1, 2)] 100 100 true 0 none false
    ⟨3, some [0, 1, 2], [[0, 1, 2]], true, 0, 3, some false⟩ (by decide)
    (by decide) (by decide)

end CliqueAI
